import Mathlib

/-! # cespare/matasano: PKCS#7 padding, the ECB / CBC block modes, the oracles

A shallow embedding of `pkcs7/pkcs7.go`, `cbc.go`, `ecb.go`, `bytes.go`
(`Xor`), `oracle.go` (`AESOracle`, `IsECB`, `AESOracle2`), `p13/p13.go` and of the parts of
`runner/set2.go` that drive them (`Problem12`, `Problem13`).

* A Go `[]byte` is a `List Byte`, a byte is a `Fin 256`.
* A Go `int` that the code only ever uses as a length or an index is a `Nat`;
  the `size` argument of `pkcs7.Pad`, which the code compares with `2` before
  using it, is an `Int`.
* A function that can panic returns `Run α`; `pkcs7.Unpad`, which returns
  `([]byte, error)` with a single error value, returns `Option (List Byte)`.
* Loops over an index are recursive functions on the number of iterations
  left; the `for len(src) > 0` loops of the block modes take a fuel argument
  that the entry points set to `len(src)`.
* `dst` and `src` of `CryptBlocks` are modelled as disjoint buffers; the calls
  `CryptBlocks(buf, buf)` have a model of their own, `CryptBlocksInPlace`.
  The models `CryptBlocksMem` and `CryptBlocksInPlaceMem` of the CBC encrypter
  also give the contents of `dst` when the call ends, by return or by panic.
* The ciphers of `crypto/aes` and the parser `url.ParseQuery` belong to the Go
  standard library and are parameters, and so is what `AESOracle` draws from
  `math/rand`.
-/

namespace Matasano

/-! ## Bytes, slices, run-time faults -/

/-- A Go `byte`. -/
abbrev Byte := Fin 256

/-- The Go conversion `byte(n)` of a non-negative `int`: the low eight bits. -/
def byte (n : Nat) : Byte := ⟨n % 256, Nat.mod_lt n (by decide)⟩

/-- The Go operator `^` on two bytes. -/
def bxor (a b : Byte) : Byte := ⟨(a.val ^^^ b.val) % 256, Nat.mod_lt _ (by decide)⟩

/-- The ways a call can end without returning. -/
inductive Fault where
  /-- The message is "Bad block size for PKCS#7 padding." -/
  | badBlockSize
  /-- The message is "IV must have length equal to blocksize." -/
  | ivLength
  /-- The message is "Source size must be a multiple of block size." -/
  | srcNotMultiple
  /-- The Go run time found an index or a slice bound out of range. -/
  | outOfRange
  /-- The Go run time found an integer division by zero. -/
  | divideByZero
  /-- The cipher was handed less than a full block: the panic of the ciphers of
  the standard library, input not full block. -/
  | notFullBlock
  /-- The message is "Not enough input to detect ECB." -/
  | notEnoughInput
  /-- The loop did not end within the fuel it was given. -/
  | fuel
  deriving DecidableEq, Repr

/-- The outcome of a call that may panic. -/
inductive Run (α : Type) where
  | ok : α → Run α
  | fault : Fault → Run α
  deriving DecidableEq, Repr

/-- Sequencing of calls that may panic. -/
def Run.bind {α β : Type} (x : Run α) (f : α → Run β) : Run β :=
  match x with
  | .ok a => f a
  | .fault e => .fault e

/-- The call ends in a Go panic: it neither returns nor runs for ever. -/
def Run.Panics {α : Type} (r : Run α) : Prop := ∃ f, r = .fault f ∧ f ≠ .fuel

/-- The Go builtin `copy(dst, src)`: the first `min (len dst) (len src)`
elements of `dst` are overwritten with those of `src`. -/
def copy (dst src : List Byte) : List Byte :=
  src.take dst.length ++ dst.drop src.length

/-- The Go expression `make([]byte, n)`. -/
def make (n : Nat) : List Byte := List.replicate n 0

/-! ## `pkcs7/pkcs7.go` -/

/-- The loop `for i := len(buf); i < len(result); i++ { result[i] = byte(n) }`
of `Pad`, with `k` iterations left and the index at `i`. -/
def padFill (c : Byte) : Nat → Nat → List Byte → List Byte
  | 0, _, result => result
  | k + 1, i, result => padFill c k (i + 1) (result.set i c)

/-- The function `pkcs7.Pad`. -/
def Pad (buf : List Byte) (size : Int) : Run (List Byte) :=
  if size < 2 then .fault .badBlockSize
  else
    let n := size.toNat - buf.length % size.toNat
    let result := copy (make (buf.length + n)) buf
    .ok (padFill (byte n) (result.length - buf.length) buf.length result)

/-- The loop `for i := len(buf) - n; i < len(buf); i++ { if buf[i] != c { return nil, err } }`
of `Unpad`, with `k` iterations left and the index at `i`: `true` when the
loop runs to its end. -/
def unpadCheck (buf : List Byte) (c : Byte) : Nat → Nat → Bool
  | 0, _ => true
  | k + 1, i => if buf[i]? != some c then false else unpadCheck buf c k (i + 1)

/-- The function `pkcs7.Unpad`; `none` is the error return. -/
def Unpad (buf : List Byte) : Option (List Byte) :=
  if buf.length = 0 then none
  else
    match buf[buf.length - 1]? with
    | none => none
    | some c =>
      let n := c.val
      if n > buf.length then none
      else if unpadCheck buf c n (buf.length - n) then some (buf.take (buf.length - n))
      else none

/-- The constant `block` of `Problem9`: the text YELLOW SUBMARINE. -/
def yellowSubmarine : List Byte :=
  [0x59, 0x45, 0x4C, 0x4C, 0x4F, 0x57, 0x20, 0x53, 0x55, 0x42, 0x4D, 0x41, 0x52, 0x49, 0x4E, 0x45]

/-! ## Slices and `crypto/cipher.Block` -/

/-- The Go slice expression `s[:n]`, for a slice whose capacity is its length. -/
def sliceTo (s : List Byte) (n : Nat) : Run (List Byte) :=
  if n ≤ s.length then .ok (s.take n) else .fault .outOfRange

/-- The Go slice expression `s[n:]`. -/
def sliceFrom (s : List Byte) (n : Nat) : Run (List Byte) :=
  if n ≤ s.length then .ok (s.drop n) else .fault .outOfRange

/-- The interface `cipher.Block` of the Go standard library, which the modes
take as a parameter: the block size and the two block transforms. -/
structure Block where
  /-- The method `BlockSize()`. -/
  BlockSize : Nat
  /-- The block transform behind the method `Encrypt`. -/
  encryptBlock : List Byte → List Byte
  /-- The block transform behind the method `Decrypt`. -/
  decryptBlock : List Byte → List Byte

/-- The call `b.Encrypt(dst, src)`: the first block of `src` is encrypted into
the first block of `dst`; as the ciphers of the standard library do, the call
panics when `src` or `dst` is shorter than a block. -/
def Block.Encrypt (b : Block) (dst src : List Byte) : Run (List Byte) :=
  if src.length < b.BlockSize ∨ dst.length < b.BlockSize then .fault .notFullBlock
  else .ok (copy dst (b.encryptBlock (src.take b.BlockSize)))

/-- The call `b.Decrypt(dst, src)`, as `Block.Encrypt`. -/
def Block.Decrypt (b : Block) (dst src : List Byte) : Run (List Byte) :=
  if src.length < b.BlockSize ∨ dst.length < b.BlockSize then .fault .notFullBlock
  else .ok (copy dst (b.decryptBlock (src.take b.BlockSize)))

/-- A cipher is well formed when its block size is positive and both block
transforms map a block to a block. -/
def Block.WF (b : Block) : Prop :=
  0 < b.BlockSize ∧
  ∀ x : List Byte, x.length = b.BlockSize →
    (b.encryptBlock x).length = b.BlockSize ∧ (b.decryptBlock x).length = b.BlockSize

/-! ## `cbc.go` -/

/-- The struct `cbc`. -/
structure cbc where
  b : Block
  blockSize : Nat
  iv : List Byte
  tmp : List Byte
  tmp2 : List Byte

/-- The function `newCbc`. -/
def newCbc (b : Block) (iv : List Byte) : Run cbc :=
  let c : cbc :=
    { b := b, blockSize := b.BlockSize, iv := iv,
      tmp := make b.BlockSize, tmp2 := make b.BlockSize }
  if c.blockSize ≠ c.iv.length then .fault .ivLength else .ok c

/-- The type `cbcEncrypter`, defined in Go as `cbc`. -/
abbrev cbcEncrypter := cbc

/-- The type `cbcDecrypter`, defined in Go as `cbc`. -/
abbrev cbcDecrypter := cbc

/-- The function `NewCBCEncrypter`. -/
def NewCBCEncrypter (b : Block) (iv : List Byte) : Run cbcEncrypter := newCbc b iv

/-- The function `NewCBCDecrypter`. -/
def NewCBCDecrypter (b : Block) (iv : List Byte) : Run cbcDecrypter := newCbc b iv

/-- The loop `for i := 0; i < blockSize; i++ { tmp[i] ^= other[i] }`, with `k`
iterations left and the index at `i`. -/
def xorInto (other : List Byte) : Nat → Nat → List Byte → Run (List Byte)
  | 0, _, tmp => .ok tmp
  | k + 1, i, tmp =>
    match tmp[i]?, other[i]? with
    | some t, some s => xorInto other k (i + 1) (tmp.set i (bxor t s))
    | _, _ => .fault .outOfRange

/-- The loop `for i := 0; i < e.blockSize; i++ { dst[i] = e.tmp[i] }`, with `k`
iterations left and the index at `i`. -/
def storeInto (tmp : List Byte) : Nat → Nat → List Byte → Run (List Byte)
  | 0, _, dst => .ok dst
  | k + 1, i, dst =>
    match tmp[i]? with
    | some t =>
      if i < dst.length then storeInto tmp k (i + 1) (dst.set i t) else .fault .outOfRange
    | none => .fault .outOfRange

/-- The loop `for len(src) > 0` of `cbcEncrypter.CryptBlocks`. The bytes of the
caller's `dst` that lie before the current window `dst` are kept in `out`; the
result is the encrypter and the caller's `dst` when the loop ends. -/
def cbcEncLoop : Nat → cbcEncrypter → List Byte → List Byte → List Byte →
    Run (cbcEncrypter × List Byte)
  | 0, e, out, dst, src =>
    if src.length = 0 then .ok (e, out ++ dst) else .fault .fuel
  | fuel + 1, e, out, dst, src =>
    if src.length = 0 then .ok (e, out ++ dst)
    else
      (xorInto src e.blockSize 0 e.tmp).bind fun t1 =>
      (e.b.Encrypt t1 t1).bind fun t2 =>
      (storeInto t2 e.blockSize 0 dst).bind fun d =>
      (sliceFrom src e.blockSize).bind fun src1 =>
      (sliceFrom d e.blockSize).bind fun dst1 =>
      cbcEncLoop fuel { e with tmp := t2 } (out ++ d.take e.blockSize) dst1 src1

/-- The method `(*cbcEncrypter).CryptBlocks`: the encrypter after the call and
the contents of `dst`. -/
def cbcEncrypter.CryptBlocks (e : cbcEncrypter) (dst src : List Byte) :
    Run (cbcEncrypter × List Byte) :=
  if e.blockSize = 0 then .fault .divideByZero
  else if src.length % e.blockSize ≠ 0 then .fault .srcNotMultiple
  else cbcEncLoop src.length { e with tmp := copy e.tmp e.iv } [] dst src

/-- The loop `for len(src) > 0` of `cbcDecrypter.CryptBlocks`, as `cbcEncLoop`. -/
def cbcDecLoop : Nat → cbcDecrypter → List Byte → List Byte → List Byte →
    Run (cbcDecrypter × List Byte)
  | 0, d, out, dst, src =>
    if src.length = 0 then .ok (d, out ++ dst) else .fault .fuel
  | fuel + 1, d, out, dst, src =>
    if src.length = 0 then .ok (d, out ++ dst)
    else
      (sliceTo src d.blockSize).bind fun blk =>
      (d.b.Decrypt d.tmp blk).bind fun t1 =>
      (xorInto d.tmp2 d.blockSize 0 t1).bind fun t2 =>
      (sliceTo src d.blockSize).bind fun blk2 =>
      (sliceTo dst d.blockSize).bind fun head =>
      (sliceFrom src d.blockSize).bind fun src1 =>
      (sliceFrom dst d.blockSize).bind fun dst1 =>
      cbcDecLoop fuel { d with tmp := t2, tmp2 := copy d.tmp2 blk2 }
        (out ++ copy head t2) dst1 src1

/-- The method `(*cbcDecrypter).CryptBlocks`: the decrypter after the call and
the contents of `dst`. -/
def cbcDecrypter.CryptBlocks (d : cbcDecrypter) (dst src : List Byte) :
    Run (cbcDecrypter × List Byte) :=
  cbcDecLoop src.length { d with tmp2 := copy d.tmp2 d.iv } [] dst src

/-! ## `ecb.go` -/

/-- The struct `ecb`. -/
structure ecb where
  b : Block
  blockSize : Nat

/-- The function `newECB`. -/
def newECB (b : Block) : ecb := { b := b, blockSize := b.BlockSize }

/-- The type `ecbEncrypter`, defined in Go as `ecb`. -/
abbrev ecbEncrypter := ecb

/-- The type `ecbDecrypter`, defined in Go as `ecb`. -/
abbrev ecbDecrypter := ecb

/-- The function `NewECBEncrypter`. -/
def NewECBEncrypter (b : Block) : ecbEncrypter := newECB b

/-- The function `NewECBDecrypter`. -/
def NewECBDecrypter (b : Block) : ecbDecrypter := newECB b

/-- The loop `for len(src) > 0` of `ecbEncrypter.CryptBlocks`, as `cbcEncLoop`. -/
def ecbEncLoop : Nat → ecbEncrypter → List Byte → List Byte → List Byte → Run (List Byte)
  | 0, _, out, dst, src =>
    if src.length = 0 then .ok (out ++ dst) else .fault .fuel
  | fuel + 1, d, out, dst, src =>
    if src.length = 0 then .ok (out ++ dst)
    else
      (sliceTo src d.blockSize).bind fun blk =>
      (d.b.Encrypt dst blk).bind fun dst0 =>
      (sliceFrom src d.blockSize).bind fun src1 =>
      (sliceFrom dst0 d.blockSize).bind fun dst1 =>
      ecbEncLoop fuel d (out ++ dst0.take d.blockSize) dst1 src1

/-- The method `(*ecbEncrypter).CryptBlocks`: the contents of `dst` after the call. -/
def ecbEncrypter.CryptBlocks (d : ecbEncrypter) (dst src : List Byte) : Run (List Byte) :=
  ecbEncLoop src.length d [] dst src

/-- The loop `for len(src) > 0` of `ecbDecrypter.CryptBlocks`, as `cbcEncLoop`. -/
def ecbDecLoop : Nat → ecbDecrypter → List Byte → List Byte → List Byte → Run (List Byte)
  | 0, _, out, dst, src =>
    if src.length = 0 then .ok (out ++ dst) else .fault .fuel
  | fuel + 1, d, out, dst, src =>
    if src.length = 0 then .ok (out ++ dst)
    else
      (sliceTo src d.blockSize).bind fun blk =>
      (d.b.Decrypt dst blk).bind fun dst0 =>
      (sliceFrom src d.blockSize).bind fun src1 =>
      (sliceFrom dst0 d.blockSize).bind fun dst1 =>
      ecbDecLoop fuel d (out ++ dst0.take d.blockSize) dst1 src1

/-- The method `(*ecbDecrypter).CryptBlocks`: the contents of `dst` after the call. -/
def ecbDecrypter.CryptBlocks (d : ecbDecrypter) (dst src : List Byte) : Run (List Byte) :=
  ecbDecLoop src.length d [] dst src

/-! ## Block-level vocabulary of the claims -/

/-- The byte-wise xor of two blocks. -/
def xorBlock (a b : List Byte) : List Byte := List.zipWith bxor a b

/-- Block `i` (0-based) of a buffer, for block size `bs`. -/
def blockAt (bs : Nat) (buf : List Byte) (i : Nat) : List Byte :=
  (buf.drop (i * bs)).take bs

/-- The chain `C_i = E (P_i xor C_(i-1))` over a list of blocks, `prev` being
`C_0`. -/
def cbcChain (E : List Byte → List Byte) : List Byte → List (List Byte) → List (List Byte)
  | _, [] => []
  | prev, P :: rest => E (xorBlock P prev) :: cbcChain E (E (xorBlock P prev)) rest

/-- The chain `P_i = D (C_i) xor C_(i-1)` over a list of blocks, `prev` being
`C_0`. -/
def cbcUnchain (D : List Byte → List Byte) : List Byte → List (List Byte) → List (List Byte)
  | _, [] => []
  | prev, C :: rest => xorBlock (D C) prev :: cbcUnchain D C rest

/-- A toy cipher on blocks of `bs` bytes, for concrete runs: each byte of a
block is xored with `k`. -/
def toyCipher (bs : Nat) (k : Byte) : Block :=
  { BlockSize := bs
    encryptBlock := fun x => x.map (fun a => bxor a k)
    decryptBlock := fun x => x.map (fun a => bxor a k) }

/-! ## `cbc.go` and `ecb.go`: the remaining methods -/

/-- The method `(*cbcEncrypter).BlockSize`. -/
def cbcEncrypter.BlockSize (e : cbcEncrypter) : Nat := e.blockSize

/-- The method `(*cbcDecrypter).BlockSize`. -/
def cbcDecrypter.BlockSize (d : cbcDecrypter) : Nat := d.blockSize

/-- The loop of `ecbEncrypter.CryptBlocks` for a call `CryptBlocks(buf, buf)`,
where `dst` and `src` are the same slice: the one window `buf` is both, so
that the block written through `dst` is seen through `src`. -/
def ecbEncLoopInPlace : Nat → ecbEncrypter → List Byte → List Byte → Run (List Byte)
  | 0, _, out, buf =>
    if buf.length = 0 then .ok (out ++ buf) else .fault .fuel
  | fuel + 1, d, out, buf =>
    if buf.length = 0 then .ok (out ++ buf)
    else
      (sliceTo buf d.blockSize).bind fun blk =>
      (d.b.Encrypt buf blk).bind fun buf0 =>
      (sliceFrom buf0 d.blockSize).bind fun src1 =>
      (sliceFrom buf0 d.blockSize).bind fun _dst1 =>
      ecbEncLoopInPlace fuel d (out ++ buf0.take d.blockSize) src1

/-- The call `d.CryptBlocks(buf, buf)` on an ECB encrypter: the contents of
`buf` after the call. -/
def ecbEncrypter.CryptBlocksInPlace (d : ecbEncrypter) (buf : List Byte) : Run (List Byte) :=
  ecbEncLoopInPlace buf.length d [] buf

/-! ## `bytes.go` -/

/-- The loop `for i, b1 := range buf1 { result[i] = b1 ^ buf2[i] }` of `Xor`,
with `k` iterations left and the index at `i`. -/
def xorLoop (buf1 buf2 : List Byte) : Nat → Nat → List Byte → Run (List Byte)
  | 0, _, result => .ok result
  | k + 1, i, result =>
    match buf1[i]?, buf2[i]? with
    | some b1, some b2 =>
      if i < result.length then xorLoop buf1 buf2 k (i + 1) (result.set i (bxor b1 b2))
      else .fault .outOfRange
    | _, _ => .fault .outOfRange

/-- The function `Xor`; `none` is the error return (the buffers must be of
equal length). -/
def Xor (buf1 buf2 : List Byte) : Run (Option (List Byte)) :=
  if buf1.length ≠ buf2.length then .ok none
  else
    let result := make buf1.length
    (xorLoop buf1 buf2 buf1.length 0 result).bind fun result => .ok (some result)

/-! ## `oracle.go` -/

/-- The inner loop `for blockIdx := 4; blockIdx <= 6; blockIdx++` of `IsECB`
at column `j`, with `k` iterations left: `false` when the loop returns
`false` from `IsECB`, `true` when it runs to its end. -/
def isECBBlocks (enc : List Byte) (blockSize j : Nat) : Nat → Nat → Run Bool
  | 0, _ => .ok true
  | k + 1, blockIdx =>
    match enc[blockIdx * blockSize + j]?, enc[3 * blockSize + j]? with
    | some x, some y => if x ≠ y then .ok false else isECBBlocks enc blockSize j k (blockIdx + 1)
    | _, _ => .fault .outOfRange

/-- The outer loop `for j := 0; j < blockSize; j++` of `IsECB`, with `k`
iterations left. -/
def isECBColumns (enc : List Byte) (blockSize : Nat) : Nat → Nat → Run Bool
  | 0, _ => .ok true
  | k + 1, j =>
    (isECBBlocks enc blockSize j 3 4).bind fun same =>
    if same then isECBColumns enc blockSize k (j + 1) else .ok false

/-- The function `IsECB`, for a block size that is not negative. -/
def IsECB (enc : List Byte) (blockSize : Nat) : Run Bool :=
  if enc.length < blockSize * 6 then .fault .notEnoughInput
  else isECBColumns enc blockSize blockSize 0

/-- The Go slice expression `s[lo:hi]`, for a slice whose capacity is its length. -/
def sliceRange (s : List Byte) (lo hi : Nat) : Run (List Byte) :=
  if lo ≤ hi ∧ hi ≤ s.length then .ok ((s.drop lo).take (hi - lo)) else .fault .outOfRange

/-- The Go assignment `s[i] = v`. -/
def setAt (s : List Byte) (i : Nat) (v : Byte) : Run (List Byte) :=
  if i < s.length then .ok (s.set i v) else .fault .outOfRange

/-- The struct `AESOracle2`. The field `key` holds the cipher that
`aes.NewCipher` builds from the 16 random bytes of the Go field; for a key of
16 bytes `aes.NewCipher` returns no error. -/
structure AESOracle2 where
  ciphertext : List Byte
  key : Block

/-- The method `(*AESOracle2).Encrypt`; the error return cannot occur. -/
def AESOracle2.Encrypt (o : AESOracle2) (plaintext : List Byte) : Run (List Byte) :=
  let encrypter := NewECBEncrypter o.key
  let input := make (plaintext.length + o.ciphertext.length)
  let input := copy input plaintext
  (sliceFrom input plaintext.length).bind fun tail =>
  let input := input.take plaintext.length ++ copy tail o.ciphertext
  (Pad input 16).bind fun result =>
  ecbEncrypter.CryptBlocksInPlace encrypter result

/-- The loop `for i := 0; i < blockSize-1; i++` of `ECBNextUnknownByte` that
fills `testBlock`, with `k` iterations left and the index at `i`. -/
def fillTestBlock (soFar : List Byte) (blockSize : Nat) : Nat → Nat → List Byte →
    Run (List Byte)
  | 0, _, testBlock => .ok testBlock
  | k + 1, i, testBlock =>
    if soFar.length < i + 1 then
      (setAt testBlock (blockSize - i - 2) (byte 0)).bind fun testBlock =>
      fillTestBlock soFar blockSize k (i + 1) testBlock
    else
      match soFar[soFar.length - i - 1]? with
      | some v =>
        (setAt testBlock (blockSize - i - 2) v).bind fun testBlock =>
        fillTestBlock soFar blockSize k (i + 1) testBlock
      | none => .fault .outOfRange

/-- The loop `for i := 0; i < 256; i++` of `ECBNextUnknownByte`, with `k`
iterations left and the index at `i`; `none` is the error return of the
method, could not determine next unknown byte. -/
def tryBytes (o : AESOracle2) (blockSize : Nat) (targetBlock : List Byte) :
    Nat → Nat → List Byte → Run (Option Byte)
  | 0, _, _ => .ok none
  | k + 1, i, testBlock =>
    let c := byte i
    (setAt testBlock (blockSize - 1) c).bind fun testBlock =>
    (o.Encrypt testBlock).bind fun enc =>
    (sliceTo enc blockSize).bind fun head =>
    if head = targetBlock then .ok (some c) else tryBytes o blockSize targetBlock k (i + 1) testBlock

/-- The method `(*AESOracle2).ECBNextUnknownByte`, for a block size that is
not negative; `none` is its error return. -/
def AESOracle2.ECBNextUnknownByte (o : AESOracle2) (soFar : List Byte) (blockSize : Nat) :
    Run (Option Byte) :=
  if blockSize = 0 then .fault .divideByZero
  else
    let offset := blockSize - (soFar.length % blockSize) - 1
    let input := make offset
    let block := soFar.length / blockSize
    (o.Encrypt input).bind fun encrypted =>
    (sliceRange encrypted (block * blockSize) ((block + 1) * blockSize)).bind fun targetBlock =>
    let testBlock := make blockSize
    (fillTestBlock soFar blockSize (blockSize - 1) 0 testBlock).bind fun testBlock =>
    tryBytes o blockSize targetBlock 256 0 testBlock

/-! ## `runner/set2.go`: the recovery loop of `Problem12` -/

/-- The bytes of a Go string constant made of ASCII characters. -/
def str (s : String) : List Byte := s.toList.map fun c => byte c.toNat

/-- The bytes that `Base64ToBytes` decodes from the constant `ciphertextBase64`
of `Problem12`, the secret of its oracle: four lines of text, each ended by a
line feed (0x0A), 138 bytes in all; 0x27 is the apostrophe. -/
def problem12Text : List Byte :=
  str "Rollin" ++ [0x27] ++ str " in my 5.0" ++ [0x0A] ++
  str "With my rag-top down so my hair can blow" ++ [0x0A] ++
  str "The girlies on standby waving just to say hi" ++ [0x0A] ++
  str "Did you stop? No, I just drove by" ++ [0x0A]

/-- The loop `for len(unknown) < unknownLength` of `Problem12`, with `blockSize`
(which `Problem12` gets from `DetermineBlockSize`) as a parameter: `some` of
the final value of `unknown` when the loop is left normally or by `break`,
`none` when `Problem12` returns the error. -/
def recoverLoop (o : AESOracle2) (blockSize unknownLength : Nat) :
    Nat → List Byte → Run (Option (List Byte))
  | 0, unknown =>
    if unknown.length < unknownLength then .fault .fuel else .ok (some unknown)
  | fuel + 1, unknown =>
    if unknown.length < unknownLength then
      (o.ECBNextUnknownByte unknown blockSize).bind fun r =>
      match r with
      | none =>
        if (unknown.length : Int) > (unknownLength : Int) - (blockSize : Int) then
          match unknown[unknown.length - 1]? with
          | some last =>
            if last = byte 1 then .ok (some (unknown.take (unknown.length - 1))) else .ok none
          | none => .fault .outOfRange
        else .ok none
      | some next => recoverLoop o blockSize unknownLength fuel (unknown ++ [next])
    else .ok (some unknown)

/-- The part of `Problem12` that starts at the call `oracle.Encrypt(nil)`: the
length of the unknown string is taken from the ciphertext of the empty input,
then the loop recovers `unknown`. -/
def Problem12Recovery (o : AESOracle2) (blockSize : Nat) : Run (Option (List Byte)) :=
  (o.Encrypt []).bind fun encrypted =>
  let unknownLength := encrypted.length
  recoverLoop o blockSize unknownLength unknownLength []

/-! ## `p13/p13.go` and `Problem13` -/

/-- The function `ProfileFor`: the replacer deletes every `&` (0x26) and every
`=` (0x3D) of `email`. -/
def ProfileFor (email : List Byte) : List Byte :=
  let escapedEmail := email.filter fun c => c ≠ 0x26 ∧ c ≠ 0x3D
  str "email=" ++ escapedEmail ++ str "&uid=10&role=user"

/-- The function `EncryptedProfileFor`, with the cipher `aes.NewCipher(key)` of
the global `key` as a parameter; the error return cannot occur. -/
def EncryptedProfileFor (key : Block) (email : List Byte) : Run (List Byte) :=
  let plaintext := ProfileFor email
  let encrypter := NewECBEncrypter key
  (Pad plaintext 16).bind fun result =>
  ecbEncrypter.CryptBlocksInPlace encrypter result

/-- The function `DecryptProfile`, with the cipher of the global `key` and the
function `url.ParseQuery` of the standard library as parameters; `none` is
the error return. -/
def DecryptProfile {V : Type} (ParseQuery : List Byte → Option V) (key : Block)
    (encrypted : List Byte) : Run (Option V) :=
  let decrypter := NewECBDecrypter key
  let decrypted := make encrypted.length
  (ecbDecrypter.CryptBlocks decrypter decrypted encrypted).bind fun decrypted =>
  match Unpad decrypted with
  | none => .ok none
  | some plaintext => .ok (ParseQuery plaintext)

/-- The function `Problem13` up to the call of `DecryptProfile`: the value of
`result`, or `none` for an error return. -/
def Problem13Result {V : Type} (ParseQuery : List Byte → Option V) (key : Block) :
    Run (Option V) :=
  let blockSize := 16
  let target := make (blockSize * 3)
  (EncryptedProfileFor key (str "abc@defgh.com")).bind fun first =>
  (sliceTo first (blockSize * 2)).bind fun firstTwo =>
  let target := copy target firstTwo
  (EncryptedProfileFor key (str "aaaaaaaaaaadmin" ++ List.replicate 11 0x0b)).bind fun second =>
  (sliceRange second blockSize (2 * blockSize)).bind fun secondBlock =>
  (sliceFrom target (2 * blockSize)).bind fun tail =>
  let target := target.take (2 * blockSize) ++ copy tail secondBlock
  DecryptProfile ParseQuery key target

/-- The pieces of a query between the separators `sep`. -/
def splitBytes (sep : Byte) : List Byte → List (List Byte)
  | [] => [[]]
  | c :: rest =>
    if c = sep then [] :: splitBytes sep rest
    else
      match splitBytes sep rest with
      | [] => [[c]]
      | h :: t => (c :: h) :: t

/-- A pair `key=value` cut at its first `sep`. -/
def cutBytes (sep : Byte) : List Byte → List Byte × List Byte
  | [] => ([], [])
  | c :: rest => if c = sep then ([], rest) else (c :: (cutBytes sep rest).1, (cutBytes sep rest).2)

/-- The function `url.ParseQuery` of the Go standard library on a query that
holds none of the bytes `%`, `+` and `;`, where it unescapes nothing and
returns no error: the pairs are separated by `&` (0x26), empty pairs are
skipped, and each pair is cut at its first `=` (0x3D). -/
def plainParseQuery (query : List Byte) : Option (List (List Byte × List Byte)) :=
  some (((splitBytes 0x26 query).filter fun p => p ≠ []).map (cutBytes 0x3D))

/-- The method `url.Values.Get`: the first value stored under `key`, or the
empty string. -/
def valuesGet (v : List (List Byte × List Byte)) (key : List Byte) : List Byte :=
  match v.find? fun p => p.1 = key with
  | some p => p.2
  | none => []

/-! ## `oracle.go`: `AESOracle` -/

/-- The loop of `cbcEncrypter.CryptBlocks` for a call `CryptBlocks(buf, buf)`,
where `dst` and `src` are the same slice: the one window `buf` is both, as in
`ecbEncLoopInPlace`. -/
def cbcEncLoopInPlace : Nat → cbcEncrypter → List Byte → List Byte →
    Run (cbcEncrypter × List Byte)
  | 0, e, out, buf =>
    if buf.length = 0 then .ok (e, out ++ buf) else .fault .fuel
  | fuel + 1, e, out, buf =>
    if buf.length = 0 then .ok (e, out ++ buf)
    else
      (xorInto buf e.blockSize 0 e.tmp).bind fun t1 =>
      (e.b.Encrypt t1 t1).bind fun t2 =>
      (storeInto t2 e.blockSize 0 buf).bind fun buf0 =>
      (sliceFrom buf0 e.blockSize).bind fun src1 =>
      (sliceFrom buf0 e.blockSize).bind fun _dst1 =>
      cbcEncLoopInPlace fuel { e with tmp := t2 } (out ++ buf0.take e.blockSize) src1

/-- The call `e.CryptBlocks(buf, buf)` on a CBC encrypter: the encrypter after
the call and the contents of `buf`. -/
def cbcEncrypter.CryptBlocksInPlace (e : cbcEncrypter) (buf : List Byte) :
    Run (cbcEncrypter × List Byte) :=
  if e.blockSize = 0 then .fault .divideByZero
  else if buf.length % e.blockSize ≠ 0 then .fault .srcNotMultiple
  else cbcEncLoopInPlace buf.length { e with tmp := copy e.tmp e.iv } [] buf

/-- The function `AESOracle`. What it draws from `math/rand` is a parameter:
`before` and `after` (each a `RandomSlice` of 5 to 10 bytes), `cipher` (the
cipher `aes.NewCipher` builds from the random key of 16 bytes, without error),
`iv` and `mode` (`rand.Intn(2)`). The result is `encrypted` and `ecb`. -/
def AESOracle (before after : List Byte) (cipher : Block) (iv : List Byte) (mode : Nat)
    (plaintext : List Byte) : Run (List Byte × Bool) :=
  let result := make (plaintext.length + before.length + after.length)
  let result := copy result before
  (sliceFrom result before.length).bind fun tail =>
  let result := result.take before.length ++ copy tail plaintext
  (sliceFrom result (before.length + plaintext.length)).bind fun tail =>
  let result := result.take (before.length + plaintext.length) ++ copy tail after
  (Pad result 16).bind fun result =>
  if mode = 1 then
    (NewCBCEncrypter cipher iv).bind fun encrypter =>
    (cbcEncrypter.CryptBlocksInPlace encrypter result).bind fun r =>
    .ok (r.2, mode == 0)
  else
    (ecbEncrypter.CryptBlocksInPlace (NewECBEncrypter cipher) result).bind fun result =>
    .ok (result, mode == 0)

/-! ## `cbc.go`: the CBC encrypter with the memory it leaves behind

The models above keep the contents of `dst` only when the call returns. The
ones below return them in every case: the first component is `dst` (or the
one buffer of a call in place) at the moment the call ends, by return or by
panic, so that the bytes written before a panic are visible. -/

/-- The loop `for i := 0; i < e.blockSize; i++ { dst[i] = e.tmp[i] }`, as
`storeInto`, with the contents of `dst` when the loop ends: a byte written
before a panic stays written. -/
def storeIntoMem (tmp : List Byte) : Nat → Nat → List Byte → List Byte × Run Unit
  | 0, _, dst => (dst, .ok ())
  | k + 1, i, dst =>
    match tmp[i]? with
    | some t =>
      if i < dst.length then storeIntoMem tmp k (i + 1) (dst.set i t)
      else (dst, .fault .outOfRange)
    | none => (dst, .fault .outOfRange)

/-- The loop `for len(src) > 0` of `cbcEncrypter.CryptBlocks`, as `cbcEncLoop`,
with the contents of the caller's `dst` when the loop ends. -/
def cbcEncLoopMem : Nat → cbcEncrypter → List Byte → List Byte → List Byte →
    List Byte × Run cbcEncrypter
  | 0, e, out, dst, src =>
    if src.length = 0 then (out ++ dst, .ok e) else (out ++ dst, .fault .fuel)
  | fuel + 1, e, out, dst, src =>
    if src.length = 0 then (out ++ dst, .ok e)
    else
      match xorInto src e.blockSize 0 e.tmp with
      | .fault f => (out ++ dst, .fault f)
      | .ok t1 =>
        match e.b.Encrypt t1 t1 with
        | .fault f => (out ++ dst, .fault f)
        | .ok t2 =>
          match storeIntoMem t2 e.blockSize 0 dst with
          | (d, .fault f) => (out ++ d, .fault f)
          | (d, .ok _) =>
            match sliceFrom src e.blockSize with
            | .fault f => (out ++ d, .fault f)
            | .ok src1 =>
              match sliceFrom d e.blockSize with
              | .fault f => (out ++ d, .fault f)
              | .ok dst1 =>
                cbcEncLoopMem fuel { e with tmp := t2 } (out ++ d.take e.blockSize) dst1 src1

/-- The method `(*cbcEncrypter).CryptBlocks` with the contents of `dst` when
the call ends, and the encrypter if it returns. -/
def cbcEncrypter.CryptBlocksMem (e : cbcEncrypter) (dst src : List Byte) :
    List Byte × Run cbcEncrypter :=
  if e.blockSize = 0 then (dst, .fault .divideByZero)
  else if src.length % e.blockSize ≠ 0 then (dst, .fault .srcNotMultiple)
  else cbcEncLoopMem src.length { e with tmp := copy e.tmp e.iv } [] dst src

/-- The loop of `cbcEncrypter.CryptBlocks` for a call `CryptBlocks(buf, buf)`,
as `cbcEncLoopInPlace`, with the contents of `buf` when the loop ends. -/
def cbcEncLoopInPlaceMem : Nat → cbcEncrypter → List Byte → List Byte →
    List Byte × Run cbcEncrypter
  | 0, e, out, buf =>
    if buf.length = 0 then (out ++ buf, .ok e) else (out ++ buf, .fault .fuel)
  | fuel + 1, e, out, buf =>
    if buf.length = 0 then (out ++ buf, .ok e)
    else
      match xorInto buf e.blockSize 0 e.tmp with
      | .fault f => (out ++ buf, .fault f)
      | .ok t1 =>
        match e.b.Encrypt t1 t1 with
        | .fault f => (out ++ buf, .fault f)
        | .ok t2 =>
          match storeIntoMem t2 e.blockSize 0 buf with
          | (buf0, .fault f) => (out ++ buf0, .fault f)
          | (buf0, .ok _) =>
            match sliceFrom buf0 e.blockSize with
            | .fault f => (out ++ buf0, .fault f)
            | .ok src1 =>
              cbcEncLoopInPlaceMem fuel { e with tmp := t2 } (out ++ buf0.take e.blockSize) src1

/-- The call `e.CryptBlocks(buf, buf)` on a CBC encrypter with the contents of
`buf` when the call ends, and the encrypter if it returns. -/
def cbcEncrypter.CryptBlocksInPlaceMem (e : cbcEncrypter) (buf : List Byte) :
    List Byte × Run cbcEncrypter :=
  if e.blockSize = 0 then (buf, .fault .divideByZero)
  else if buf.length % e.blockSize ≠ 0 then (buf, .fault .srcNotMultiple)
  else cbcEncLoopInPlaceMem buf.length { e with tmp := copy e.tmp e.iv } [] buf

/-- A call that returned, seen without the memory of a panic: the result and
the memory of a return, the fault alone of a panic. -/
def Run.ofMem {α : Type} (r : List Byte × Run α) : Run (α × List Byte) :=
  match r with
  | (m, .ok a) => .ok (a, m)
  | (_, .fault f) => .fault f

/-! ## Lemmas on the padding loops -/

theorem padFill_eq (c : Byte) : ∀ (k i : Nat) (r : List Byte), i + k = r.length →
    padFill c k i r = r.take i ++ List.replicate k c := by
  intro k
  induction k with
  | zero => intro i r h; simp [padFill]; omega
  | succ k ih =>
    intro i r h
    have hi : i < r.length := by omega
    rw [padFill, ih (i + 1) (r.set i c) (by simp; omega)]
    rw [List.set_eq_take_append_cons_drop, if_pos hi]
    have hl : (List.take i r).length = i := by simp; omega
    rw [List.take_append_eq_append_take, hl, List.take_of_length_le (by omega)]
    simp [List.replicate_succ]

theorem copy_make (buf : List Byte) (n : Nat) :
    copy (make (buf.length + n)) buf = buf ++ List.replicate n 0 := by
  simp [copy, make]

theorem Pad_eq (buf : List Byte) (s : Int) (h : 2 ≤ s) :
    Pad buf s = .ok (buf ++ List.replicate (s.toNat - buf.length % s.toNat)
      (byte (s.toNat - buf.length % s.toNat))) := by
  have h2 : ¬ s < 2 := by omega
  simp only [Pad, if_neg h2, copy_make]
  rw [padFill_eq]
  · simp
  · simp

theorem unpadCheck_iff (buf : List Byte) (c : Byte) : ∀ (k i : Nat),
    unpadCheck buf c k i = true ↔ ∀ j, i ≤ j → j < i + k → buf[j]? = some c := by
  intro k
  induction k with
  | zero => intro i; simp [unpadCheck]; intro j h1 h2; omega
  | succ k ih =>
    intro i
    rw [unpadCheck]
    by_cases hc : buf[i]? = some c
    · simp only [hc, bne_self_eq_false, Bool.false_eq_true, if_false, ih]
      constructor
      · intro h j h1 h2
        by_cases hj : j = i
        · subst hj; exact hc
        · exact h j (by omega) (by omega)
      · intro h j h1 h2
        exact h j (by omega) (by omega)
    · have : (buf[i]? != some c) = true := by simpa using hc
      simp only [this, if_true, Bool.false_eq_true, false_iff]
      intro h
      exact hc (h i (by omega) (by omega))

theorem Unpad_some_iff (buf r : List Byte) :
    Unpad buf = some r ↔ ∃ c : Byte, buf.getLast? = some c ∧ c.val ≤ buf.length ∧
      (∀ j, buf.length - c.val ≤ j → j < buf.length → buf[j]? = some c) ∧
      r = buf.take (buf.length - c.val) := by
  rw [List.getLast?_eq_getElem?]
  unfold Unpad
  by_cases h0 : buf.length = 0
  · have : buf = [] := List.length_eq_zero.mp h0
    subst this
    simp
  · rw [if_neg h0]
    have hlt : buf.length - 1 < buf.length := by omega
    rw [List.getElem?_eq_getElem hlt]
    simp only [Option.some.injEq, exists_eq_left']
    by_cases hn : (buf[buf.length - 1]).val > buf.length
    · rw [if_pos hn]
      simp
      intro h; omega
    · rw [if_neg hn]
      have hle : (buf[buf.length - 1]).val ≤ buf.length := by omega
      by_cases hck : unpadCheck buf buf[buf.length - 1] (buf[buf.length - 1]).val
          (buf.length - (buf[buf.length - 1]).val) = true
      · rw [if_pos hck]
        rw [unpadCheck_iff] at hck
        constructor
        · intro h
          refine ⟨hle, fun j h1 h2 => hck j h1 (by omega), ?_⟩
          exact (Option.some.inj h).symm
        · intro h
          rw [h.2.2]
      · rw [if_neg hck]
        rw [unpadCheck_iff] at hck
        simp only [false_iff, reduceCtorEq]
        intro h
        exact hck (fun j h1 h2 => h.2.1 j h1 (by omega))


theorem byte_val_of_le (n : Nat) (h : n ≤ 255) : (byte n).val = n := by
  simp [byte]; omega

theorem padCount_pos (len : Nat) (s : Int) (h : 2 ≤ s) :
    1 ≤ s.toNat - len % s.toNat ∧ s.toNat - len % s.toNat ≤ s.toNat := by
  have hs : 0 < s.toNat := by omega
  have := Nat.mod_lt len hs
  omega

/-- Unpad applied to a buffer followed by `n ≥ 1` bytes `byte n`. -/
theorem Unpad_append_replicate (b : List Byte) (n : Nat) (hn : 1 ≤ n) :
    Unpad (b ++ List.replicate n (byte n)) =
      some (b ++ List.replicate (n - (byte n).val) (byte n)) := by
  rw [Unpad_some_iff]
  have hv : (byte n).val ≤ n := by simp [byte]; exact Nat.mod_le _ _
  refine ⟨byte n, ?_, ?_, ?_, ?_⟩
  · rw [List.getLast?_eq_getElem?]
    rw [List.getElem?_append_right (by simp; omega)]
    simp [List.getElem?_replicate]; omega
  · simp; omega
  · intro j h1 h2
    simp at h1 h2
    rw [List.getElem?_append_right (by omega)]
    simp [List.getElem?_replicate]; omega
  · simp only [List.length_append, List.length_replicate]
    rw [List.take_append_eq_append_take]
    rw [List.take_of_length_le (by omega)]
    simp
    omega

/-! ## Claims on `pkcs7` -/

/-- C1 (counterexample): with block size 257 and the empty buffer, `Pad` writes
257 bytes of value 1 (the low eight bits of 257), and `Unpad` then removes a
single byte: the round trip returns 256 bytes, not the empty buffer. -/
theorem Unpad_Pad_257_not_roundtrip :
    Pad [] 257 = .ok (List.replicate 257 1) ∧
    Unpad (List.replicate 257 1) = some (List.replicate 256 1) ∧
    ¬ ∃ p, Pad [] 257 = .ok p ∧ Unpad p = some [] := by
  have h1 : Pad [] 257 = .ok (List.replicate 257 1) := by
    rw [Pad_eq [] 257 (by decide)]; rfl
  have h2 : Unpad (List.replicate 257 (1 : Byte)) = some (List.replicate 256 1) := by
    exact Unpad_append_replicate [] 257 (by decide)
  refine ⟨h1, h2, ?_⟩
  rintro ⟨p, hp, hu⟩
  rw [h1] at hp
  cases hp
  rw [h2] at hu
  have hl := congrArg List.length (Option.some.inj hu)
  rw [List.length_replicate] at hl
  exact absurd hl (by decide)

/-- C1 (amended): for every buffer `b` and block size `s ≥ 2`,
`Unpad (Pad b s)` succeeds and returns exactly `b` if and only if the number
of padding bytes `n = s - len b % s` is at most 255; this is the case for
every `s ≤ 255`. -/
theorem Unpad_Pad_roundtrip (b : List Byte) (s : Int) (h : 2 ≤ s) :
    (s ≤ 255 → ∃ p, Pad b s = .ok p ∧ Unpad p = some b) ∧
    ((∃ p, Pad b s = .ok p ∧ Unpad p = some b) ↔ s.toNat - b.length % s.toNat ≤ 255) := by
  obtain ⟨hn1, hn2⟩ := padCount_pos b.length s h
  have key : (∃ p, Pad b s = .ok p ∧ Unpad p = some b) ↔
      s.toNat - b.length % s.toNat ≤ 255 := by
    rw [Pad_eq b s h]
    constructor
    · rintro ⟨p, hp, hu⟩
      cases hp
      rw [Unpad_append_replicate b _ hn1] at hu
      have hl := congrArg List.length (Option.some.inj hu)
      simp only [List.length_append, List.length_replicate] at hl
      have hb : (byte (s.toNat - b.length % s.toNat)).val
          = (s.toNat - b.length % s.toNat) % 256 := rfl
      omega
    · intro hle
      refine ⟨_, rfl, ?_⟩
      rw [Unpad_append_replicate b _ hn1, byte_val_of_le _ hle]
      simp
  exact ⟨fun hs => key.mpr (by omega), key⟩

theorem Unpad_Pad_roundtrip_witness :
    (2 : Int) ≤ 20 ∧ (2 : Int) ≤ 257 ∧
    (∃ p, Pad yellowSubmarine 20 = .ok p ∧ Unpad p = some yellowSubmarine) ∧
    ((∃ p, Pad [] 257 = .ok p ∧ Unpad p = some []) ↔
      (257 : Int).toNat - ([] : List Byte).length % (257 : Int).toNat ≤ 255) :=
  ⟨by decide, by decide, (Unpad_Pad_roundtrip yellowSubmarine 20 (by decide)).1 (by decide),
   (Unpad_Pad_roundtrip [] 257 (by decide)).2⟩

/-- C2: for every buffer `b` and block size `s ≥ 2`, `Pad b s` returns a buffer
whose length is a multiple of `s` and strictly greater than `len b`; the number
of bytes added lies in `1..s` and is exactly `s` when `len b` is a multiple of
`s`. -/
theorem Pad_length (b : List Byte) (s : Int) (h : 2 ≤ s) :
    ∃ p, Pad b s = .ok p ∧ (p.length : Int) % s = 0 ∧ b.length < p.length ∧
      1 ≤ p.length - b.length ∧ ((p.length - b.length : Nat) : Int) ≤ s ∧
      ((b.length : Int) % s = 0 → ((p.length - b.length : Nat) : Int) = s) := by
  obtain ⟨hn1, hn2⟩ := padCount_pos b.length s h
  refine ⟨_, Pad_eq b s h, ?_⟩
  obtain ⟨t, rfl⟩ : ∃ t : Nat, s = (t : Int) := ⟨s.toNat, by omega⟩
  simp only [Int.toNat_ofNat] at hn1 hn2 ⊢
  simp only [List.length_append, List.length_replicate]
  have ht : 0 < t := by omega
  have hm := Nat.mod_lt b.length ht
  have hd := Nat.div_add_mod b.length t
  refine ⟨?_, by omega, by omega, by omega, ?_⟩
  · have : (b.length + (t - b.length % t)) % t = 0 := by
      have e : b.length + (t - b.length % t) = t * (b.length / t + 1) := by
        rw [Nat.mul_add, Nat.mul_one]; omega
      rw [e]; exact Nat.mul_mod_right _ _
    exact_mod_cast this
  · intro h0
    have : b.length % t = 0 := by exact_mod_cast h0
    omega

theorem Pad_length_witness :
    (2 : Int) ≤ 16 ∧ ∃ p, Pad yellowSubmarine 16 = .ok p ∧ (p.length : Int) % 16 = 0 ∧
      yellowSubmarine.length < p.length ∧
      1 ≤ p.length - yellowSubmarine.length ∧
      ((p.length - yellowSubmarine.length : Nat) : Int) ≤ 16 ∧
      ((yellowSubmarine.length : Int) % 16 = 0 →
        ((p.length - yellowSubmarine.length : Nat) : Int) = 16) :=
  ⟨by decide, Pad_length yellowSubmarine 16 (by decide)⟩

/-- C3 (counterexample): with block size 256 and the empty buffer the count of
padding bytes is 256, and `Pad` writes 256 bytes of value 0: no byte has the
value 256. -/
theorem Pad_256_bytes_not_count :
    Pad [] 256 = .ok (List.replicate 256 0) ∧
    ¬ ∃ c : Byte, c.val = (256 : Int).toNat - ([] : List Byte).length % (256 : Int).toNat ∧
        Pad [] 256 = .ok ([] ++ List.replicate 256 c) := by
  refine ⟨by rw [Pad_eq [] 256 (by decide)]; rfl, ?_⟩
  rintro ⟨c, hc, -⟩
  have := c.isLt
  simp at hc
  omega

/-- C3 (amended): for every buffer `b` and block size `s ≥ 2`, `Pad b s` is `b`
followed by `n = s - len b % s` bytes, each of value `n mod 256`, which is `n`
whenever `n ≤ 255` and so for every `s ≤ 255`; `Pad` of YELLOW SUBMARINE to
block size 20 is that text followed by four bytes 0x04. -/
theorem Pad_layout (b : List Byte) (s : Int) (h : 2 ≤ s) :
    (∃ c : Byte, Pad b s = .ok (b ++ List.replicate (s.toNat - b.length % s.toNat) c) ∧
      c.val = (s.toNat - b.length % s.toNat) % 256 ∧
      (s.toNat - b.length % s.toNat ≤ 255 → c.val = s.toNat - b.length % s.toNat) ∧
      (s ≤ 255 → c.val = s.toNat - b.length % s.toNat)) ∧
    Pad yellowSubmarine 20 = .ok (yellowSubmarine ++ [4, 4, 4, 4]) := by
  obtain ⟨hn1, hn2⟩ := padCount_pos b.length s h
  refine ⟨⟨byte (s.toNat - b.length % s.toNat), Pad_eq b s h, rfl, ?_, ?_⟩, by decide⟩
  · intro hle; exact byte_val_of_le _ hle
  · intro hs; exact byte_val_of_le _ (by omega)

theorem Pad_layout_witness :
    (2 : Int) ≤ 8 ∧
    (∃ c : Byte, Pad [1, 2, 3] 8 = .ok ([1, 2, 3] ++ List.replicate
        ((8 : Int).toNat - ([1, 2, 3] : List Byte).length % (8 : Int).toNat) c) ∧
      c.val = ((8 : Int).toNat - ([1, 2, 3] : List Byte).length % (8 : Int).toNat) % 256 ∧
      ((8 : Int).toNat - ([1, 2, 3] : List Byte).length % (8 : Int).toNat ≤ 255 →
        c.val = (8 : Int).toNat - ([1, 2, 3] : List Byte).length % (8 : Int).toNat) ∧
      ((8 : Int) ≤ 255 →
        c.val = (8 : Int).toNat - ([1, 2, 3] : List Byte).length % (8 : Int).toNat)) ∧
    Pad yellowSubmarine 20 = .ok (yellowSubmarine ++ [4, 4, 4, 4]) :=
  ⟨by decide, Pad_layout [1, 2, 3] 8 (by decide)⟩

/-- C4: `Unpad buf` returns the error if and only if `buf` is empty, or its last
byte `n` exceeds `len buf`, or one of the last `n` bytes differs from `n`;
otherwise it returns `buf` with exactly its last `n` bytes removed. -/
theorem Unpad_error_iff (buf : List Byte) :
    (Unpad buf = none ↔
      buf = [] ∨ ∃ c : Byte, buf.getLast? = some c ∧
        (c.val > buf.length ∨
          ∃ j, buf.length - c.val ≤ j ∧ j < buf.length ∧ buf[j]? ≠ some c)) ∧
    (Unpad buf ≠ none →
      ∃ (c : Byte) (r t : List Byte), buf.getLast? = some c ∧ Unpad buf = some r ∧
        buf = r ++ t ∧ t.length = c.val) := by
  constructor
  · constructor
    · intro hnone
      by_cases he : buf = []
      · exact Or.inl he
      · right
        obtain ⟨c, hc⟩ : ∃ c, buf.getLast? = some c :=
          ⟨buf.getLast he, List.getLast?_eq_getLast buf he⟩
        refine ⟨c, hc, ?_⟩
        by_contra hcon
        push_neg at hcon
        have hsome : Unpad buf = some (buf.take (buf.length - c.val)) :=
          (Unpad_some_iff buf _).mpr ⟨c, hc, hcon.1, fun j h1 h2 => hcon.2 j h1 h2, rfl⟩
        rw [hnone] at hsome
        exact Option.noConfusion hsome
    · intro h
      cases hu : Unpad buf with
      | none => rfl
      | some r =>
        exfalso
        obtain ⟨c, hc, hle, hall, -⟩ := (Unpad_some_iff buf r).mp hu
        rcases h with he | ⟨c2, hc2, hbad⟩
        · subst he; simp at hc
        · rw [hc] at hc2
          cases hc2
          rcases hbad with hgt | ⟨j, h1, h2, h3⟩
          · omega
          · exact h3 (hall j h1 h2)
  · intro hne
    cases hu : Unpad buf with
    | none => exact absurd hu hne
    | some r =>
      obtain ⟨c, hc, hle, -, hr⟩ := (Unpad_some_iff buf r).mp hu
      refine ⟨c, r, buf.drop (buf.length - c.val), hc, rfl, ?_, ?_⟩
      · rw [hr, List.take_append_drop]
      · rw [List.length_drop]; omega

/-- C5 (failing input): the one-byte buffer `[0x00]` is accepted by `Unpad`,
which returns it whole: no padding byte is removed and the result is not
shorter than the input. -/
theorem Unpad_accepts_zero_pad :
    Unpad [0] = some [0] ∧
    ¬ ∀ r, Unpad [0] = some r → r.length < ([0] : List Byte).length := by
  refine ⟨by decide, ?_⟩
  intro h
  exact absurd (h [0] (by decide)) (by decide)

/-! ## Lemmas on the block modes -/

@[simp] theorem Run.bind_ok {α β : Type} (a : α) (f : α → Run β) :
    (Run.ok a).bind f = f a := rfl

theorem bxor_val (a b : Byte) : (bxor a b).val = a.val ^^^ b.val := by
  have h : a.val ^^^ b.val < 2 ^ 8 := Nat.xor_lt_two_pow a.isLt b.isLt
  simp only [bxor]
  exact Nat.mod_eq_of_lt h

theorem bxor_comm (a b : Byte) : bxor a b = bxor b a := by
  apply Fin.ext; rw [bxor_val, bxor_val, Nat.xor_comm]

theorem bxor_cancel (a b : Byte) : bxor (bxor a b) b = a := by
  apply Fin.ext; rw [bxor_val, bxor_val, Nat.xor_assoc, Nat.xor_self, Nat.xor_zero]

theorem xorBlock_comm (a b : List Byte) : xorBlock a b = xorBlock b a := by
  unfold xorBlock
  rw [List.zipWith_comm]
  congr 1
  funext x y
  exact bxor_comm y x

theorem xorBlock_length (a b : List Byte) (h : a.length = b.length) :
    (xorBlock a b).length = a.length := by
  simp [xorBlock, h]

theorem xorBlock_cancel : ∀ (a b : List Byte), a.length = b.length →
    xorBlock (xorBlock a b) b = a
  | [], _, _ => by simp [xorBlock]
  | x :: a, [], h => by simp at h
  | x :: a, y :: b, h => by
    have ih := xorBlock_cancel a b (by simpa using h)
    simp only [xorBlock, List.zipWith_cons_cons] at ih ⊢
    rw [ih, bxor_cancel]

theorem xorInto_eq (other : List Byte) : ∀ (k i : Nat) (tmp : List Byte),
    i + k = tmp.length → i + k ≤ other.length →
    xorInto other k i tmp =
      .ok (tmp.take i ++ List.zipWith bxor (tmp.drop i) (other.drop i)) := by
  intro k
  induction k with
  | zero =>
    intro i tmp h1 _
    have : tmp.drop i = [] := List.drop_eq_nil_of_le (by omega)
    simp [xorInto, this]
    omega
  | succ k ih =>
    intro i tmp h1 h2
    have hi : i < tmp.length := by omega
    have hj : i < other.length := by omega
    rw [xorInto, List.getElem?_eq_getElem hi, List.getElem?_eq_getElem hj]
    simp only
    rw [ih (i + 1) _ (by simp; omega) (by omega)]
    rw [List.drop_set_of_lt _ _ (by omega)]
    rw [List.drop_eq_getElem_cons hi, List.drop_eq_getElem_cons hj]
    rw [List.zipWith_cons_cons]
    rw [List.set_eq_take_append_cons_drop, if_pos hi]
    have hl : (List.take i tmp).length = i := by simp; omega
    rw [List.take_append_eq_append_take, hl, List.take_of_length_le (by omega)]
    simp

theorem storeInto_eq (tmp : List Byte) : ∀ (k i : Nat) (dst : List Byte),
    i + k = tmp.length → i + k ≤ dst.length →
    storeInto tmp k i dst = .ok (dst.take i ++ tmp.drop i ++ dst.drop tmp.length) := by
  intro k
  induction k with
  | zero =>
    intro i dst h1 _
    have : tmp.drop i = [] := List.drop_eq_nil_of_le (by omega)
    have hi : i = tmp.length := by omega
    simp [storeInto, this, hi]
  | succ k ih =>
    intro i dst h1 h2
    have hi : i < tmp.length := by omega
    have hj : i < dst.length := by omega
    rw [storeInto, List.getElem?_eq_getElem hi]
    simp only [if_pos hj]
    rw [ih (i + 1) _ (by omega) (by simp; omega)]
    rw [List.drop_set_of_lt _ _ (by omega)]
    rw [List.drop_eq_getElem_cons hi]
    rw [List.set_eq_take_append_cons_drop, if_pos hj]
    have hl : (List.take i dst).length = i := by simp; omega
    rw [List.take_append_eq_append_take, hl, List.take_of_length_le (by omega)]
    simp

theorem copy_same_length (dst src : List Byte) (h : src.length = dst.length) :
    copy dst src = src := by
  simp [copy, ← h]

theorem copy_make_block (x : List Byte) : copy (make x.length) x = x :=
  copy_same_length _ _ (by simp [make])

theorem Block.Encrypt_block (b : Block) (hb : b.WF) (t : List Byte)
    (ht : t.length = b.BlockSize) : b.Encrypt t t = .ok (b.encryptBlock t) := by
  have hlen := (hb.2 t ht).1
  unfold Block.Encrypt
  rw [if_neg (by omega), ← ht, List.take_length]
  rw [copy_same_length _ _ (by omega)]

theorem cbcEncLoop_blocks (b : Block) (hb : b.WF) :
    ∀ (blocks : List (List Byte)), (∀ x ∈ blocks, x.length = b.BlockSize) →
    ∀ (fuel : Nat) (e : cbcEncrypter) (out dst : List Byte),
      e.b = b → e.blockSize = b.BlockSize → e.tmp.length = b.BlockSize →
      blocks.length ≤ fuel → blocks.flatten.length ≤ dst.length →
      cbcEncLoop fuel e out dst blocks.flatten =
        .ok ({ e with tmp := (cbcChain b.encryptBlock e.tmp blocks).getLastD e.tmp },
             out ++ (cbcChain b.encryptBlock e.tmp blocks).flatten
               ++ dst.drop blocks.flatten.length) := by
  intro blocks
  induction blocks with
  | nil =>
    intro _ fuel e out dst _ _ _ _ _
    cases fuel <;> simp [cbcEncLoop, cbcChain]
  | cons P rest ih =>
    intro hall fuel e out dst he hbs htmp hfuel hdst
    obtain ⟨eb, ebs, eiv, etmp, etmp2⟩ := e
    simp only at he hbs htmp
    subst he
    subst hbs
    have hP : P.length = eb.BlockSize := hall P (List.mem_cons_self _ _)
    have hrest : ∀ x ∈ rest, x.length = eb.BlockSize :=
      fun x hx => hall x (List.mem_cons_of_mem _ hx)
    have hpos := hb.1
    obtain ⟨f, rfl⟩ : ∃ f, fuel = f + 1 := ⟨fuel - 1, by simp at hfuel; omega⟩
    simp only [List.flatten_cons, List.length_append] at hdst ⊢
    have hne : ¬ (P.length + rest.flatten.length = 0) := by omega
    rw [cbcEncLoop]
    simp only [List.length_append, if_neg hne]
    rw [xorInto_eq _ _ _ _ (by omega) (by simp; omega)]
    simp only [List.take_zero, List.nil_append, List.drop_zero, Run.bind_ok]
    have hz : List.zipWith bxor etmp (P ++ rest.flatten) = xorBlock P etmp := by
      rw [xorBlock_comm]
      unfold xorBlock
      have := List.zipWith_append bxor etmp [] P rest.flatten (by omega)
      simpa using this
    rw [hz]
    have hxl : (xorBlock P etmp).length = eb.BlockSize := by
      rw [xorBlock_length _ _ (by omega)]; exact hP
    have hcl : (eb.encryptBlock (xorBlock P etmp)).length = eb.BlockSize := (hb.2 _ hxl).1
    rw [Block.Encrypt_block eb hb _ hxl]
    simp only [Run.bind_ok]
    rw [storeInto_eq _ _ _ _ (by omega) (by omega)]
    simp only [List.take_zero, List.nil_append, List.drop_zero, Run.bind_ok]
    simp only [sliceFrom, List.length_append]
    rw [if_pos (by omega), if_pos (by omega)]
    simp only [Run.bind_ok]
    rw [List.drop_left' hP, List.drop_left' hcl, List.take_left' hcl]
    rw [ih hrest f ⟨eb, eb.BlockSize, eiv, eb.encryptBlock (xorBlock P etmp), etmp2⟩ _ _ rfl rfl hcl
      (by simp at hfuel; omega) (by rw [List.length_drop]; omega)]
    simp only [cbcChain, List.flatten_cons, List.getLastD_cons, List.append_assoc,
      List.drop_drop, hcl, hP]

theorem Block.Decrypt_block (b : Block) (hb : b.WF) (t x : List Byte)
    (ht : t.length = b.BlockSize) (hx : x.length = b.BlockSize) :
    b.Decrypt t x = .ok (b.decryptBlock x) := by
  have hlen := (hb.2 x hx).2
  unfold Block.Decrypt
  rw [if_neg (by omega), ← hx, List.take_length]
  rw [copy_same_length _ _ (by omega)]

theorem Block.Encrypt_into (b : Block) (hb : b.WF) (dst x : List Byte)
    (hd : b.BlockSize ≤ dst.length) (hx : x.length = b.BlockSize) :
    b.Encrypt dst x = .ok (b.encryptBlock x ++ dst.drop b.BlockSize) := by
  have hlen := (hb.2 x hx).1
  unfold Block.Encrypt
  rw [if_neg (by omega), ← hx, List.take_length]
  unfold copy
  rw [List.take_of_length_le (by omega), hlen, hx]

theorem Block.Decrypt_into (b : Block) (hb : b.WF) (dst x : List Byte)
    (hd : b.BlockSize ≤ dst.length) (hx : x.length = b.BlockSize) :
    b.Decrypt dst x = .ok (b.decryptBlock x ++ dst.drop b.BlockSize) := by
  have hlen := (hb.2 x hx).2
  unfold Block.Decrypt
  rw [if_neg (by omega), ← hx, List.take_length]
  unfold copy
  rw [List.take_of_length_le (by omega), hlen, hx]

theorem cbcDecLoop_blocks (b : Block) (hb : b.WF) :
    ∀ (blocks : List (List Byte)), (∀ x ∈ blocks, x.length = b.BlockSize) →
    ∀ (fuel : Nat) (d : cbcDecrypter) (out dst : List Byte),
      d.b = b → d.blockSize = b.BlockSize → d.tmp.length = b.BlockSize →
      d.tmp2.length = b.BlockSize →
      blocks.length ≤ fuel → blocks.flatten.length ≤ dst.length →
      cbcDecLoop fuel d out dst blocks.flatten =
        .ok ({ d with tmp := (cbcUnchain b.decryptBlock d.tmp2 blocks).getLastD d.tmp,
                      tmp2 := blocks.getLastD d.tmp2 },
             out ++ (cbcUnchain b.decryptBlock d.tmp2 blocks).flatten
               ++ dst.drop blocks.flatten.length) := by
  intro blocks
  induction blocks with
  | nil =>
    intro _ fuel d out dst _ _ _ _ _ _
    cases fuel <;> simp [cbcDecLoop, cbcUnchain]
  | cons C rest ih =>
    intro hall fuel d out dst hd hbs htmp htmp2 hfuel hdst
    obtain ⟨db, dbs, div, dtmp, dtmp2⟩ := d
    simp only at hd hbs htmp htmp2
    subst hd
    subst hbs
    have hC : C.length = db.BlockSize := hall C (List.mem_cons_self _ _)
    have hrest : ∀ x ∈ rest, x.length = db.BlockSize :=
      fun x hx => hall x (List.mem_cons_of_mem _ hx)
    have hpos := hb.1
    obtain ⟨f, rfl⟩ : ∃ f, fuel = f + 1 := ⟨fuel - 1, by simp at hfuel; omega⟩
    simp only [List.flatten_cons, List.length_append] at hdst ⊢
    have hne : ¬ (C.length + rest.flatten.length = 0) := by omega
    rw [cbcDecLoop]
    simp only [List.length_append, if_neg hne, sliceTo, sliceFrom]
    rw [if_pos (by omega), if_pos (by omega), if_pos (by omega)]
    simp only [Run.bind_ok, List.take_left' hC, List.drop_left' hC]
    rw [Block.Decrypt_block db hb _ _ htmp hC]
    have hdl : (db.decryptBlock C).length = db.BlockSize := (hb.2 _ hC).2
    simp only [Run.bind_ok]
    rw [xorInto_eq _ _ _ _ (by omega) (by omega)]
    simp only [List.take_zero, List.nil_append, List.drop_zero, Run.bind_ok]
    have hxl : (xorBlock (db.decryptBlock C) dtmp2).length = db.BlockSize := by
      rw [xorBlock_length _ _ (by omega)]; exact hdl
    have hz : List.zipWith bxor (db.decryptBlock C) dtmp2 = xorBlock (db.decryptBlock C) dtmp2 :=
      rfl
    rw [hz, copy_same_length dtmp2 C (by omega),
      copy_same_length (List.take db.BlockSize dst) _ (by rw [List.length_take]; omega)]
    rw [if_pos (by omega)]
    simp only [Run.bind_ok]
    rw [ih hrest f ⟨db, db.BlockSize, div, xorBlock (db.decryptBlock C) dtmp2, C⟩ _ _ rfl rfl hxl hC
      (by simp at hfuel; omega) (by rw [List.length_drop]; omega)]
    simp only [cbcUnchain, List.flatten_cons, List.getLastD_cons, List.append_assoc,
      List.drop_drop, hC]

theorem ecbEncLoop_blocks (b : Block) (hb : b.WF) :
    ∀ (blocks : List (List Byte)), (∀ x ∈ blocks, x.length = b.BlockSize) →
    ∀ (fuel : Nat) (d : ecbEncrypter) (out dst : List Byte),
      d.b = b → d.blockSize = b.BlockSize →
      blocks.length ≤ fuel → blocks.flatten.length ≤ dst.length →
      ecbEncLoop fuel d out dst blocks.flatten =
        .ok (out ++ (blocks.map b.encryptBlock).flatten ++ dst.drop blocks.flatten.length) := by
  intro blocks
  induction blocks with
  | nil =>
    intro _ fuel d out dst _ _ _ _
    cases fuel <;> simp [ecbEncLoop]
  | cons P rest ih =>
    intro hall fuel d out dst hd hbs hfuel hdst
    obtain ⟨db, dbs⟩ := d
    simp only at hd hbs
    subst hd
    subst hbs
    have hP : P.length = db.BlockSize := hall P (List.mem_cons_self _ _)
    have hrest : ∀ x ∈ rest, x.length = db.BlockSize :=
      fun x hx => hall x (List.mem_cons_of_mem _ hx)
    have hpos := hb.1
    obtain ⟨f, rfl⟩ : ∃ f, fuel = f + 1 := ⟨fuel - 1, by simp at hfuel; omega⟩
    simp only [List.flatten_cons, List.length_append] at hdst ⊢
    have hne : ¬ (P.length + rest.flatten.length = 0) := by omega
    have hcl : (db.encryptBlock P).length = db.BlockSize := (hb.2 _ hP).1
    rw [ecbEncLoop]
    simp only [List.length_append, if_neg hne, sliceTo, sliceFrom]
    rw [if_pos (by omega), if_pos (by omega)]
    simp only [Run.bind_ok, List.take_left' hP, List.drop_left' hP]
    rw [Block.Encrypt_into db hb _ _ (by omega) hP]
    simp only [Run.bind_ok, List.length_append, List.length_drop]
    rw [if_pos (by omega)]
    simp only [Run.bind_ok, List.take_left' hcl, List.drop_left' hcl]
    rw [ih hrest f ⟨db, db.BlockSize⟩ _ _ rfl rfl
      (by simp at hfuel; omega) (by rw [List.length_drop]; omega)]
    simp only [List.map_cons, List.flatten_cons, List.append_assoc, List.drop_drop, hP]

theorem ecbDecLoop_blocks (b : Block) (hb : b.WF) :
    ∀ (blocks : List (List Byte)), (∀ x ∈ blocks, x.length = b.BlockSize) →
    ∀ (fuel : Nat) (d : ecbDecrypter) (out dst : List Byte),
      d.b = b → d.blockSize = b.BlockSize →
      blocks.length ≤ fuel → blocks.flatten.length ≤ dst.length →
      ecbDecLoop fuel d out dst blocks.flatten =
        .ok (out ++ (blocks.map b.decryptBlock).flatten ++ dst.drop blocks.flatten.length) := by
  intro blocks
  induction blocks with
  | nil =>
    intro _ fuel d out dst _ _ _ _
    cases fuel <;> simp [ecbDecLoop]
  | cons P rest ih =>
    intro hall fuel d out dst hd hbs hfuel hdst
    obtain ⟨db, dbs⟩ := d
    simp only at hd hbs
    subst hd
    subst hbs
    have hP : P.length = db.BlockSize := hall P (List.mem_cons_self _ _)
    have hrest : ∀ x ∈ rest, x.length = db.BlockSize :=
      fun x hx => hall x (List.mem_cons_of_mem _ hx)
    have hpos := hb.1
    obtain ⟨f, rfl⟩ : ∃ f, fuel = f + 1 := ⟨fuel - 1, by simp at hfuel; omega⟩
    simp only [List.flatten_cons, List.length_append] at hdst ⊢
    have hne : ¬ (P.length + rest.flatten.length = 0) := by omega
    have hcl : (db.decryptBlock P).length = db.BlockSize := (hb.2 _ hP).2
    rw [ecbDecLoop]
    simp only [List.length_append, if_neg hne, sliceTo, sliceFrom]
    rw [if_pos (by omega), if_pos (by omega)]
    simp only [Run.bind_ok, List.take_left' hP, List.drop_left' hP]
    rw [Block.Decrypt_into db hb _ _ (by omega) hP]
    simp only [Run.bind_ok, List.length_append, List.length_drop]
    rw [if_pos (by omega)]
    simp only [Run.bind_ok, List.take_left' hcl, List.drop_left' hcl]
    rw [ih hrest f ⟨db, db.BlockSize⟩ _ _ rfl rfl
      (by simp at hfuel; omega) (by rw [List.length_drop]; omega)]
    simp only [List.map_cons, List.flatten_cons, List.append_assoc, List.drop_drop, hP]

theorem flatten_length_blocks (bs : Nat) : ∀ (blocks : List (List Byte)),
    (∀ x ∈ blocks, x.length = bs) → blocks.flatten.length = blocks.length * bs
  | [], _ => by simp
  | P :: rest, h => by
    have ih := flatten_length_blocks bs rest (fun x hx => h x (List.mem_cons_of_mem _ hx))
    have hP := h P (List.mem_cons_self _ _)
    simp only [List.flatten_cons, List.length_append, List.length_cons, ih, hP]
    rw [Nat.add_mul, Nat.one_mul, Nat.add_comm]

theorem blocks_length_le (bs : Nat) (hbs : 0 < bs) (blocks : List (List Byte))
    (h : ∀ x ∈ blocks, x.length = bs) : blocks.length ≤ blocks.flatten.length := by
  rw [flatten_length_blocks bs blocks h]
  exact Nat.le_mul_of_pos_right _ hbs

theorem exists_blocks (bs : Nat) : ∀ (n : Nat) (p : List Byte),
    p.length = n * bs →
    ∃ blocks : List (List Byte), (∀ x ∈ blocks, x.length = bs) ∧ blocks.flatten = p := by
  intro n
  induction n with
  | zero =>
    intro p hp
    refine ⟨[], by simp, ?_⟩
    have : p = [] := List.length_eq_zero.mp (by simpa using hp)
    simp [this]
  | succ n ih =>
    intro p hp
    have hlen : bs ≤ p.length := by rw [hp, Nat.succ_mul]; omega
    obtain ⟨blocks, hall, hfl⟩ := ih (p.drop bs) (by
      rw [List.length_drop, hp, Nat.succ_mul]; omega)
    refine ⟨p.take bs :: blocks, ?_, ?_⟩
    · intro x hx
      rcases List.mem_cons.mp hx with rfl | hx
      · rw [List.length_take]; omega
      · exact hall x hx
    · rw [List.flatten_cons, hfl, List.take_append_drop]

theorem exists_blocks_of_mod (bs : Nat) (p : List Byte)
    (hp : p.length % bs = 0) :
    ∃ blocks : List (List Byte), (∀ x ∈ blocks, x.length = bs) ∧ blocks.flatten = p := by
  apply exists_blocks bs (p.length / bs) p
  have := Nat.div_add_mod p.length bs
  rw [hp, Nat.add_zero, Nat.mul_comm] at this
  exact this.symm

theorem blockAt_flatten (bs : Nat) (tail : List Byte) : ∀ (blocks : List (List Byte)),
    (∀ x ∈ blocks, x.length = bs) → ∀ (i : Nat) (x : List Byte), blocks[i]? = some x →
    blockAt bs (blocks.flatten ++ tail) i = x
  | [], _, i, x, hx => by simp at hx
  | P :: rest, h, 0, x, hx => by
    have hP := h P (List.mem_cons_self _ _)
    simp only [List.getElem?_cons_zero, Option.some.injEq] at hx
    subst hx
    simp only [blockAt, Nat.zero_mul, List.drop_zero, List.flatten_cons, List.append_assoc]
    exact List.take_left' hP
  | P :: rest, h, i + 1, x, hx => by
    have hP := h P (List.mem_cons_self _ _)
    have ih := blockAt_flatten bs tail rest (fun y hy => h y (List.mem_cons_of_mem _ hy)) i x
      (by simpa using hx)
    simp only [blockAt, List.flatten_cons, List.append_assoc] at ih ⊢
    have e : (i + 1) * bs = P.length + i * bs := by rw [Nat.add_mul, Nat.one_mul, hP]; omega
    rw [e, List.drop_append]
    exact ih

theorem cbcChain_length (E : List Byte → List Byte) : ∀ (blocks : List (List Byte))
    (prev : List Byte), (cbcChain E prev blocks).length = blocks.length
  | [], _ => rfl
  | P :: rest, prev => by simp [cbcChain, cbcChain_length E rest]

theorem cbcUnchain_length (D : List Byte → List Byte) : ∀ (blocks : List (List Byte))
    (prev : List Byte), (cbcUnchain D prev blocks).length = blocks.length
  | [], _ => rfl
  | C :: rest, prev => by simp [cbcUnchain, cbcUnchain_length D rest]

theorem cbcChain_blocks (b : Block) (hb : b.WF) : ∀ (blocks : List (List Byte))
    (prev : List Byte), prev.length = b.BlockSize → (∀ x ∈ blocks, x.length = b.BlockSize) →
    ∀ x ∈ cbcChain b.encryptBlock prev blocks, x.length = b.BlockSize
  | [], _, _, _ => by simp [cbcChain]
  | P :: rest, prev, hprev, hall => by
    have hP := hall P (List.mem_cons_self _ _)
    have hx : (xorBlock P prev).length = b.BlockSize := by
      rw [xorBlock_length _ _ (by omega)]; exact hP
    have hc := (hb.2 _ hx).1
    intro x hmem
    simp only [cbcChain, List.mem_cons] at hmem
    rcases hmem with rfl | hmem
    · exact hc
    · exact cbcChain_blocks b hb rest _ hc (fun y hy => hall y (List.mem_cons_of_mem _ hy)) x hmem

theorem cbcUnchain_blocks (b : Block) (hb : b.WF) : ∀ (blocks : List (List Byte))
    (prev : List Byte), prev.length = b.BlockSize → (∀ x ∈ blocks, x.length = b.BlockSize) →
    ∀ x ∈ cbcUnchain b.decryptBlock prev blocks, x.length = b.BlockSize
  | [], _, _, _ => by simp [cbcUnchain]
  | C :: rest, prev, hprev, hall => by
    have hC := hall C (List.mem_cons_self _ _)
    have hd := (hb.2 _ hC).2
    intro x hmem
    simp only [cbcUnchain, List.mem_cons] at hmem
    rcases hmem with rfl | hmem
    · rw [xorBlock_length _ _ (by omega)]; exact hd
    · exact cbcUnchain_blocks b hb rest _ hC (fun y hy => hall y (List.mem_cons_of_mem _ hy)) x hmem

theorem cbcChain_index (E : List Byte → List Byte) : ∀ (blocks : List (List Byte))
    (prev : List Byte) (i : Nat) (P : List Byte), blocks[i]? = some P →
    ∃ c0, (prev :: cbcChain E prev blocks)[i]? = some c0 ∧
      (cbcChain E prev blocks)[i]? = some (E (xorBlock P c0))
  | [], _, i, P, h => by simp at h
  | Q :: rest, prev, 0, P, h => by
    simp only [List.getElem?_cons_zero, Option.some.injEq] at h
    subst h
    exact ⟨prev, by simp, by simp [cbcChain]⟩
  | Q :: rest, prev, i + 1, P, h => by
    obtain ⟨c0, h1, h2⟩ := cbcChain_index E rest (E (xorBlock Q prev)) i P (by simpa using h)
    refine ⟨c0, ?_, ?_⟩
    · simpa [cbcChain] using h1
    · simpa [cbcChain] using h2

theorem cbcUnchain_index (D : List Byte → List Byte) : ∀ (blocks : List (List Byte))
    (prev : List Byte) (i : Nat) (C : List Byte), blocks[i]? = some C →
    ∃ c0, (prev :: blocks)[i]? = some c0 ∧
      (cbcUnchain D prev blocks)[i]? = some (xorBlock (D C) c0)
  | [], _, i, C, h => by simp at h
  | Q :: rest, prev, 0, C, h => by
    simp only [List.getElem?_cons_zero, Option.some.injEq] at h
    subst h
    exact ⟨prev, by simp, by simp [cbcUnchain]⟩
  | Q :: rest, prev, i + 1, C, h => by
    obtain ⟨c0, h1, h2⟩ := cbcUnchain_index D rest Q i C (by simpa using h)
    refine ⟨c0, ?_, ?_⟩
    · simpa using h1
    · simpa [cbcUnchain] using h2

theorem cbcUnchain_cbcChain (b : Block) (hb : b.WF)
    (hinv : ∀ x : List Byte, x.length = b.BlockSize → b.decryptBlock (b.encryptBlock x) = x) :
    ∀ (blocks : List (List Byte)) (prev : List Byte), prev.length = b.BlockSize →
    (∀ x ∈ blocks, x.length = b.BlockSize) →
    cbcUnchain b.decryptBlock prev (cbcChain b.encryptBlock prev blocks) = blocks
  | [], _, _, _ => rfl
  | P :: rest, prev, hprev, hall => by
    have hP := hall P (List.mem_cons_self _ _)
    have hx : (xorBlock P prev).length = b.BlockSize := by
      rw [xorBlock_length _ _ (by omega)]; exact hP
    have hc := (hb.2 _ hx).1
    simp only [cbcChain, cbcUnchain]
    rw [hinv _ hx, xorBlock_cancel _ _ (by omega)]
    rw [cbcUnchain_cbcChain b hb hinv rest _ hc (fun y hy => hall y (List.mem_cons_of_mem _ hy))]

theorem cbcChain_cbcUnchain (b : Block) (hb : b.WF)
    (hinv : ∀ x : List Byte, x.length = b.BlockSize → b.encryptBlock (b.decryptBlock x) = x) :
    ∀ (blocks : List (List Byte)) (prev : List Byte), prev.length = b.BlockSize →
    (∀ x ∈ blocks, x.length = b.BlockSize) →
    cbcChain b.encryptBlock prev (cbcUnchain b.decryptBlock prev blocks) = blocks
  | [], _, _, _ => rfl
  | C :: rest, prev, hprev, hall => by
    have hC := hall C (List.mem_cons_self _ _)
    have hd := (hb.2 _ hC).2
    simp only [cbcChain, cbcUnchain]
    rw [xorBlock_cancel _ _ (by omega), hinv _ hC]
    rw [cbcChain_cbcUnchain b hb hinv rest _ hC (fun y hy => hall y (List.mem_cons_of_mem _ hy))]

theorem newCbc_ok (b : Block) (iv : List Byte) (hiv : iv.length = b.BlockSize) :
    newCbc b iv = .ok ⟨b, b.BlockSize, iv, make b.BlockSize, make b.BlockSize⟩ := by
  unfold newCbc
  simp only [hiv, ne_eq, not_true_eq_false, if_false]

/-- The encrypter built from `b` and `iv`, run over whole blocks. -/
theorem cbcEncrypter_run (b : Block) (hb : b.WF) (iv dst : List Byte)
    (blocks : List (List Byte)) (hiv : iv.length = b.BlockSize)
    (hall : ∀ x ∈ blocks, x.length = b.BlockSize) (hdst : blocks.flatten.length ≤ dst.length) :
    cbcEncrypter.CryptBlocks ⟨b, b.BlockSize, iv, make b.BlockSize, make b.BlockSize⟩ dst
        blocks.flatten =
      .ok (⟨b, b.BlockSize, iv, (cbcChain b.encryptBlock iv blocks).getLastD iv,
              make b.BlockSize⟩,
           (cbcChain b.encryptBlock iv blocks).flatten ++ dst.drop blocks.flatten.length) := by
  have hpos := hb.1
  have hmul : blocks.flatten.length % b.BlockSize = 0 := by
    rw [flatten_length_blocks _ _ hall]; exact Nat.mul_mod_left _ _
  unfold cbcEncrypter.CryptBlocks
  simp only [if_neg (Nat.pos_iff_ne_zero.mp hpos), hmul, ne_eq, not_true_eq_false, if_false]
  have hcp : copy (make b.BlockSize) iv = iv := by rw [← hiv]; exact copy_make_block iv
  rw [hcp]
  rw [cbcEncLoop_blocks b hb blocks hall _ _ _ _ rfl rfl hiv
    (blocks_length_le _ hpos _ hall) hdst]
  simp

/-- The decrypter built from `b` and `iv`, run over whole blocks. -/
theorem cbcDecrypter_run (b : Block) (hb : b.WF) (iv dst : List Byte)
    (blocks : List (List Byte)) (hiv : iv.length = b.BlockSize)
    (hall : ∀ x ∈ blocks, x.length = b.BlockSize) (hdst : blocks.flatten.length ≤ dst.length) :
    cbcDecrypter.CryptBlocks ⟨b, b.BlockSize, iv, make b.BlockSize, make b.BlockSize⟩ dst
        blocks.flatten =
      .ok (⟨b, b.BlockSize, iv,
              (cbcUnchain b.decryptBlock iv blocks).getLastD (make b.BlockSize),
              blocks.getLastD iv⟩,
           (cbcUnchain b.decryptBlock iv blocks).flatten ++ dst.drop blocks.flatten.length) := by
  have hpos := hb.1
  unfold cbcDecrypter.CryptBlocks
  have hcp : copy (make b.BlockSize) iv = iv := by rw [← hiv]; exact copy_make_block iv
  simp only [hcp]
  rw [cbcDecLoop_blocks b hb blocks hall _ _ _ _ rfl rfl (by simp [make]) hiv
    (blocks_length_le _ hpos _ hall) hdst]
  simp

theorem toyCipher_WF (bs : Nat) (k : Byte) (h : 0 < bs) : (toyCipher bs k).WF :=
  ⟨h, fun x hx => by simp [toyCipher, hx]⟩

theorem toyCipher_inv (bs : Nat) (k : Byte) (x : List Byte) :
    (toyCipher bs k).decryptBlock ((toyCipher bs k).encryptBlock x) = x := by
  simp only [toyCipher, List.map_map]
  conv_rhs => rw [← List.map_id x]
  congr 1
  funext a
  exact bxor_cancel a k

theorem getLastD_take : ∀ (blocks : List (List Byte)) (prev : List Byte)
    (i : Nat), i ≤ blocks.length → (prev :: blocks)[i]? = some ((blocks.take i).getLastD prev)
  | _, _, 0, _ => by simp
  | [], _, i + 1, h => by simp at h
  | Q :: rest, prev, i + 1, h => by
    have ih := getLastD_take rest Q i (by simpa using h)
    rw [List.take_succ_cons, List.getLastD_cons, List.getElem?_cons_succ]
    exact ih

/-! ## Lemmas that tie the models of the CBC encrypter together -/

theorem Run.ofMem_eq_ok {α : Type} (r : List Byte × Run α) (a : α) (m : List Byte)
    (h : Run.ofMem r = .ok (a, m)) : r = (m, .ok a) := by
  obtain ⟨m1, o⟩ := r
  cases o with
  | ok a1 =>
    simp only [Run.ofMem, Run.ok.injEq, Prod.mk.injEq] at h
    rw [h.1, h.2]
  | fault f => simp [Run.ofMem] at h

theorem storeInto_ofMem (tmp : List Byte) : ∀ (k i : Nat) (dst : List Byte),
    storeInto tmp k i dst =
      match storeIntoMem tmp k i dst with
      | (d, .ok _) => .ok d
      | (_, .fault f) => .fault f := by
  intro k
  induction k with
  | zero => intro i dst; rfl
  | succ k ih =>
    intro i dst
    rw [storeInto, storeIntoMem]
    cases tmp[i]? with
    | none => rfl
    | some t =>
      simp only
      by_cases h : i < dst.length
      · rw [if_pos h, if_pos h]; exact ih _ _
      · rw [if_neg h, if_neg h]

theorem storeInto_keeps (tmp : List Byte) : ∀ (k i : Nat) (dst d : List Byte),
    storeInto tmp k i dst = .ok d → d.length = dst.length ∧ d.drop (i + k) = dst.drop (i + k) := by
  intro k
  induction k with
  | zero =>
    intro i dst d h
    rw [storeInto] at h
    cases h
    exact ⟨rfl, rfl⟩
  | succ k ih =>
    intro i dst d h
    rw [storeInto] at h
    cases ht : tmp[i]? with
    | none => rw [ht] at h; cases h
    | some t =>
      rw [ht] at h
      simp only at h
      by_cases hi : i < dst.length
      · rw [if_pos hi] at h
        obtain ⟨h1, h2⟩ := ih _ _ _ h
        refine ⟨by rw [h1, List.length_set], ?_⟩
        have e : i + (k + 1) = i + 1 + k := by omega
        rw [e, h2, List.drop_set_of_lt _ _ (by omega)]
      · rw [if_neg hi] at h; cases h

theorem cbcEncLoop_ofMem : ∀ (fuel : Nat) (e : cbcEncrypter) (out dst src : List Byte),
    cbcEncLoop fuel e out dst src = Run.ofMem (cbcEncLoopMem fuel e out dst src) := by
  intro fuel
  induction fuel with
  | zero =>
    intro e out dst src
    rw [cbcEncLoop, cbcEncLoopMem]
    by_cases h : src.length = 0
    · rw [if_pos h, if_pos h]; rfl
    · rw [if_neg h, if_neg h]; rfl
  | succ fuel ih =>
    intro e out dst src
    rw [cbcEncLoop, cbcEncLoopMem]
    by_cases h : src.length = 0
    · rw [if_pos h, if_pos h]; rfl
    · rw [if_neg h, if_neg h]
      cases xorInto src e.blockSize 0 e.tmp with
      | fault f => rfl
      | ok t1 =>
        simp only [Run.bind_ok]
        cases e.b.Encrypt t1 t1 with
        | fault f => rfl
        | ok t2 =>
          simp only [Run.bind_ok]
          rw [storeInto_ofMem]
          rcases hs : storeIntoMem t2 e.blockSize 0 dst with ⟨d, o⟩
          cases o with
          | fault f => rfl
          | ok u =>
            simp only [Run.bind_ok]
            cases sliceFrom src e.blockSize with
            | fault f => rfl
            | ok src1 =>
              simp only [Run.bind_ok]
              cases sliceFrom d e.blockSize with
              | fault f => rfl
              | ok dst1 =>
                simp only [Run.bind_ok]
                exact ih _ _ _ _

theorem cbcEncLoopInPlace_ofMem : ∀ (fuel : Nat) (e : cbcEncrypter) (out buf : List Byte),
    cbcEncLoopInPlace fuel e out buf = Run.ofMem (cbcEncLoopInPlaceMem fuel e out buf) := by
  intro fuel
  induction fuel with
  | zero =>
    intro e out buf
    rw [cbcEncLoopInPlace, cbcEncLoopInPlaceMem]
    by_cases h : buf.length = 0
    · rw [if_pos h, if_pos h]; rfl
    · rw [if_neg h, if_neg h]; rfl
  | succ fuel ih =>
    intro e out buf
    rw [cbcEncLoopInPlace, cbcEncLoopInPlaceMem]
    by_cases h : buf.length = 0
    · rw [if_pos h, if_pos h]; rfl
    · rw [if_neg h, if_neg h]
      cases xorInto buf e.blockSize 0 e.tmp with
      | fault f => rfl
      | ok t1 =>
        simp only [Run.bind_ok]
        cases e.b.Encrypt t1 t1 with
        | fault f => rfl
        | ok t2 =>
          simp only [Run.bind_ok]
          rw [storeInto_ofMem]
          rcases hs : storeIntoMem t2 e.blockSize 0 buf with ⟨d, o⟩
          cases o with
          | fault f => rfl
          | ok u =>
            simp only [Run.bind_ok]
            cases sliceFrom d e.blockSize with
            | fault f => rfl
            | ok src1 =>
              simp only [Run.bind_ok]
              exact ih _ _ _

theorem cbcEncLoopInPlace_eq : ∀ (fuel : Nat) (e : cbcEncrypter) (out buf : List Byte),
    cbcEncLoopInPlace fuel e out buf = cbcEncLoop fuel e out buf buf := by
  intro fuel
  induction fuel with
  | zero => intro e out buf; rfl
  | succ fuel ih =>
    intro e out buf
    rw [cbcEncLoopInPlace, cbcEncLoop]
    by_cases h : buf.length = 0
    · rw [if_pos h, if_pos h]
    · rw [if_neg h, if_neg h]
      cases xorInto buf e.blockSize 0 e.tmp with
      | fault f => rfl
      | ok t1 =>
        simp only [Run.bind_ok]
        cases e.b.Encrypt t1 t1 with
        | fault f => rfl
        | ok t2 =>
          simp only [Run.bind_ok]
          cases hs : storeInto t2 e.blockSize 0 buf with
          | fault f => rfl
          | ok d =>
            simp only [Run.bind_ok]
            obtain ⟨hl, hd⟩ := storeInto_keeps _ _ _ _ _ hs
            rw [Nat.zero_add] at hd
            unfold sliceFrom
            rw [hl]
            by_cases hb : e.blockSize ≤ buf.length
            · simp only [if_pos hb, Run.bind_ok]
              rw [ih, hd]
            · simp only [if_neg hb]
              rfl

theorem cbcEncrypter_CryptBlocks_ofMem (e : cbcEncrypter) (dst src : List Byte) :
    cbcEncrypter.CryptBlocks e dst src = Run.ofMem (cbcEncrypter.CryptBlocksMem e dst src) := by
  unfold cbcEncrypter.CryptBlocks cbcEncrypter.CryptBlocksMem
  by_cases h0 : e.blockSize = 0
  · rw [if_pos h0, if_pos h0]; rfl
  · rw [if_neg h0, if_neg h0]
    by_cases h1 : src.length % e.blockSize ≠ 0
    · rw [if_pos h1, if_pos h1]; rfl
    · rw [if_neg h1, if_neg h1]
      exact cbcEncLoop_ofMem _ _ _ _ _

theorem cbcEncrypter_CryptBlocksInPlace_ofMem (e : cbcEncrypter) (buf : List Byte) :
    cbcEncrypter.CryptBlocksInPlace e buf =
      Run.ofMem (cbcEncrypter.CryptBlocksInPlaceMem e buf) := by
  unfold cbcEncrypter.CryptBlocksInPlace cbcEncrypter.CryptBlocksInPlaceMem
  by_cases h0 : e.blockSize = 0
  · rw [if_pos h0, if_pos h0]; rfl
  · rw [if_neg h0, if_neg h0]
    by_cases h1 : buf.length % e.blockSize ≠ 0
    · rw [if_pos h1, if_pos h1]; rfl
    · rw [if_neg h1, if_neg h1]
      exact cbcEncLoopInPlace_ofMem _ _ _ _

theorem cbcEncrypter_CryptBlocksInPlace_eq (e : cbcEncrypter) (buf : List Byte) :
    cbcEncrypter.CryptBlocksInPlace e buf = cbcEncrypter.CryptBlocks e buf buf := by
  unfold cbcEncrypter.CryptBlocksInPlace cbcEncrypter.CryptBlocks
  rw [cbcEncLoopInPlace_eq]

/-! ## Claims on the block modes -/

/-- C6: for every well-formed cipher whose block decryption inverts its block
encryption, every IV of one block and every plaintext `p` whose length is a
multiple of the block size, the CBC decrypter's `CryptBlocks`, run on the
output of the CBC encrypter's `CryptBlocks` on `p` (same cipher, same IV),
yields exactly `p`. -/
theorem cbc_decrypt_encrypt (b : Block) (hb : b.WF)
    (hinv : ∀ x : List Byte, x.length = b.BlockSize → b.decryptBlock (b.encryptBlock x) = x)
    (iv p dst1 dst2 : List Byte) (hiv : iv.length = b.BlockSize)
    (hp : p.length % b.BlockSize = 0)
    (hd1 : dst1.length = p.length) (hd2 : dst2.length = p.length) :
    ∃ (e e' : cbcEncrypter) (c : List Byte) (d d' : cbcDecrypter),
      NewCBCEncrypter b iv = .ok e ∧ cbcEncrypter.CryptBlocks e dst1 p = .ok (e', c) ∧
      NewCBCDecrypter b iv = .ok d ∧ cbcDecrypter.CryptBlocks d dst2 c = .ok (d', p) := by
  obtain ⟨blocks, hall, rfl⟩ := exists_blocks_of_mod b.BlockSize p hp
  have hcall := cbcChain_blocks b hb blocks iv hiv hall
  have hclen : (cbcChain b.encryptBlock iv blocks).flatten.length = blocks.flatten.length := by
    rw [flatten_length_blocks _ _ hcall, flatten_length_blocks _ _ hall, cbcChain_length]
  have h1 := cbcEncrypter_run b hb iv dst1 blocks hiv hall (by omega)
  have h2 := cbcDecrypter_run b hb iv dst2 _ hiv hcall (by omega)
  rw [List.drop_of_length_le (by omega), List.append_nil] at h1 h2
  rw [cbcUnchain_cbcChain b hb hinv blocks iv hiv hall] at h2
  exact ⟨_, _, _, _, _, newCbc_ok b iv hiv, h1, newCbc_ok b iv hiv, h2⟩

theorem cbc_decrypt_encrypt_witness :
    ∃ (e e' : cbcEncrypter) (c : List Byte) (d d' : cbcDecrypter),
      NewCBCEncrypter (toyCipher 2 7) [1, 2] = .ok e ∧
      cbcEncrypter.CryptBlocks e (make 4) [10, 20, 30, 40] = .ok (e', c) ∧
      NewCBCDecrypter (toyCipher 2 7) [1, 2] = .ok d ∧
      cbcDecrypter.CryptBlocks d (make 4) c = .ok (d', [10, 20, 30, 40]) :=
  cbc_decrypt_encrypt (toyCipher 2 7) (toyCipher_WF 2 7 (by decide))
    (fun x _ => toyCipher_inv 2 7 x) [1, 2] [10, 20, 30, 40] (make 4) (make 4)
    rfl rfl rfl rfl

/-- C7: for every well-formed cipher whose block encryption inverts its block
decryption, every IV of one block (the all-zero IV of `Problem10` among them)
and every ciphertext `c` whose length is a multiple of the block size, the CBC
encrypter's `CryptBlocks`, run on the output of the CBC decrypter's
`CryptBlocks` on `c` (same cipher, same IV), reproduces exactly `c`. -/
theorem cbc_encrypt_decrypt (b : Block) (hb : b.WF)
    (hinv : ∀ x : List Byte, x.length = b.BlockSize → b.encryptBlock (b.decryptBlock x) = x)
    (iv c decrypted newEncrypted : List Byte) (hiv : iv.length = b.BlockSize)
    (hc : c.length % b.BlockSize = 0)
    (hd1 : decrypted.length = c.length) (hd2 : newEncrypted.length = c.length) :
    ∃ (d d' : cbcDecrypter) (p : List Byte) (e e' : cbcEncrypter),
      NewCBCDecrypter b iv = .ok d ∧ cbcDecrypter.CryptBlocks d decrypted c = .ok (d', p) ∧
      NewCBCEncrypter b iv = .ok e ∧ cbcEncrypter.CryptBlocks e newEncrypted p = .ok (e', c) := by
  obtain ⟨blocks, hall, rfl⟩ := exists_blocks_of_mod b.BlockSize c hc
  have hpall := cbcUnchain_blocks b hb blocks iv hiv hall
  have hplen : (cbcUnchain b.decryptBlock iv blocks).flatten.length = blocks.flatten.length := by
    rw [flatten_length_blocks _ _ hpall, flatten_length_blocks _ _ hall, cbcUnchain_length]
  have h1 := cbcDecrypter_run b hb iv decrypted blocks hiv hall (by omega)
  have h2 := cbcEncrypter_run b hb iv newEncrypted _ hiv hpall (by omega)
  rw [List.drop_of_length_le (by omega), List.append_nil] at h1 h2
  rw [cbcChain_cbcUnchain b hb hinv blocks iv hiv hall] at h2
  exact ⟨_, _, _, _, _, newCbc_ok b iv hiv, h1, newCbc_ok b iv hiv, h2⟩

theorem cbc_encrypt_decrypt_witness :
    ∃ (d d' : cbcDecrypter) (p : List Byte) (e e' : cbcEncrypter),
      NewCBCDecrypter (toyCipher 2 7) (make 2) = .ok d ∧
      cbcDecrypter.CryptBlocks d (make 6) [9, 8, 7, 6, 5, 4] = .ok (d', p) ∧
      NewCBCEncrypter (toyCipher 2 7) (make 2) = .ok e ∧
      cbcEncrypter.CryptBlocks e (make 6) p = .ok (e', [9, 8, 7, 6, 5, 4]) :=
  cbc_encrypt_decrypt (toyCipher 2 7) (toyCipher_WF 2 7 (by decide))
    (fun x _ => toyCipher_inv 2 7 x) (make 2) [9, 8, 7, 6, 5, 4] (make 6) (make 6)
    rfl rfl rfl rfl

/-- C8: for every well-formed cipher, every IV of one block and every source
made of `k` whole blocks `P_1 .. P_k`, the CBC encrypter's `CryptBlocks`
returns, and it has written `k` ciphertext blocks `C_1 .. C_k` at the start of
`dst` with `C_i = Encrypt (P_i xor C_(i-1))`, where `C_0` is the IV given at
construction. The same blocks are written when `dst` is a buffer of its own
and when the call is made in place, `CryptBlocks(buf, buf)`, and they are the
memory the call leaves behind in each case. -/
theorem cbcEncrypter_CryptBlocks_chain (b : Block) (hb : b.WF) (iv dst : List Byte)
    (blocks : List (List Byte)) (hiv : iv.length = b.BlockSize)
    (hall : ∀ x ∈ blocks, x.length = b.BlockSize)
    (hdst : blocks.flatten.length ≤ dst.length) :
    ∃ (e e' : cbcEncrypter) (C : List (List Byte)),
      NewCBCEncrypter b iv = .ok e ∧
      cbcEncrypter.CryptBlocks e dst blocks.flatten =
        .ok (e', C.flatten ++ dst.drop blocks.flatten.length) ∧
      cbcEncrypter.CryptBlocksMem e dst blocks.flatten =
        (C.flatten ++ dst.drop blocks.flatten.length, .ok e') ∧
      cbcEncrypter.CryptBlocksInPlace e blocks.flatten = .ok (e', C.flatten) ∧
      cbcEncrypter.CryptBlocksInPlaceMem e blocks.flatten = (C.flatten, .ok e') ∧
      C.length = blocks.length ∧ (∀ x ∈ C, x.length = b.BlockSize) ∧
      ∀ (i : Nat) (P : List Byte), blocks[i]? = some P →
        ∃ c0, (iv :: C)[i]? = some c0 ∧ C[i]? = some (b.encryptBlock (xorBlock P c0)) := by
  have h1 := cbcEncrypter_run b hb iv dst blocks hiv hall hdst
  have h2 := cbcEncrypter_run b hb iv blocks.flatten blocks hiv hall (Nat.le_refl _)
  rw [List.drop_length, List.append_nil, ← cbcEncrypter_CryptBlocksInPlace_eq] at h2
  have h3 := h1
  rw [cbcEncrypter_CryptBlocks_ofMem] at h3
  have h4 := h2
  rw [cbcEncrypter_CryptBlocksInPlace_ofMem] at h4
  exact ⟨_, _, cbcChain b.encryptBlock iv blocks, newCbc_ok b iv hiv, h1,
    Run.ofMem_eq_ok _ _ _ h3, h2, Run.ofMem_eq_ok _ _ _ h4,
    cbcChain_length _ _ _, cbcChain_blocks b hb blocks iv hiv hall,
    fun i P h => cbcChain_index b.encryptBlock blocks iv i P h⟩

theorem cbcEncrypter_CryptBlocks_chain_witness :
    ∃ (e e' : cbcEncrypter) (C : List (List Byte)),
      NewCBCEncrypter (toyCipher 2 7) [1, 2] = .ok e ∧
      cbcEncrypter.CryptBlocks e (make 5) [[10, 20], [30, 40]].flatten =
        .ok (e', C.flatten ++ (make 5).drop [[10, 20], [30, 40]].flatten.length) ∧
      cbcEncrypter.CryptBlocksMem e (make 5) [[10, 20], [30, 40]].flatten =
        (C.flatten ++ (make 5).drop [[10, 20], [30, 40]].flatten.length, .ok e') ∧
      cbcEncrypter.CryptBlocksInPlace e [[10, 20], [30, 40]].flatten = .ok (e', C.flatten) ∧
      cbcEncrypter.CryptBlocksInPlaceMem e [[10, 20], [30, 40]].flatten =
        (C.flatten, .ok e') ∧
      C.length = [[10, 20], [30, 40]].length ∧
      (∀ x ∈ C, x.length = (toyCipher 2 7).BlockSize) ∧
      ∀ (i : Nat) (P : List Byte), [[10, 20], [30, 40]][i]? = some P →
        ∃ c0, ([1, 2] :: C)[i]? = some c0 ∧
          C[i]? = some ((toyCipher 2 7).encryptBlock (xorBlock P c0)) :=
  cbcEncrypter_CryptBlocks_chain (toyCipher 2 7) (toyCipher_WF 2 7 (by decide)) [1, 2] (make 5)
    [[10, 20], [30, 40]] rfl (by decide) (by decide)

/-- C9: for every well-formed cipher, every IV of one block and every source
made of `k` whole blocks `C_1 .. C_k`, the CBC decrypter's `CryptBlocks`
returns, and it has written `k` plaintext blocks `P_1 .. P_k` at the start of
`dst` with `P_i = Decrypt (C_i) xor C_(i-1)`, where `C_0` is the IV; the
chaining state `tmp2` after the call is the last ciphertext block, and after
the first `i` blocks it is the ciphertext block `C_i`. -/
theorem cbcDecrypter_CryptBlocks_chain (b : Block) (hb : b.WF) (iv dst : List Byte)
    (blocks : List (List Byte)) (hiv : iv.length = b.BlockSize)
    (hall : ∀ x ∈ blocks, x.length = b.BlockSize)
    (hdst : blocks.flatten.length ≤ dst.length) :
    ∃ (d d' : cbcDecrypter) (P : List (List Byte)),
      NewCBCDecrypter b iv = .ok d ∧
      cbcDecrypter.CryptBlocks d dst blocks.flatten =
        .ok (d', P.flatten ++ dst.drop blocks.flatten.length) ∧
      P.length = blocks.length ∧ (∀ x ∈ P, x.length = b.BlockSize) ∧
      (∀ (i : Nat) (C : List Byte), blocks[i]? = some C →
        ∃ c0, (iv :: blocks)[i]? = some c0 ∧ P[i]? = some (xorBlock (b.decryptBlock C) c0)) ∧
      d'.tmp2 = blocks.getLastD iv ∧
      ∀ i : Nat, i ≤ blocks.length →
        ∃ (di : cbcDecrypter) (outi : List Byte),
          cbcDecrypter.CryptBlocks d dst (blocks.take i).flatten = .ok (di, outi) ∧
          (iv :: blocks)[i]? = some di.tmp2 := by
  refine ⟨_, _, cbcUnchain b.decryptBlock iv blocks, newCbc_ok b iv hiv,
    cbcDecrypter_run b hb iv dst blocks hiv hall hdst,
    cbcUnchain_length _ _ _, cbcUnchain_blocks b hb blocks iv hiv hall,
    fun i C h => cbcUnchain_index b.decryptBlock blocks iv i C h, rfl, ?_⟩
  intro i hi
  have hall2 : ∀ x ∈ blocks.take i, x.length = b.BlockSize :=
    fun x hx => hall x (List.mem_of_mem_take hx)
  have hlen : (blocks.take i).flatten.length ≤ dst.length := by
    rw [flatten_length_blocks _ _ hall2]
    rw [flatten_length_blocks _ _ hall] at hdst
    rw [List.length_take]
    exact Nat.le_trans (Nat.mul_le_mul_right _ (Nat.min_le_right _ _)) hdst
  exact ⟨_, _, cbcDecrypter_run b hb iv dst (blocks.take i) hiv hall2 hlen,
    getLastD_take blocks iv i hi⟩

theorem cbcDecrypter_CryptBlocks_chain_witness :
    ∃ (d d' : cbcDecrypter) (P : List (List Byte)),
      NewCBCDecrypter (toyCipher 2 7) [1, 2] = .ok d ∧
      cbcDecrypter.CryptBlocks d (make 5) [[12, 17], [21, 62]].flatten =
        .ok (d', P.flatten ++ (make 5).drop [[12, 17], [21, 62]].flatten.length) ∧
      P.length = [[12, 17], [21, 62]].length ∧
      (∀ x ∈ P, x.length = (toyCipher 2 7).BlockSize) ∧
      (∀ (i : Nat) (C : List Byte), [[12, 17], [21, 62]][i]? = some C →
        ∃ c0, ([1, 2] :: [[12, 17], [21, 62]])[i]? = some c0 ∧
          P[i]? = some (xorBlock ((toyCipher 2 7).decryptBlock C) c0)) ∧
      d'.tmp2 = [[12, 17], [21, 62]].getLastD [1, 2] ∧
      ∀ i : Nat, i ≤ [[12, 17], [21, 62]].length →
        ∃ (di : cbcDecrypter) (outi : List Byte),
          cbcDecrypter.CryptBlocks d (make 5) ([[12, 17], [21, 62]].take i).flatten =
            .ok (di, outi) ∧
          ([1, 2] :: [[12, 17], [21, 62]])[i]? = some di.tmp2 :=
  cbcDecrypter_CryptBlocks_chain (toyCipher 2 7) (toyCipher_WF 2 7 (by decide)) [1, 2] (make 5)
    [[12, 17], [21, 62]] rfl (by decide) (by decide)

/-- C10: for every well-formed cipher and every source made of `k` whole
blocks, the ECB encrypter's `CryptBlocks` returns, and block `i` of its output
is `Encrypt` of block `i` of the source, whatever the other blocks are; hence
two equal plaintext blocks, in the same call or in two calls with the same
cipher, give equal ciphertext blocks. -/
theorem ecbEncrypter_CryptBlocks_blocks (b : Block) (hb : b.WF) (dst dst' : List Byte)
    (blocks blocks' : List (List Byte))
    (hall : ∀ x ∈ blocks, x.length = b.BlockSize)
    (hall' : ∀ x ∈ blocks', x.length = b.BlockSize)
    (hdst : blocks.flatten.length ≤ dst.length)
    (hdst' : blocks'.flatten.length ≤ dst'.length) :
    ∃ out out' : List Byte,
      ecbEncrypter.CryptBlocks (NewECBEncrypter b) dst blocks.flatten = .ok out ∧
      ecbEncrypter.CryptBlocks (NewECBEncrypter b) dst' blocks'.flatten = .ok out' ∧
      out = (blocks.map b.encryptBlock).flatten ++ dst.drop blocks.flatten.length ∧
      (∀ (i : Nat) (P : List Byte), blocks[i]? = some P →
        blockAt b.BlockSize out i = b.encryptBlock P) ∧
      (∀ (i j : Nat) (P : List Byte), blocks[i]? = some P → blocks[j]? = some P →
        blockAt b.BlockSize out i = blockAt b.BlockSize out j) ∧
      (∀ (i j : Nat) (P : List Byte), blocks[i]? = some P → blocks'[j]? = some P →
        blockAt b.BlockSize out i = blockAt b.BlockSize out' j) := by
  have hpos := hb.1
  have run : ∀ (dst : List Byte) (blocks : List (List Byte)),
      (∀ x ∈ blocks, x.length = b.BlockSize) → blocks.flatten.length ≤ dst.length →
      ecbEncrypter.CryptBlocks (NewECBEncrypter b) dst blocks.flatten =
        .ok ((blocks.map b.encryptBlock).flatten ++ dst.drop blocks.flatten.length) := by
    intro dst blocks hall hdst
    unfold ecbEncrypter.CryptBlocks
    rw [ecbEncLoop_blocks b hb blocks hall _ _ _ _ rfl rfl (blocks_length_le _ hpos _ hall) hdst]
    simp
  have blk : ∀ (dst : List Byte) (blocks : List (List Byte)),
      (∀ x ∈ blocks, x.length = b.BlockSize) → ∀ (i : Nat) (P : List Byte),
      blocks[i]? = some P →
      blockAt b.BlockSize ((blocks.map b.encryptBlock).flatten ++ dst.drop blocks.flatten.length) i
        = b.encryptBlock P := by
    intro dst blocks hall i P hP
    apply blockAt_flatten
    · intro x hx
      obtain ⟨y, hy, rfl⟩ := List.mem_map.mp hx
      exact (hb.2 y (hall y hy)).1
    · simp [hP]
  refine ⟨_, _, run dst blocks hall hdst, run dst' blocks' hall' hdst', rfl,
    blk dst blocks hall, ?_, ?_⟩
  · intro i j P hi hj
    rw [blk dst blocks hall i P hi, blk dst blocks hall j P hj]
  · intro i j P hi hj
    rw [blk dst blocks hall i P hi, blk dst' blocks' hall' j P hj]

theorem ecbEncrypter_CryptBlocks_blocks_witness :
    ∃ out out' : List Byte,
      ecbEncrypter.CryptBlocks (NewECBEncrypter (toyCipher 2 7)) (make 6)
        [[1, 2], [3, 4], [1, 2]].flatten = .ok out ∧
      ecbEncrypter.CryptBlocks (NewECBEncrypter (toyCipher 2 7)) (make 4)
        [[5, 6], [1, 2]].flatten = .ok out' ∧
      out = ([[1, 2], [3, 4], [1, 2]].map (toyCipher 2 7).encryptBlock).flatten
        ++ (make 6).drop [[1, 2], [3, 4], [1, 2]].flatten.length ∧
      (∀ (i : Nat) (P : List Byte), [[1, 2], [3, 4], [1, 2]][i]? = some P →
        blockAt (toyCipher 2 7).BlockSize out i = (toyCipher 2 7).encryptBlock P) ∧
      (∀ (i j : Nat) (P : List Byte), [[1, 2], [3, 4], [1, 2]][i]? = some P →
        [[1, 2], [3, 4], [1, 2]][j]? = some P →
        blockAt (toyCipher 2 7).BlockSize out i = blockAt (toyCipher 2 7).BlockSize out j) ∧
      (∀ (i j : Nat) (P : List Byte), [[1, 2], [3, 4], [1, 2]][i]? = some P →
        [[5, 6], [1, 2]][j]? = some P →
        blockAt (toyCipher 2 7).BlockSize out i = blockAt (toyCipher 2 7).BlockSize out' j) :=
  ecbEncrypter_CryptBlocks_blocks (toyCipher 2 7) (toyCipher_WF 2 7 (by decide)) (make 6) (make 4)
    [[1, 2], [3, 4], [1, 2]] [[5, 6], [1, 2]] (by decide) (by decide) (by decide) (by decide)

/-! ## Lemmas on the ECB entry points, `Xor` and `IsECB` -/

theorem ecbEncrypter_run (b : Block) (hb : b.WF) (dst : List Byte) (blocks : List (List Byte))
    (hall : ∀ x ∈ blocks, x.length = b.BlockSize) (hdst : blocks.flatten.length ≤ dst.length) :
    ecbEncrypter.CryptBlocks (NewECBEncrypter b) dst blocks.flatten =
      .ok ((blocks.map b.encryptBlock).flatten ++ dst.drop blocks.flatten.length) := by
  unfold ecbEncrypter.CryptBlocks
  rw [ecbEncLoop_blocks b hb blocks hall _ _ _ _ rfl rfl (blocks_length_le _ hb.1 _ hall) hdst]
  simp

theorem ecbDecrypter_run (b : Block) (hb : b.WF) (dst : List Byte) (blocks : List (List Byte))
    (hall : ∀ x ∈ blocks, x.length = b.BlockSize) (hdst : blocks.flatten.length ≤ dst.length) :
    ecbDecrypter.CryptBlocks (NewECBDecrypter b) dst blocks.flatten =
      .ok ((blocks.map b.decryptBlock).flatten ++ dst.drop blocks.flatten.length) := by
  unfold ecbDecrypter.CryptBlocks
  rw [ecbDecLoop_blocks b hb blocks hall _ _ _ _ rfl rfl (blocks_length_le _ hb.1 _ hall) hdst]
  simp

theorem map_encrypt_blocks (b : Block) (hb : b.WF) (blocks : List (List Byte))
    (hall : ∀ x ∈ blocks, x.length = b.BlockSize) :
    ∀ x ∈ blocks.map b.encryptBlock, x.length = b.BlockSize := by
  intro x hx
  obtain ⟨y, hy, rfl⟩ := List.mem_map.mp hx
  exact (hb.2 y (hall y hy)).1

theorem map_decrypt_encrypt (b : Block)
    (hinv : ∀ x : List Byte, x.length = b.BlockSize → b.decryptBlock (b.encryptBlock x) = x) :
    ∀ (blocks : List (List Byte)), (∀ x ∈ blocks, x.length = b.BlockSize) →
    (blocks.map b.encryptBlock).map b.decryptBlock = blocks
  | [], _ => rfl
  | P :: rest, hall => by
    simp only [List.map_cons]
    rw [hinv P (hall P (List.mem_cons_self _ _)),
      map_decrypt_encrypt b hinv rest (fun y hy => hall y (List.mem_cons_of_mem _ hy))]

theorem xorLoop_eq (buf1 buf2 : List Byte) : ∀ (k i : Nat) (result : List Byte),
    i + k = buf1.length → i + k = buf2.length → i + k = result.length →
    xorLoop buf1 buf2 k i result =
      .ok (result.take i ++ List.zipWith bxor (buf1.drop i) (buf2.drop i)) := by
  intro k
  induction k with
  | zero =>
    intro i result h1 h2 h3
    have : buf1.drop i = [] := List.drop_eq_nil_of_le (by omega)
    simp [xorLoop, this]
    omega
  | succ k ih =>
    intro i result h1 h2 h3
    have hi : i < buf1.length := by omega
    have hj : i < buf2.length := by omega
    have hr : i < result.length := by omega
    rw [xorLoop, List.getElem?_eq_getElem hi, List.getElem?_eq_getElem hj]
    simp only [if_pos hr]
    rw [ih (i + 1) _ (by omega) (by omega) (by simp; omega)]
    rw [List.drop_eq_getElem_cons hi, List.drop_eq_getElem_cons hj]
    rw [List.zipWith_cons_cons]
    rw [List.set_eq_take_append_cons_drop, if_pos hr]
    have hl : (List.take i result).length = i := by simp; omega
    rw [List.take_append_eq_append_take, hl, List.take_of_length_le (by omega)]
    simp

theorem Xor_eq (a b : List Byte) (h : a.length = b.length) :
    Xor a b = .ok (some (xorBlock a b)) := by
  unfold Xor
  rw [if_neg (by simp [h])]
  simp only []
  rw [xorLoop_eq a b a.length 0 _ (by simp) (by simp [h]) (by simp [make])]
  simp [xorBlock]

theorem xorBlock_xorBlock (a b : List Byte) (h : a.length = b.length) :
    xorBlock a (xorBlock a b) = b := by
  rw [xorBlock_comm a (xorBlock a b), xorBlock_comm a b]
  exact xorBlock_cancel b a h.symm

theorem isECBBlocks_spec (enc : List Byte) (bs j : Nat) (hj : j < bs) :
    ∀ (k idx : Nat), 3 ≤ idx → (idx + k) * bs ≤ enc.length →
    ∃ r : Bool, isECBBlocks enc bs j k idx = .ok r ∧
      (r = true ↔ ∀ t, t < k → enc[(idx + t) * bs + j]? = enc[3 * bs + j]?) := by
  intro k
  induction k with
  | zero =>
    intro idx _ _
    exact ⟨true, rfl, by simp⟩
  | succ k ih =>
    intro idx h3 hlen
    have hmul : (idx + 1) * bs ≤ (idx + (k + 1)) * bs := Nat.mul_le_mul_right _ (by omega)
    have hmul3 : (3 + 1) * bs ≤ (idx + 1) * bs := Nat.mul_le_mul_right _ (by omega)
    have hi : idx * bs + j < enc.length := by
      rw [Nat.add_mul, Nat.one_mul] at hmul; omega
    have hb : 3 * bs + j < enc.length := by
      rw [Nat.add_mul, Nat.one_mul] at hmul3; omega
    have hgi : enc[idx * bs + j]? = some enc[idx * bs + j] := List.getElem?_eq_getElem hi
    have hgb : enc[3 * bs + j]? = some enc[3 * bs + j] := List.getElem?_eq_getElem hb
    rw [isECBBlocks, hgi, hgb]
    simp only
    by_cases hne : enc[idx * bs + j] ≠ enc[3 * bs + j]
    · rw [if_pos hne]
      refine ⟨false, rfl, ?_⟩
      simp only [Bool.false_eq_true, false_iff]
      intro hall
      have := hall 0 (by omega)
      rw [Nat.add_zero, hgi] at this
      exact hne (Option.some.inj this)
    · rw [if_neg hne]
      have heq : enc[idx * bs + j] = enc[3 * bs + j] := by
        by_contra hcon; exact hne hcon
      obtain ⟨r, hr, hiff⟩ := ih (idx + 1) (by omega)
        (by rw [Nat.add_assoc, Nat.add_comm 1 k]; exact hlen)
      rw [hgb] at hiff
      refine ⟨r, hr, ?_⟩
      rw [hiff]
      constructor
      · intro hall t ht
        cases t with
        | zero =>
          rw [Nat.add_zero, hgi, heq]
        | succ t =>
          have := hall t (by omega)
          rw [Nat.add_assoc, Nat.add_comm 1 t] at this
          exact this
      · intro hall t ht
        have := hall (t + 1) (by omega)
        rw [Nat.add_assoc, Nat.add_comm 1 t]
        exact this

theorem isECBColumns_spec (enc : List Byte) (bs : Nat) (hlen : 7 * bs ≤ enc.length) :
    ∀ (k j0 : Nat), j0 + k = bs →
    ∃ r : Bool, isECBColumns enc bs k j0 = .ok r ∧
      (r = true ↔ ∀ j, j0 ≤ j → j < bs →
        ∀ t, t < 3 → enc[(4 + t) * bs + j]? = enc[3 * bs + j]?) := by
  intro k
  induction k with
  | zero =>
    intro j0 h
    refine ⟨true, rfl, ?_⟩
    simp only [true_iff]
    intro j h1 h2
    omega
  | succ k ih =>
    intro j0 h
    obtain ⟨r1, hr1, hiff1⟩ := isECBBlocks_spec enc bs j0 (by omega) 3 4 (by omega) hlen
    rw [isECBColumns, hr1]
    simp only [Run.bind_ok]
    cases r1 with
    | false =>
      refine ⟨false, by simp, ?_⟩
      simp only [Bool.false_eq_true, false_iff] at hiff1 ⊢
      intro hall
      exact hiff1 (hall j0 (Nat.le_refl _) (by omega))
    | true =>
      obtain ⟨r, hr, hiff⟩ := ih (j0 + 1) (by omega)
      refine ⟨r, by simpa using hr, ?_⟩
      rw [hiff]
      have h0 := hiff1.mp rfl
      constructor
      · intro hall j hj1 hj2
        by_cases hj : j = j0
        · subst hj; exact h0
        · exact hall j (by omega) hj2
      · intro hall j hj1 hj2
        exact hall j (by omega) hj2

theorem blockAt_eq_iff (bs : Nat) (enc : List Byte) (i k : Nat) :
    blockAt bs enc i = blockAt bs enc k ↔
      ∀ j, j < bs → enc[i * bs + j]? = enc[k * bs + j]? := by
  unfold blockAt
  constructor
  · intro h j hj
    have := congrArg (fun l => l[j]?) h
    simp only [List.getElem?_take, if_pos hj, List.getElem?_drop] at this
    exact this
  · intro h
    apply List.ext_getElem?
    intro j
    simp only [List.getElem?_take, List.getElem?_drop]
    by_cases hj : j < bs
    · rw [if_pos hj, if_pos hj]; exact h j hj
    · rw [if_neg hj, if_neg hj]

theorem IsECB_iff (enc : List Byte) (bs : Nat) (hlen : 7 * bs ≤ enc.length) :
    ∃ r : Bool, IsECB enc bs = .ok r ∧
      (r = true ↔ blockAt bs enc 4 = blockAt bs enc 3 ∧ blockAt bs enc 5 = blockAt bs enc 3 ∧
        blockAt bs enc 6 = blockAt bs enc 3) := by
  obtain ⟨r, hr, hiff⟩ := isECBColumns_spec enc bs hlen bs 0 (by omega)
  refine ⟨r, ?_, ?_⟩
  · unfold IsECB
    rw [if_neg (by omega)]
    exact hr
  · rw [hiff, blockAt_eq_iff bs enc 4 3, blockAt_eq_iff bs enc 5 3, blockAt_eq_iff bs enc 6 3]
    constructor
    · intro h
      exact ⟨fun j hj => h j (Nat.zero_le _) hj 0 (by omega),
        fun j hj => h j (Nat.zero_le _) hj 1 (by omega),
        fun j hj => h j (Nat.zero_le _) hj 2 (by omega)⟩
    · rintro ⟨h4, h5, h6⟩ j _ hj t ht
      have : t = 0 ∨ t = 1 ∨ t = 2 := by omega
      rcases this with rfl | rfl | rfl
      · exact h4 j hj
      · exact h5 j hj
      · exact h6 j hj

/-! ## Lemmas on sources that are not whole blocks -/

theorem Run.panics_bind {α β : Type} (x : Run α) (f : α → Run β)
    (hx : ∀ e, x = .fault e → e ≠ .fuel) (hf : ∀ a, x = .ok a → (f a).Panics) :
    (x.bind f).Panics := by
  cases x with
  | ok a => exact hf a rfl
  | fault e => exact ⟨e, rfl, hx e rfl⟩

theorem sliceTo_fault (s : List Byte) (n : Nat) (e : Fault) (h : sliceTo s n = .fault e) :
    e ≠ .fuel := by
  unfold sliceTo at h
  split at h
  · cases h
  · cases h; decide

theorem sliceFrom_fault (s : List Byte) (n : Nat) (e : Fault) (h : sliceFrom s n = .fault e) :
    e ≠ .fuel := by
  unfold sliceFrom at h
  split at h
  · cases h
  · cases h; decide

theorem Block.Encrypt_fault (b : Block) (dst src : List Byte) (e : Fault)
    (h : b.Encrypt dst src = .fault e) : e ≠ .fuel := by
  unfold Block.Encrypt at h
  split at h
  · cases h; decide
  · cases h

theorem Block.Decrypt_fault (b : Block) (dst src : List Byte) (e : Fault)
    (h : b.Decrypt dst src = .fault e) : e ≠ .fuel := by
  unfold Block.Decrypt at h
  split at h
  · cases h; decide
  · cases h

theorem xorInto_fault (other : List Byte) : ∀ (k i : Nat) (tmp : List Byte) (e : Fault),
    xorInto other k i tmp = .fault e → e ≠ .fuel := by
  intro k
  induction k with
  | zero => intro i tmp e h; cases h
  | succ k ih =>
    intro i tmp e h
    rw [xorInto] at h
    split at h
    · exact ih _ _ e h
    · cases h; decide

theorem ragged_drop (bs len : Nat) (hbs : 0 < bs) (h : len % bs ≠ 0) (hle : bs ≤ len)
    (fuel : Nat) (hf : len / bs < fuel + 1) :
    (len - bs) % bs ≠ 0 ∧ (len - bs) / bs < fuel := by
  obtain ⟨m, rfl⟩ : ∃ m, len = m + bs := ⟨len - bs, by omega⟩
  rw [Nat.add_sub_cancel]
  rw [Nat.add_mod_right] at h
  rw [Nat.add_div_right _ hbs] at hf
  exact ⟨h, by omega⟩

theorem ecbEncLoop_ragged (bs : Nat) (hbs : 0 < bs) : ∀ (fuel : Nat) (d : ecbEncrypter)
    (out dst src : List Byte), d.blockSize = bs → src.length % bs ≠ 0 →
    src.length / bs < fuel → (ecbEncLoop fuel d out dst src).Panics := by
  intro fuel
  induction fuel with
  | zero => intro d out dst src _ _ h; exact absurd h (Nat.not_lt_zero _)
  | succ fuel ih =>
    intro d out dst src hd hr hf
    have hne : ¬ src.length = 0 := by
      intro h0; rw [h0] at hr; simp at hr
    rw [ecbEncLoop, if_neg hne]
    refine Run.panics_bind _ _ (sliceTo_fault _ _) (fun blk hblk => ?_)
    have hle : bs ≤ src.length := by
      unfold sliceTo at hblk
      split at hblk
      · rw [← hd]; assumption
      · cases hblk
    refine Run.panics_bind _ _ (Block.Encrypt_fault _ _ _) (fun dst0 _ => ?_)
    refine Run.panics_bind _ _ (sliceFrom_fault _ _) (fun src1 hsrc1 => ?_)
    refine Run.panics_bind _ _ (sliceFrom_fault _ _) (fun dst1 _ => ?_)
    have hs : src1 = src.drop bs := by
      unfold sliceFrom at hsrc1
      split at hsrc1
      · cases hsrc1; rw [hd]
      · cases hsrc1
    obtain ⟨h1, h2⟩ := ragged_drop bs src.length hbs hr hle fuel hf
    exact ih d _ dst1 src1 hd (by rw [hs, List.length_drop]; exact h1)
      (by rw [hs, List.length_drop]; exact h2)

theorem ecbDecLoop_ragged (bs : Nat) (hbs : 0 < bs) : ∀ (fuel : Nat) (d : ecbDecrypter)
    (out dst src : List Byte), d.blockSize = bs → src.length % bs ≠ 0 →
    src.length / bs < fuel → (ecbDecLoop fuel d out dst src).Panics := by
  intro fuel
  induction fuel with
  | zero => intro d out dst src _ _ h; exact absurd h (Nat.not_lt_zero _)
  | succ fuel ih =>
    intro d out dst src hd hr hf
    have hne : ¬ src.length = 0 := by
      intro h0; rw [h0] at hr; simp at hr
    rw [ecbDecLoop, if_neg hne]
    refine Run.panics_bind _ _ (sliceTo_fault _ _) (fun blk hblk => ?_)
    have hle : bs ≤ src.length := by
      unfold sliceTo at hblk
      split at hblk
      · rw [← hd]; assumption
      · cases hblk
    refine Run.panics_bind _ _ (Block.Decrypt_fault _ _ _) (fun dst0 _ => ?_)
    refine Run.panics_bind _ _ (sliceFrom_fault _ _) (fun src1 hsrc1 => ?_)
    refine Run.panics_bind _ _ (sliceFrom_fault _ _) (fun dst1 _ => ?_)
    have hs : src1 = src.drop bs := by
      unfold sliceFrom at hsrc1
      split at hsrc1
      · cases hsrc1; rw [hd]
      · cases hsrc1
    obtain ⟨h1, h2⟩ := ragged_drop bs src.length hbs hr hle fuel hf
    exact ih d _ dst1 src1 hd (by rw [hs, List.length_drop]; exact h1)
      (by rw [hs, List.length_drop]; exact h2)

theorem cbcDecLoop_ragged (bs : Nat) (hbs : 0 < bs) : ∀ (fuel : Nat) (d : cbcDecrypter)
    (out dst src : List Byte), d.blockSize = bs → src.length % bs ≠ 0 →
    src.length / bs < fuel → (cbcDecLoop fuel d out dst src).Panics := by
  intro fuel
  induction fuel with
  | zero => intro d out dst src _ _ h; exact absurd h (Nat.not_lt_zero _)
  | succ fuel ih =>
    intro d out dst src hd hr hf
    have hne : ¬ src.length = 0 := by
      intro h0; rw [h0] at hr; simp at hr
    rw [cbcDecLoop, if_neg hne]
    refine Run.panics_bind _ _ (sliceTo_fault _ _) (fun blk hblk => ?_)
    have hle : bs ≤ src.length := by
      unfold sliceTo at hblk
      split at hblk
      · rw [← hd]; assumption
      · cases hblk
    refine Run.panics_bind _ _ (Block.Decrypt_fault _ _ _) (fun t1 _ => ?_)
    refine Run.panics_bind _ _ (xorInto_fault _ _ _ _) (fun t2 _ => ?_)
    refine Run.panics_bind _ _ (sliceTo_fault _ _) (fun blk2 _ => ?_)
    refine Run.panics_bind _ _ (sliceTo_fault _ _) (fun head _ => ?_)
    refine Run.panics_bind _ _ (sliceFrom_fault _ _) (fun src1 hsrc1 => ?_)
    refine Run.panics_bind _ _ (sliceFrom_fault _ _) (fun dst1 _ => ?_)
    have hs : src1 = src.drop bs := by
      unfold sliceFrom at hsrc1
      split at hsrc1
      · cases hsrc1; rw [hd]
      · cases hsrc1
    obtain ⟨h1, h2⟩ := ragged_drop bs src.length hbs hr hle fuel hf
    exact ih _ _ dst1 src1 hd (by rw [hs, List.length_drop]; exact h1)
      (by rw [hs, List.length_drop]; exact h2)

theorem ragged_fuel (bs len : Nat) (h : len % bs ≠ 0) : len / bs < len := by
  have hpos : 0 < len := by
    rcases Nat.eq_zero_or_pos len with h0 | h0
    · rw [h0] at h; simp at h
    · exact h0
  rcases Nat.lt_or_ge 1 bs with h1 | h1
  · exact Nat.div_lt_self hpos h1
  · have : bs = 0 ∨ bs = 1 := by omega
    rcases this with rfl | rfl
    · rw [Nat.div_zero]; exact hpos
    · exact absurd (Nat.mod_one len) h

/-! ## Claims on ECB, `IsECB`, the oracles, the faults and `Xor` -/

/-- C11: for every well-formed cipher whose block decryption inverts its block
encryption and every buffer `p` whose length is a multiple of the block size,
the ECB decrypter's `CryptBlocks`, run on the output of the ECB encrypter's
`CryptBlocks` on `p`, returns exactly `p`. -/
theorem ecb_decrypt_encrypt (b : Block) (hb : b.WF)
    (hinv : ∀ x : List Byte, x.length = b.BlockSize → b.decryptBlock (b.encryptBlock x) = x)
    (p dst1 dst2 : List Byte) (hp : p.length % b.BlockSize = 0)
    (hd1 : dst1.length = p.length) (hd2 : dst2.length = p.length) :
    ∃ c : List Byte,
      ecbEncrypter.CryptBlocks (NewECBEncrypter b) dst1 p = .ok c ∧
      ecbDecrypter.CryptBlocks (NewECBDecrypter b) dst2 c = .ok p := by
  obtain ⟨blocks, hall, rfl⟩ := exists_blocks_of_mod b.BlockSize p hp
  have hcall := map_encrypt_blocks b hb blocks hall
  have hclen : (blocks.map b.encryptBlock).flatten.length = blocks.flatten.length := by
    rw [flatten_length_blocks _ _ hcall, flatten_length_blocks _ _ hall, List.length_map]
  have h1 := ecbEncrypter_run b hb dst1 blocks hall (by omega)
  have h2 := ecbDecrypter_run b hb dst2 _ hcall (by omega)
  rw [List.drop_of_length_le (by omega), List.append_nil] at h1 h2
  rw [map_decrypt_encrypt b hinv blocks hall] at h2
  exact ⟨_, h1, h2⟩

theorem ecb_decrypt_encrypt_witness :
    ∃ c : List Byte,
      ecbEncrypter.CryptBlocks (NewECBEncrypter (toyCipher 2 7)) (make 4) [10, 20, 30, 40]
        = .ok c ∧
      ecbDecrypter.CryptBlocks (NewECBDecrypter (toyCipher 2 7)) (make 4) c
        = .ok [10, 20, 30, 40] :=
  ecb_decrypt_encrypt (toyCipher 2 7) (toyCipher_WF 2 7 (by decide))
    (fun x _ => toyCipher_inv 2 7 x) [10, 20, 30, 40] (make 4) (make 4) rfl rfl rfl

/-- C19: `NewCBCEncrypter b iv` and `NewCBCDecrypter b iv` end in a fault (the
panic on the IV length) if and only if `len iv` differs from `b.BlockSize`;
otherwise they return a mode whose `BlockSize` is `b.BlockSize`. -/
theorem NewCBC_fault_iff (b : Block) (iv : List Byte) :
    ((∃ f, NewCBCEncrypter b iv = .fault f) ↔ iv.length ≠ b.BlockSize) ∧
    ((∃ f, NewCBCDecrypter b iv = .fault f) ↔ iv.length ≠ b.BlockSize) ∧
    ((NewCBCEncrypter b iv = .fault .ivLength ∧ NewCBCDecrypter b iv = .fault .ivLength) ∨
      ∃ (e : cbcEncrypter) (d : cbcDecrypter),
        NewCBCEncrypter b iv = .ok e ∧ cbcEncrypter.BlockSize e = b.BlockSize ∧
        NewCBCDecrypter b iv = .ok d ∧ cbcDecrypter.BlockSize d = b.BlockSize) := by
  by_cases h : iv.length = b.BlockSize
  · have hok := newCbc_ok b iv h
    refine ⟨?_, ?_, Or.inr ⟨_, _, hok, rfl, hok, rfl⟩⟩
    · constructor
      · rintro ⟨f, hf⟩
        rw [NewCBCEncrypter, hok] at hf
        exact Run.noConfusion hf
      · intro hne; exact absurd h hne
    · constructor
      · rintro ⟨f, hf⟩
        rw [NewCBCDecrypter, hok] at hf
        exact Run.noConfusion hf
      · intro hne; exact absurd h hne
  · have hne : b.BlockSize ≠ iv.length := fun e => h e.symm
    have hf : newCbc b iv = .fault .ivLength := by
      unfold newCbc
      simp only [ne_eq, hne, not_false_eq_true, if_true]
    exact ⟨⟨fun _ => h, fun _ => ⟨_, hf⟩⟩, ⟨fun _ => h, fun _ => ⟨_, hf⟩⟩, Or.inl ⟨hf, hf⟩⟩

/-- C20: for all buffers `a` and `b`, `Xor a b` never panics; it returns the
error if and only if `len a ≠ len b`; otherwise it returns a buffer of the
same length whose `i`-th byte is `a[i] xor b[i]`, and `Xor a (Xor a b)` is
`b`. -/
theorem Xor_spec (a b : List Byte) :
    (Xor a b = .ok none ↔ a.length ≠ b.length) ∧
    ((a.length ≠ b.length ∧ Xor a b = .ok none) ∨
      ∃ r : List Byte, a.length = b.length ∧ Xor a b = .ok (some r) ∧
        r.length = a.length ∧
        (∀ (i : Nat) (x y : Byte), a[i]? = some x → b[i]? = some y →
          r[i]? = some (bxor x y)) ∧
        Xor a r = .ok (some b)) := by
  by_cases h : a.length = b.length
  · have hx := Xor_eq a b h
    have hl : (xorBlock a b).length = a.length := xorBlock_length a b h
    refine ⟨⟨fun hn => ?_, fun hne => absurd h hne⟩, Or.inr ⟨_, h, hx, hl, ?_, ?_⟩⟩
    · rw [hx] at hn
      cases hn
    · intro i x y ha hb
      simp [xorBlock, List.getElem?_zipWith, ha, hb]
    · rw [Xor_eq a _ hl.symm, xorBlock_xorBlock a b h]
  · have hx : Xor a b = .ok none := by
      unfold Xor
      rw [if_pos h]
    exact ⟨⟨fun _ => h, fun _ => hx⟩, Or.inl ⟨h, hx⟩⟩

/-- C12 (failing input): on 96 zero bytes with block size 16, six full blocks,
the guard of `IsECB` lets the call through and the comparison of block 6 reads
index 96: the call ends in the run-time panic, index out of range. -/
theorem IsECB_six_blocks_out_of_range :
    (make 96).length ≥ 6 * 16 ∧ IsECB (make 96) 16 = .fault .outOfRange := by
  decide

/-- C13 (counterexample): with block size 1, in the buffer 0 0 0 1 2 2 3 the
blocks 4 and 5 are equal, and `IsECB` returns `false`. -/
theorem IsECB_equal_pair_false :
    blockAt 1 [0, 0, 0, 1, 2, 2, 3] 4 = blockAt 1 [0, 0, 0, 1, 2, 2, 3] 5 ∧
    IsECB [0, 0, 0, 1, 2, 2, 3] 1 = .ok false := by
  decide

/-- C13 (amended): for every block size (`bs ≥ 1` included) and every ciphertext of at
least `7 * bs` bytes, if the blocks 4, 5 and 6 are each byte-for-byte equal to
block 3, then `IsECB` returns `true`. -/
theorem IsECB_all_equal_true (enc : List Byte) (bs : Nat)
    (hlen : 7 * bs ≤ enc.length)
    (h4 : blockAt bs enc 4 = blockAt bs enc 3) (h5 : blockAt bs enc 5 = blockAt bs enc 3)
    (h6 : blockAt bs enc 6 = blockAt bs enc 3) :
    IsECB enc bs = .ok true := by
  obtain ⟨r, hr, hiff⟩ := IsECB_iff enc bs hlen
  rw [hr, hiff.mpr ⟨h4, h5, h6⟩]

theorem IsECB_all_equal_true_witness :
    IsECB [9, 8, 7, 6, 5, 4, 1, 2, 1, 2, 1, 2, 1, 2] 2 = .ok true :=
  IsECB_all_equal_true [9, 8, 7, 6, 5, 4, 1, 2, 1, 2, 1, 2, 1, 2] 2 (by decide) (by decide)
    (by decide) (by decide)

/-- C14: for every block size (`bs ≥ 1` included) and every ciphertext of at least
`7 * bs` bytes, `IsECB` returns, and it returns `true` if and only if the
blocks 3, 4, 5 and 6 are all byte-for-byte identical. -/
theorem IsECB_true_iff (enc : List Byte) (bs : Nat)
    (hlen : 7 * bs ≤ enc.length) :
    ∃ r : Bool, IsECB enc bs = .ok r ∧
      (r = true ↔ blockAt bs enc 3 = blockAt bs enc 4 ∧ blockAt bs enc 4 = blockAt bs enc 5 ∧
        blockAt bs enc 5 = blockAt bs enc 6) := by
  obtain ⟨r, hr, hiff⟩ := IsECB_iff enc bs hlen
  refine ⟨r, hr, ?_⟩
  rw [hiff]
  constructor
  · rintro ⟨h4, h5, h6⟩
    exact ⟨h4.symm, h4.trans h5.symm, h5.trans h6.symm⟩
  · rintro ⟨h34, h45, h56⟩
    exact ⟨h34.symm, (h34.trans h45).symm, ((h34.trans h45).trans h56).symm⟩

theorem IsECB_true_iff_witness :
    ∃ r : Bool, IsECB [0, 0, 0, 1, 2, 2, 3] 1 = .ok r ∧
      (r = true ↔ blockAt 1 [0, 0, 0, 1, 2, 2, 3] 3 = blockAt 1 [0, 0, 0, 1, 2, 2, 3] 4 ∧
        blockAt 1 [0, 0, 0, 1, 2, 2, 3] 4 = blockAt 1 [0, 0, 0, 1, 2, 2, 3] 5 ∧
        blockAt 1 [0, 0, 0, 1, 2, 2, 3] 5 = blockAt 1 [0, 0, 0, 1, 2, 2, 3] 6) :=
  IsECB_true_iff [0, 0, 0, 1, 2, 2, 3] 1 (by decide)

theorem ecbEncLoopInPlace_ragged (bs : Nat) (hbs : 0 < bs) : ∀ (fuel : Nat) (d : ecbEncrypter)
    (out buf : List Byte), d.blockSize = bs → buf.length % bs ≠ 0 →
    buf.length / bs < fuel → (ecbEncLoopInPlace fuel d out buf).Panics := by
  intro fuel
  induction fuel with
  | zero => intro d out buf _ _ h; exact absurd h (Nat.not_lt_zero _)
  | succ fuel ih =>
    intro d out buf hd hr hf
    have hne : ¬ buf.length = 0 := by
      intro h0; rw [h0] at hr; simp at hr
    rw [ecbEncLoopInPlace, if_neg hne]
    refine Run.panics_bind _ _ (sliceTo_fault _ _) (fun blk hblk => ?_)
    have hle : bs ≤ buf.length := by
      unfold sliceTo at hblk
      split at hblk
      · rw [← hd]; assumption
      · cases hblk
    refine Run.panics_bind _ _ (Block.Encrypt_fault _ _ _) (fun buf0 hbuf0 => ?_)
    refine Run.panics_bind _ _ (sliceFrom_fault _ _) (fun src1 hsrc1 => ?_)
    refine Run.panics_bind _ _ (sliceFrom_fault _ _) (fun dst1 _ => ?_)
    have hl0 : buf0.length = buf.length := by
      unfold Block.Encrypt at hbuf0
      split at hbuf0
      · cases hbuf0
      · cases hbuf0
        unfold copy
        rw [List.length_append, List.length_take, List.length_drop]
        omega
    have hs : src1.length = buf.length - bs := by
      unfold sliceFrom at hsrc1
      split at hsrc1
      · cases hsrc1; rw [List.length_drop, hl0, hd]
      · cases hsrc1
    obtain ⟨h1, h2⟩ := ragged_drop bs buf.length hbs hr hle fuel hf
    exact ih d _ src1 hd (by rw [hs]; exact h1) (by rw [hs]; exact h2)

/-- C18: for every cipher with a positive block size and every source whose
length is not a multiple of the block size, `CryptBlocks` of each of the four
modes ends in a panic, whatever `dst` is, and also when the call is made in
place; for the CBC encrypter the panic is that of the length check and the
memory the call leaves behind is `dst` as it was: no byte of `dst` is
written. -/
theorem CryptBlocks_ragged_panics (b : Block) (hpos : 0 < b.BlockSize) (iv dst src : List Byte)
    (hiv : iv.length = b.BlockSize) (hr : src.length % b.BlockSize ≠ 0) :
    (ecbEncrypter.CryptBlocks (NewECBEncrypter b) dst src).Panics ∧
    (ecbEncrypter.CryptBlocksInPlace (NewECBEncrypter b) src).Panics ∧
    (ecbDecrypter.CryptBlocks (NewECBDecrypter b) dst src).Panics ∧
    (∃ e : cbcEncrypter, NewCBCEncrypter b iv = .ok e ∧
      (cbcEncrypter.CryptBlocks e dst src).Panics ∧
      cbcEncrypter.CryptBlocks e dst src = .fault .srcNotMultiple ∧
      cbcEncrypter.CryptBlocksMem e dst src = (dst, .fault .srcNotMultiple) ∧
      (cbcEncrypter.CryptBlocksInPlace e src).Panics ∧
      cbcEncrypter.CryptBlocksInPlace e src = .fault .srcNotMultiple ∧
      cbcEncrypter.CryptBlocksInPlaceMem e src = (src, .fault .srcNotMultiple)) ∧
    (∃ d : cbcDecrypter, NewCBCDecrypter b iv = .ok d ∧
      (cbcDecrypter.CryptBlocks d dst src).Panics) := by
  have hfuel := ragged_fuel b.BlockSize src.length hr
  have h0 := Nat.pos_iff_ne_zero.mp hpos
  refine ⟨ecbEncLoop_ragged _ hpos _ _ _ _ _ rfl hr hfuel,
    ecbEncLoopInPlace_ragged _ hpos _ _ _ _ rfl hr hfuel,
    ecbDecLoop_ragged _ hpos _ _ _ _ _ rfl hr hfuel,
    ⟨_, newCbc_ok b iv hiv, ?_⟩, ⟨_, newCbc_ok b iv hiv, ?_⟩⟩
  · have hf : cbcEncrypter.CryptBlocks
        ⟨b, b.BlockSize, iv, make b.BlockSize, make b.BlockSize⟩ dst src
        = .fault .srcNotMultiple := by
      unfold cbcEncrypter.CryptBlocks
      simp only [if_neg h0, ne_eq, hr, not_false_eq_true, if_true]
    have hm : cbcEncrypter.CryptBlocksMem
        ⟨b, b.BlockSize, iv, make b.BlockSize, make b.BlockSize⟩ dst src
        = (dst, .fault .srcNotMultiple) := by
      unfold cbcEncrypter.CryptBlocksMem
      simp only [if_neg h0, ne_eq, hr, not_false_eq_true, if_true]
    have hfi : cbcEncrypter.CryptBlocksInPlace
        ⟨b, b.BlockSize, iv, make b.BlockSize, make b.BlockSize⟩ src
        = .fault .srcNotMultiple := by
      unfold cbcEncrypter.CryptBlocksInPlace
      simp only [if_neg h0, ne_eq, hr, not_false_eq_true, if_true]
    have hmi : cbcEncrypter.CryptBlocksInPlaceMem
        ⟨b, b.BlockSize, iv, make b.BlockSize, make b.BlockSize⟩ src
        = (src, .fault .srcNotMultiple) := by
      unfold cbcEncrypter.CryptBlocksInPlaceMem
      simp only [if_neg h0, ne_eq, hr, not_false_eq_true, if_true]
    exact ⟨⟨_, hf, by decide⟩, hf, hm, ⟨_, hfi, by decide⟩, hfi, hmi⟩
  · exact cbcDecLoop_ragged _ hpos _ _ _ _ _ rfl hr hfuel

theorem CryptBlocks_ragged_panics_witness :
    (ecbEncrypter.CryptBlocks (NewECBEncrypter (toyCipher 2 7)) (make 6) [1, 2, 3]).Panics ∧
    (ecbEncrypter.CryptBlocksInPlace (NewECBEncrypter (toyCipher 2 7)) [1, 2, 3]).Panics ∧
    (ecbDecrypter.CryptBlocks (NewECBDecrypter (toyCipher 2 7)) (make 6) [1, 2, 3]).Panics ∧
    (∃ e : cbcEncrypter, NewCBCEncrypter (toyCipher 2 7) [5, 6] = .ok e ∧
      (cbcEncrypter.CryptBlocks e (make 6) [1, 2, 3]).Panics ∧
      cbcEncrypter.CryptBlocks e (make 6) [1, 2, 3] = .fault .srcNotMultiple ∧
      cbcEncrypter.CryptBlocksMem e (make 6) [1, 2, 3] = (make 6, .fault .srcNotMultiple) ∧
      (cbcEncrypter.CryptBlocksInPlace e [1, 2, 3]).Panics ∧
      cbcEncrypter.CryptBlocksInPlace e [1, 2, 3] = .fault .srcNotMultiple ∧
      cbcEncrypter.CryptBlocksInPlaceMem e [1, 2, 3] = ([1, 2, 3], .fault .srcNotMultiple)) ∧
    (∃ d : cbcDecrypter, NewCBCDecrypter (toyCipher 2 7) [5, 6] = .ok d ∧
      (cbcDecrypter.CryptBlocks d (make 6) [1, 2, 3]).Panics) :=
  CryptBlocks_ragged_panics (toyCipher 2 7) (by decide) [5, 6] (make 6) [1, 2, 3] rfl (by decide)

/-! ## Lemmas on the in-place ECB call and the profile functions -/

theorem ecbEncLoopInPlace_blocks (b : Block) (hb : b.WF) :
    ∀ (blocks : List (List Byte)), (∀ x ∈ blocks, x.length = b.BlockSize) →
    ∀ (fuel : Nat) (d : ecbEncrypter) (out : List Byte),
      d.b = b → d.blockSize = b.BlockSize → blocks.length ≤ fuel →
      ecbEncLoopInPlace fuel d out blocks.flatten =
        .ok (out ++ (blocks.map b.encryptBlock).flatten) := by
  intro blocks
  induction blocks with
  | nil =>
    intro _ fuel d out _ _ _
    cases fuel <;> simp [ecbEncLoopInPlace]
  | cons P rest ih =>
    intro hall fuel d out hd hbs hfuel
    obtain ⟨db, dbs⟩ := d
    simp only at hd hbs
    subst hd
    subst hbs
    have hP : P.length = db.BlockSize := hall P (List.mem_cons_self _ _)
    have hrest : ∀ x ∈ rest, x.length = db.BlockSize :=
      fun x hx => hall x (List.mem_cons_of_mem _ hx)
    have hpos := hb.1
    obtain ⟨f, rfl⟩ : ∃ f, fuel = f + 1 := ⟨fuel - 1, by simp at hfuel; omega⟩
    simp only [List.flatten_cons]
    have hne : ¬ ((P ++ rest.flatten).length = 0) := by
      rw [List.length_append]; omega
    have hcl : (db.encryptBlock P).length = db.BlockSize := (hb.2 _ hP).1
    rw [ecbEncLoopInPlace, if_neg hne]
    simp only [sliceTo, sliceFrom, List.length_append]
    rw [if_pos (by omega)]
    simp only [Run.bind_ok, List.take_left' hP]
    rw [Block.Encrypt_into db hb _ _ (by rw [List.length_append]; omega) hP]
    simp only [Run.bind_ok, List.length_append, List.length_drop]
    rw [if_pos (by omega)]
    simp only [Run.bind_ok, List.take_left' hcl, List.drop_left' hcl, List.drop_left' hP]
    rw [ih hrest f ⟨db, db.BlockSize⟩ _ rfl rfl (by simp at hfuel; omega)]
    simp only [List.map_cons, List.flatten_cons, List.append_assoc]

theorem ecbEncrypter_inplace_run (b : Block) (hb : b.WF) (blocks : List (List Byte))
    (hall : ∀ x ∈ blocks, x.length = b.BlockSize) :
    ecbEncrypter.CryptBlocksInPlace (NewECBEncrypter b) blocks.flatten =
      .ok (blocks.map b.encryptBlock).flatten := by
  unfold ecbEncrypter.CryptBlocksInPlace
  rw [ecbEncLoopInPlace_blocks b hb blocks hall _ _ _ rfl rfl (blocks_length_le _ hb.1 _ hall)]
  simp

/-! ## Lemmas on `AESOracle2` -/

theorem AESOracle2.Encrypt_eq_pad (o : AESOracle2) (pt : List Byte) :
    o.Encrypt pt =
      (Pad (pt ++ o.ciphertext) 16).bind fun result =>
        ecbEncrypter.CryptBlocksInPlace (NewECBEncrypter o.key) result := by
  unfold AESOracle2.Encrypt
  simp only [copy_make]
  have h1 : sliceFrom (pt ++ List.replicate o.ciphertext.length 0) pt.length =
      .ok (List.replicate o.ciphertext.length 0) := by
    unfold sliceFrom
    rw [if_pos (by simp), List.drop_left]
  rw [h1]
  simp only [Run.bind_ok, List.take_left]
  rw [copy_same_length _ _ (by simp)]

/-- The padded plaintext that `Encrypt` hands to the ECB encrypter. -/
theorem AESOracle2.Encrypt_blocks (o : AESOracle2) (hwf : o.key.WF)
    (hbs : o.key.BlockSize = 16) (pt : List Byte) :
    ∃ blocks : List (List Byte), (∀ x ∈ blocks, x.length = 16) ∧
      blocks.flatten = pt ++ o.ciphertext ++
        List.replicate (16 - (pt.length + o.ciphertext.length) % 16)
          (byte (16 - (pt.length + o.ciphertext.length) % 16)) ∧
      o.Encrypt pt = .ok (blocks.map o.key.encryptBlock).flatten := by
  have hmod : (pt ++ o.ciphertext ++
      List.replicate (16 - (pt.length + o.ciphertext.length) % 16)
        (byte (16 - (pt.length + o.ciphertext.length) % 16))).length % 16 = 0 := by
    simp only [List.length_append, List.length_replicate]
    omega
  obtain ⟨blocks, hall, hfl⟩ := exists_blocks_of_mod 16 _ hmod
  refine ⟨blocks, hall, hfl, ?_⟩
  rw [AESOracle2.Encrypt_eq_pad, Pad_eq _ 16 (by decide)]
  simp only [Run.bind_ok, List.length_append]
  have h16 : (16 : Int).toNat = 16 := rfl
  rw [h16, ← hfl]
  exact ecbEncrypter_inplace_run o.key hwf blocks (by rw [hbs]; exact hall)

theorem blockAt_flatten_nil (bs : Nat) (blocks : List (List Byte))
    (hall : ∀ x ∈ blocks, x.length = bs) (i : Nat) (x : List Byte) (hx : blocks[i]? = some x) :
    blockAt bs blocks.flatten i = x := by
  have := blockAt_flatten bs [] blocks hall i x hx
  rwa [List.append_nil] at this

theorem AESOracle2.Encrypt_blockAt (o : AESOracle2) (hwf : o.key.WF)
    (hbs : o.key.BlockSize = 16) (pt : List Byte) :
    ∃ enc : List Byte, o.Encrypt pt = .ok enc ∧
      enc.length = pt.length + o.ciphertext.length +
        (16 - (pt.length + o.ciphertext.length) % 16) ∧
      ∀ i, (i + 1) * 16 ≤ enc.length →
        blockAt 16 enc i = o.key.encryptBlock (blockAt 16 (pt ++ o.ciphertext ++
          List.replicate (16 - (pt.length + o.ciphertext.length) % 16)
            (byte (16 - (pt.length + o.ciphertext.length) % 16))) i) := by
  obtain ⟨blocks, hall, hfl, henc⟩ := AESOracle2.Encrypt_blocks o hwf hbs pt
  have hEall : ∀ x ∈ blocks.map o.key.encryptBlock, x.length = 16 := by
    have := map_encrypt_blocks o.key hwf blocks (by rw [hbs]; exact hall)
    rwa [hbs] at this
  have hlen1 : (blocks.map o.key.encryptBlock).flatten.length = blocks.length * 16 := by
    rw [flatten_length_blocks 16 _ hEall, List.length_map]
  have hlen2 : blocks.flatten.length = blocks.length * 16 := flatten_length_blocks 16 _ hall
  refine ⟨_, henc, ?_, ?_⟩
  · rw [hlen1, ← hlen2, hfl]
    simp only [List.length_append, List.length_replicate]
  · intro i hi
    rw [hlen1] at hi
    have hib : i < blocks.length := by
      by_contra hcon
      have : blocks.length * 16 ≤ i * 16 := Nat.mul_le_mul_right _ (by omega)
      omega
    have hx : blocks[i]? = some blocks[i] := List.getElem?_eq_getElem hib
    rw [← hfl, blockAt_flatten_nil 16 blocks hall i _ hx]
    apply blockAt_flatten_nil 16 _ hEall
    rw [List.getElem?_map, hx]
    rfl

theorem set_append_cons (l1 : List Byte) (a v : Byte) (l2 : List Byte) :
    (l1 ++ a :: l2).set l1.length v = l1 ++ v :: l2 := by
  induction l1 with
  | nil => rfl
  | cons x l1 ih => simp only [List.cons_append, List.length_cons, List.set_cons_succ, ih]

theorem setAt_append_cons (l1 : List Byte) (a v : Byte) (l2 : List Byte) (n : Nat)
    (hn : n = l1.length) : setAt (l1 ++ a :: l2) n v = .ok (l1 ++ v :: l2) := by
  subst hn
  unfold setAt
  rw [if_pos (by simp), set_append_cons]

/-- The loop that fills `testBlock`: the first `blockSize - 1` bytes become the
last `blockSize - 1` bytes of `soFar`, with zero bytes in front where `soFar`
is shorter. -/
theorem fillTestBlock_eq (soFar : List Byte) (bs : Nat) :
    ∀ (n i : Nat), i + n + 1 = bs →
    fillTestBlock soFar bs n i
        (List.replicate n 0 ++ (List.replicate (bs - 1) 0 ++ soFar).drop (soFar.length + n)
          ++ [0]) =
      .ok ((List.replicate (bs - 1) 0 ++ soFar).drop soFar.length ++ [0]) := by
  intro n
  induction n with
  | zero =>
    intro i _
    simp [fillTestBlock]
  | succ n ih =>
    intro i h
    have hidx : bs - i - 2 = n := by omega
    have hW : soFar.length + n < (List.replicate (bs - 1) 0 ++ soFar).length := by
      simp only [List.length_append, List.length_replicate]; omega
    have hsplit : List.replicate (n + 1) (0 : Byte) ++
        (List.replicate (bs - 1) 0 ++ soFar).drop (soFar.length + (n + 1)) ++ [0] =
        List.replicate n 0 ++ (0 : Byte) ::
          ((List.replicate (bs - 1) 0 ++ soFar).drop (soFar.length + n + 1) ++ [0]) := by
      rw [List.replicate_succ', List.append_assoc, List.append_assoc]
      rfl
    have hstep : ∀ v : Byte, (List.replicate (bs - 1) (0 : Byte) ++ soFar)[soFar.length + n]?
          = some v →
        (setAt (List.replicate (n + 1) (0 : Byte) ++
            (List.replicate (bs - 1) 0 ++ soFar).drop (soFar.length + (n + 1)) ++ [0])
            (bs - i - 2) v).bind
          (fun testBlock => fillTestBlock soFar bs n (i + 1) testBlock) =
        .ok ((List.replicate (bs - 1) 0 ++ soFar).drop soFar.length ++ [0]) := by
      intro v hv
      rw [hsplit, hidx, setAt_append_cons (List.replicate n 0) 0 v _ n (by simp)]
      simp only [Run.bind_ok]
      have hd : (List.replicate (bs - 1) (0 : Byte) ++ soFar).drop (soFar.length + n) =
          v :: (List.replicate (bs - 1) 0 ++ soFar).drop (soFar.length + n + 1) := by
        rw [List.drop_eq_getElem_cons hW]
        rw [List.getElem?_eq_getElem hW] at hv
        rw [Option.some.inj hv]
      have := ih (i + 1) (by omega)
      rw [hd] at this
      simpa using this
    rw [fillTestBlock]
    by_cases hlt : soFar.length < i + 1
    · rw [if_pos hlt]
      apply hstep
      rw [List.getElem?_append_left (by simp only [List.length_replicate]; omega)]
      rw [List.getElem?_replicate, if_pos (by omega)]
      rfl
    · rw [if_neg hlt]
      have hi : soFar.length - i - 1 < soFar.length := by omega
      rw [List.getElem?_eq_getElem hi]
      simp only
      apply hstep
      rw [List.getElem?_append_right (by simp only [List.length_replicate]; omega)]
      rw [List.getElem?_eq_getElem (by simp only [List.length_replicate]; omega)]
      congr 2
      simp only [List.length_replicate]
      omega

theorem fillTestBlock_make (soFar : List Byte) (bs : Nat) (hbs : 0 < bs) :
    fillTestBlock soFar bs (bs - 1) 0 (make bs) =
      .ok ((List.replicate (bs - 1) 0 ++ soFar).drop soFar.length ++ [0]) := by
  have h := fillTestBlock_eq soFar bs (bs - 1) 0 (by omega)
  have hd : (List.replicate (bs - 1) (0 : Byte) ++ soFar).drop (soFar.length + (bs - 1)) = [] :=
    List.drop_eq_nil_of_le (by simp only [List.length_append, List.length_replicate]; omega)
  rw [hd, List.append_nil] at h
  have hm : make bs = List.replicate (bs - 1) 0 ++ [0] := by
    unfold make
    rw [← List.replicate_succ']
    congr 1
    omega
  rw [hm]
  exact h

theorem byte_eq_iff (i : Nat) (c : Byte) (hi : i < 256) : byte i = c ↔ i = c.val := by
  constructor
  · intro h
    rw [← h]
    simp only [byte]
    exact (Nat.mod_eq_of_lt hi).symm
  · intro h
    apply Fin.ext
    simp only [byte]
    rw [Nat.mod_eq_of_lt hi, h]

/-- The first block of `Encrypt` of a 16-byte input is the encryption of that
input. -/
theorem AESOracle2.Encrypt_first_block (o : AESOracle2) (hwf : o.key.WF)
    (hbs : o.key.BlockSize = 16) (tb : List Byte) (htb : tb.length = 16) :
    ∃ enc : List Byte, o.Encrypt tb = .ok enc ∧
      sliceTo enc 16 = .ok (o.key.encryptBlock tb) := by
  obtain ⟨enc, henc, hlen, hblk⟩ := AESOracle2.Encrypt_blockAt o hwf hbs tb
  refine ⟨enc, henc, ?_⟩
  have h0 := hblk 0 (by omega)
  unfold sliceTo
  rw [if_pos (by omega)]
  have e1 : blockAt 16 enc 0 = enc.take 16 := by simp [blockAt]
  have e2 : blockAt 16 (tb ++ o.ciphertext ++
      List.replicate (16 - (tb.length + o.ciphertext.length) % 16)
        (byte (16 - (tb.length + o.ciphertext.length) % 16))) 0 = tb := by
    simp only [blockAt, Nat.zero_mul, List.drop_zero, List.append_assoc]
    exact List.take_left' htb
  rw [e1, e2] at h0
  rw [h0]

/-- The search loop returns the one byte that completes the target block. -/
theorem tryBytes_finds (o : AESOracle2) (hwf : o.key.WF) (hbs : o.key.BlockSize = 16)
    (hinj : ∀ x y : List Byte, x.length = 16 → y.length = 16 →
      o.key.encryptBlock x = o.key.encryptBlock y → x = y)
    (B : List Byte) (hB : B.length = 15) (c0 : Byte) :
    ∀ (n i : Nat) (x : Byte), i + n = 256 → i ≤ c0.val →
    tryBytes o 16 (o.key.encryptBlock (B ++ [c0])) n i (B ++ [x]) = .ok (some c0) := by
  intro n
  induction n with
  | zero =>
    intro i x h hle
    have := c0.isLt
    omega
  | succ n ih =>
    intro i x h hle
    have hi : i < 256 := by omega
    rw [tryBytes]
    rw [show (16 : Nat) - 1 = 15 from rfl, setAt_append_cons B x (byte i) [] 15 hB.symm]
    simp only [Run.bind_ok]
    obtain ⟨enc, henc, hhead⟩ := AESOracle2.Encrypt_first_block o hwf hbs (B ++ [byte i])
      (by rw [List.length_append, hB]; rfl)
    rw [henc]
    simp only [Run.bind_ok]
    rw [hhead]
    simp only [Run.bind_ok]
    by_cases hc : i = c0.val
    · have hb : byte i = c0 := (byte_eq_iff i c0 hi).mpr hc
      rw [hb, if_pos rfl]
    · have hne : ¬ (o.key.encryptBlock (B ++ [byte i]) = o.key.encryptBlock (B ++ [c0])) := by
        intro heq
        have := hinj _ _ (by rw [List.length_append, hB]; rfl)
          (by rw [List.length_append, hB]; rfl) heq
        have hb : byte i = c0 := by
          have := List.append_cancel_left this
          exact List.head_eq_of_cons_eq this
        exact hc ((byte_eq_iff i c0 hi).mp hb)
      rw [if_neg hne]
      exact ih (i + 1) (byte i) (by omega) (by omega)

/-- The plaintext block that holds the next unknown byte `secret[k]` in its
last position, after `16 - k % 16 - 1` filler bytes. -/
theorem target_plain_block (secret pad : List Byte) (k : Nat) (c0 : Byte)
    (hk : secret[k]? = some c0) :
    blockAt 16 (make (16 - k % 16 - 1) ++ secret ++ pad) (k / 16) =
      (List.replicate 15 0 ++ secret.take k).drop k ++ [c0] := by
  have hlt : k < secret.length := by
    by_contra hcon
    rw [List.getElem?_eq_none (by omega)] at hk
    cases hk
  have hsec : secret = secret.take k ++ c0 :: secret.drop (k + 1) := by
    rw [List.getElem?_eq_getElem hlt] at hk
    rw [← Option.some.inj hk, ← List.drop_eq_getElem_cons hlt, List.take_append_drop]
  have hS : (secret.take k).length = k := by rw [List.length_take]; omega
  have hmod := Nat.mod_lt k (show 0 < 16 by decide)
  have hdm := Nat.div_add_mod k 16
  have hrep : List.replicate 15 (0 : Byte) =
      List.replicate (k % 16) 0 ++ make (16 - k % 16 - 1) := by
    unfold make
    rw [← List.replicate_add]
    congr 1
    omega
  have hX : make (16 - k % 16 - 1) ++ secret ++ pad =
      ((List.replicate 15 0 ++ secret.take k) ++ (c0 :: (secret.drop (k + 1) ++ pad))).drop
        (k % 16) := by
    rw [hrep]
    simp only [List.append_assoc]
    rw [List.drop_left' (by simp)]
    conv_lhs => rw [hsec]
    simp only [List.append_assoc, List.cons_append]
  unfold blockAt
  rw [hX, List.drop_drop]
  have hk16 : k % 16 + k / 16 * 16 = k := by omega
  rw [hk16]
  rw [List.drop_append_of_le_length (by rw [List.length_append, List.length_replicate, hS]; omega)]
  have hl15 : ((List.replicate 15 (0 : Byte) ++ secret.take k).drop k).length = 15 := by
    rw [List.length_drop, List.length_append, List.length_replicate, hS]; omega
  have : (16 : Nat) = ((List.replicate 15 (0 : Byte) ++ secret.take k).drop k).length + 1 := by
    rw [hl15]
  rw [this, List.take_append]
  rfl

/-- C17: for every well-formed cipher with 16-byte blocks whose decryption
inverts its encryption, the ciphertext that `Problem13` builds from the first
two blocks of `EncryptedProfileFor` of abc@defgh.com and the second block of
`EncryptedProfileFor` of aaaaaaaaaaadmin followed by eleven bytes 0x0b is
decrypted and unpadded by `DecryptProfile` without error to exactly
email=abc@defgh.com&uid=10&role=admin, the text handed to `url.ParseQuery`;
its role field is admin. -/
theorem Problem13_forges_admin (key : Block) (hwf : key.WF) (hbs : key.BlockSize = 16)
    (hinv : ∀ x : List Byte, x.length = key.BlockSize →
      key.decryptBlock (key.encryptBlock x) = x)
    (V : Type) (ParseQuery : List Byte → Option V) :
    Problem13Result ParseQuery key =
      .ok (ParseQuery (str "email=abc@defgh.com&uid=10&role=admin")) ∧
    ∃ v, Problem13Result plainParseQuery key = .ok (some v) ∧
      valuesGet v (str "role") = str "admin" := by
  have key13 : ∀ (W : Type) (pq : List Byte → Option W),
      Problem13Result pq key = .ok (pq (str "email=abc@defgh.com&uid=10&role=admin")) := by
    intro W pq
    have hp1 : Pad (ProfileFor (str "abc@defgh.com")) 16 = .ok
        [str "email=abc@defgh.", str "com&uid=10&role=",
          str "user" ++ List.replicate 12 12].flatten := by decide
    have hp2 : Pad (ProfileFor (str "aaaaaaaaaaadmin" ++ List.replicate 11 0x0b)) 16 = .ok
        [str "email=aaaaaaaaaa", str "admin" ++ List.replicate 11 11, str "&uid=10&role=use",
          str "r" ++ List.replicate 15 15].flatten := by decide
    have hall1 : ∀ x ∈ [str "email=abc@defgh.", str "com&uid=10&role=",
        str "user" ++ List.replicate 12 12], x.length = key.BlockSize := by
      rw [hbs]; decide
    have hall2 : ∀ x ∈ [str "email=aaaaaaaaaa", str "admin" ++ List.replicate 11 11,
        str "&uid=10&role=use", str "r" ++ List.replicate 15 15],
        x.length = key.BlockSize := by
      rw [hbs]; decide
    have hall3 : ∀ x ∈ [key.encryptBlock (str "email=abc@defgh."),
        key.encryptBlock (str "com&uid=10&role="),
        key.encryptBlock (str "admin" ++ List.replicate 11 11)],
        x.length = key.BlockSize := by
      intro x hx
      simp only [List.mem_cons, List.mem_singleton, List.not_mem_nil, or_false] at hx
      rcases hx with rfl | rfl | rfl
      · exact (hwf.2 _ (by rw [hbs]; decide)).1
      · exact (hwf.2 _ (by rw [hbs]; decide)).1
      · exact (hwf.2 _ (by rw [hbs]; decide)).1
    have h0 : (key.encryptBlock (str "email=abc@defgh.")).length = 16 := by
      rw [← hbs]; exact hall3 _ (by simp)
    have h1 : (key.encryptBlock (str "com&uid=10&role=")).length = 16 := by
      rw [← hbs]; exact hall3 _ (by simp)
    have h2 : (key.encryptBlock (str "admin" ++ List.replicate 11 11)).length = 16 := by
      rw [← hbs]; exact hall3 _ (by simp)
    have hd1 : key.decryptBlock (key.encryptBlock (str "email=abc@defgh.")) =
        str "email=abc@defgh." := hinv _ (by rw [hbs]; decide)
    have hd2 : key.decryptBlock (key.encryptBlock (str "com&uid=10&role=")) =
        str "com&uid=10&role=" := hinv _ (by rw [hbs]; decide)
    have hd3 : key.decryptBlock (key.encryptBlock (str "admin" ++ List.replicate 11 11)) =
        str "admin" ++ List.replicate 11 11 := hinv _ (by rw [hbs]; decide)
    have hdec := ecbDecrypter_run key hwf (make 48) _ hall3
      (by simp only [List.flatten_cons, List.flatten_nil, List.length_append, h0, h1, h2,
            List.length_nil]; decide)
    have hun : Unpad (str "email=abc@defgh." ++ (str "com&uid=10&role=" ++
        (str "admin" ++ List.replicate 11 11))) =
        some (str "email=abc@defgh.com&uid=10&role=admin") := by decide
    unfold Problem13Result EncryptedProfileFor
    simp only [hp1, hp2, Run.bind_ok]
    rw [ecbEncrypter_inplace_run key hwf _ hall1, ecbEncrypter_inplace_run key hwf _ hall2]
    simp only [Run.bind_ok, List.map_cons, List.map_nil, List.flatten_cons, List.flatten_nil,
      List.append_nil]
    generalize hg0 : key.encryptBlock (str "email=abc@defgh.") = c0 at *
    generalize hg1 : key.encryptBlock (str "com&uid=10&role=") = c1 at *
    generalize hg2 : key.encryptBlock (str "admin" ++ List.replicate 11 11) = c2 at *
    have h3 : (key.encryptBlock (str "user" ++ List.replicate 12 12)).length = 16 := by
      rw [← hbs]; exact (hwf.2 _ (by rw [hbs]; decide)).1
    have h4 : (key.encryptBlock (str "email=aaaaaaaaaa")).length = 16 := by
      rw [← hbs]; exact (hwf.2 _ (by rw [hbs]; decide)).1
    have h5 : (key.encryptBlock (str "&uid=10&role=use")).length = 16 := by
      rw [← hbs]; exact (hwf.2 _ (by rw [hbs]; decide)).1
    have h6 : (key.encryptBlock (str "r" ++ List.replicate 15 15)).length = 16 := by
      rw [← hbs]; exact (hwf.2 _ (by rw [hbs]; decide)).1
    generalize key.encryptBlock (str "user" ++ List.replicate 12 12) = c3 at *
    generalize key.encryptBlock (str "email=aaaaaaaaaa") = a0 at *
    generalize key.encryptBlock (str "&uid=10&role=use") = a2 at *
    generalize key.encryptBlock (str "r" ++ List.replicate 15 15) = a3 at *
    have hl01 : (c0 ++ c1).length = 32 := by rw [List.length_append, h0, h1]
    have e1 : sliceTo (c0 ++ (c1 ++ c3)) (16 * 2) = .ok (c0 ++ c1) := by
      unfold sliceTo
      rw [if_pos (by rw [← List.append_assoc, List.length_append, hl01, h3]; decide)]
      rw [← List.append_assoc, List.take_left' hl01]
    have e2 : sliceRange (a0 ++ (c2 ++ (a2 ++ a3))) 16 (2 * 16) = .ok c2 := by
      unfold sliceRange
      rw [if_pos (by simp only [List.length_append, h4, h2, h5, h6]; decide)]
      rw [List.drop_left' h4, List.take_left' (by rw [h2])]
    have e3 : copy (make (16 * 3)) (c0 ++ c1) = c0 ++ c1 ++ make 16 := by
      unfold copy make
      rw [List.take_of_length_le (by rw [hl01, List.length_replicate]; decide)]
      rw [hl01, List.drop_replicate]
    have e4 : sliceFrom (c0 ++ c1 ++ make 16) (2 * 16) = .ok (make 16) := by
      unfold sliceFrom
      rw [if_pos (by rw [List.length_append, hl01]; decide)]
      rw [List.drop_left' hl01]
    have e5 : (c0 ++ c1 ++ make 16).take (2 * 16) ++ copy (make 16) c2 = [c0, c1, c2].flatten := by
      rw [List.take_left' hl01]
      rw [copy_same_length _ _ (by rw [h2]; rfl)]
      simp only [List.flatten_cons, List.flatten_nil, List.append_nil, List.append_assoc]
    simp only [e1, e2, e3, e4, e5, Run.bind_ok]
    unfold DecryptProfile
    simp only []
    have hlen48 : ([c0, c1, c2].flatten).length = 48 := by
      simp only [List.flatten_cons, List.flatten_nil, List.length_append, h0, h1, h2,
        List.length_nil]
    rw [hlen48, hdec]
    simp only [Run.bind_ok, List.map_cons, List.map_nil, hd1, hd2, hd3, List.flatten_cons,
      List.flatten_nil, List.append_nil, hlen48]
    rw [List.drop_of_length_le
      (by rw [← List.append_assoc, List.length_append, hl01, h2]; decide), List.append_nil, hun]
  refine ⟨key13 V ParseQuery, _, key13 _ plainParseQuery, ?_⟩
  decide


theorem Problem13_forges_admin_witness :
    Problem13Result plainParseQuery (toyCipher 16 7) =
      .ok (plainParseQuery (str "email=abc@defgh.com&uid=10&role=admin")) ∧
    ∃ v, Problem13Result plainParseQuery (toyCipher 16 7) = .ok (some v) ∧
      valuesGet v (str "role") = str "admin" :=
  Problem13_forges_admin (toyCipher 16 7) (toyCipher_WF 16 7 (by decide)) rfl
    (fun x _ => toyCipher_inv 16 7 x) _ plainParseQuery

/-- The method `ECBNextUnknownByte`, called with the first `k` bytes of the
secret, returns the byte `k` of the secret. -/
theorem AESOracle2.ECBNextUnknownByte_next (o : AESOracle2) (hwf : o.key.WF)
    (hbs : o.key.BlockSize = 16)
    (hinj : ∀ x y : List Byte, x.length = 16 → y.length = 16 →
      o.key.encryptBlock x = o.key.encryptBlock y → x = y)
    (k : Nat) (c0 : Byte) (hk : o.ciphertext[k]? = some c0) :
    o.ECBNextUnknownByte (o.ciphertext.take k) 16 = .ok (some c0) := by
  have hlt : k < o.ciphertext.length := by
    by_contra hcon
    rw [List.getElem?_eq_none (by omega)] at hk
    cases hk
  have hS : (o.ciphertext.take k).length = k := by rw [List.length_take]; omega
  have hmod := Nat.mod_lt k (show 0 < 16 by decide)
  have hdm := Nat.div_add_mod k 16
  obtain ⟨enc, henc, hlen, hblk⟩ :=
    AESOracle2.Encrypt_blockAt o hwf hbs (make (16 - k % 16 - 1))
  have hmk : (make (16 - k % 16 - 1)).length = 16 - k % 16 - 1 := by simp [make]
  have hin : (k / 16 + 1) * 16 ≤ enc.length := by
    rw [hlen, hmk]; omega
  have htarget : sliceRange enc (k / 16 * 16) ((k / 16 + 1) * 16) =
      .ok (o.key.encryptBlock
        ((List.replicate 15 0 ++ o.ciphertext.take k).drop k ++ [c0])) := by
    unfold sliceRange
    rw [if_pos ⟨by omega, hin⟩]
    have e16 : (k / 16 + 1) * 16 - k / 16 * 16 = 16 := by omega
    rw [e16]
    have := hblk (k / 16) hin
    rw [target_plain_block o.ciphertext _ k c0 hk] at this
    unfold blockAt at this
    rw [this]
  have hl15 : ((List.replicate 15 (0 : Byte) ++ o.ciphertext.take k).drop k).length = 15 := by
    rw [List.length_drop, List.length_append, List.length_replicate, hS]; omega
  unfold AESOracle2.ECBNextUnknownByte
  rw [if_neg (by decide)]
  simp only [hS]
  rw [henc]
  simp only [Run.bind_ok]
  rw [htarget]
  simp only [Run.bind_ok]
  have hfill := fillTestBlock_make (o.ciphertext.take k) 16 (by decide)
  rw [hS] at hfill
  rw [hfill]
  simp only [Run.bind_ok]
  exact tryBytes_finds o hwf hbs hinj _ hl15 c0 256 0 0 rfl (Nat.zero_le _)

/-- C15: for every well-formed cipher with 16-byte blocks whose block
encryption is injective, every secret and every `k < len secret`,
`ECBNextUnknownByte` called with the first `k` bytes of the secret and block
size 16 returns, without error, the byte `secret[k]`. -/
theorem ECBNextUnknownByte_recovers (o : AESOracle2) (hwf : o.key.WF)
    (hbs : o.key.BlockSize = 16)
    (hinj : ∀ x y : List Byte, x.length = 16 → y.length = 16 →
      o.key.encryptBlock x = o.key.encryptBlock y → x = y)
    (k : Nat) (c0 : Byte) (hk : o.ciphertext[k]? = some c0) :
    o.ECBNextUnknownByte (o.ciphertext.take k) 16 = .ok (some c0) :=
  AESOracle2.ECBNextUnknownByte_next o hwf hbs hinj k c0 hk

theorem toyCipher_injective (bs : Nat) (k : Byte) (x y : List Byte)
    (h : (toyCipher bs k).encryptBlock x = (toyCipher bs k).encryptBlock y) : x = y := by
  have := congrArg (toyCipher bs k).decryptBlock h
  rwa [toyCipher_inv, toyCipher_inv] at this

theorem ECBNextUnknownByte_recovers_witness :
    AESOracle2.ECBNextUnknownByte ⟨[10, 20, 30, 40], toyCipher 16 7⟩
      (([10, 20, 30, 40] : List Byte).take 2) 16 = .ok (some 30) :=
  ECBNextUnknownByte_recovers ⟨[10, 20, 30, 40], toyCipher 16 7⟩
    (toyCipher_WF 16 7 (by decide)) rfl
    (fun x y _ _ h => toyCipher_injective 16 7 x y h) 2 30 rfl

/-! ## Lemmas on `ProfileFor` and on the length of `Encrypt` -/

theorem splitBytes_no_sep (sep : Byte) : ∀ (l : List Byte), sep ∉ l → splitBytes sep l = [l]
  | [], _ => rfl
  | c :: l, h => by
    have hc : ¬ c = sep := fun e => h (e ▸ List.mem_cons_self _ _)
    have ih := splitBytes_no_sep sep l (fun hm => h (List.mem_cons_of_mem _ hm))
    rw [splitBytes, if_neg hc, ih]

theorem splitBytes_append_sep (sep : Byte) (rest : List Byte) : ∀ (l : List Byte), sep ∉ l →
    splitBytes sep (l ++ sep :: rest) = l :: splitBytes sep rest
  | [], _ => by rw [List.nil_append, splitBytes, if_pos rfl]
  | c :: l, h => by
    have hc : ¬ c = sep := fun e => h (e ▸ List.mem_cons_self _ _)
    have ih := splitBytes_append_sep sep rest l (fun hm => h (List.mem_cons_of_mem _ hm))
    rw [List.cons_append, splitBytes, if_neg hc, ih]

theorem cutBytes_append_sep (sep : Byte) (rest : List Byte) : ∀ (l : List Byte), sep ∉ l →
    cutBytes sep (l ++ sep :: rest) = (l, rest)
  | [], _ => by rw [List.nil_append, cutBytes, if_pos rfl]
  | c :: l, h => by
    have hc : ¬ c = sep := fun e => h (e ▸ List.mem_cons_self _ _)
    have ih := cutBytes_append_sep sep rest l (fun hm => h (List.mem_cons_of_mem _ hm))
    rw [List.cons_append, cutBytes, if_neg hc, ih]

theorem escaped_no_sep (email : List Byte) :
    (0x26 : Byte) ∉ email.filter (fun c => c ≠ 0x26 ∧ c ≠ 0x3D) ∧
    (0x3D : Byte) ∉ email.filter (fun c => c ≠ 0x26 ∧ c ≠ 0x3D) := by
  constructor
  · intro h
    have := (List.mem_filter.mp h).2
    simp at this
  · intro h
    have := (List.mem_filter.mp h).2
    simp at this

theorem AESOracle2.Encrypt_length (o : AESOracle2) (hwf : o.key.WF)
    (hbs : o.key.BlockSize = 16) (input : List Byte) :
    ∃ enc : List Byte, o.Encrypt input = .ok enc ∧
      enc.length = 16 * ((input.length + o.ciphertext.length) / 16 + 1) := by
  obtain ⟨enc, henc, hlen, -⟩ := AESOracle2.Encrypt_blockAt o hwf hbs input
  refine ⟨enc, henc, ?_⟩
  rw [hlen]
  omega

/-! ## Lemmas on the detection of ECB -/

theorem blockAt_replicate (before rest : List Byte) (x : Byte) (n i : Nat)
    (h1 : before.length ≤ i * 16) (h2 : (i + 1) * 16 ≤ before.length + n) :
    blockAt 16 (before ++ List.replicate n x ++ rest) i = List.replicate 16 x := by
  unfold blockAt
  obtain ⟨d, hd⟩ : ∃ d, i * 16 = before.length + d := ⟨i * 16 - before.length, by omega⟩
  rw [hd, List.append_assoc, List.drop_append]
  rw [List.drop_append_of_le_length (by rw [List.length_replicate]; omega)]
  rw [List.drop_replicate]
  rw [List.take_append_of_le_length (by rw [List.length_replicate]; omega)]
  rw [List.take_replicate]
  congr 1
  omega

/-- The ciphertext of a run of at least 112 equal bytes behind at most 10 bytes
is classified as ECB. -/
theorem AESOracle2.Encrypt_detected (o : AESOracle2) (hwf : o.key.WF)
    (hbs : o.key.BlockSize = 16) (before : List Byte) (x : Byte) (n : Nat)
    (hb : before.length ≤ 10) (hn : 112 ≤ n) :
    ∃ ct : List Byte, o.Encrypt (before ++ List.replicate n x) = .ok ct ∧
      IsECB ct 16 = .ok true := by
  obtain ⟨enc, henc, hlen, hblk⟩ :=
    AESOracle2.Encrypt_blockAt o hwf hbs (before ++ List.replicate n x)
  have hl : (before ++ List.replicate n x).length = before.length + n := by
    rw [List.length_append, List.length_replicate]
  have h7 : 7 * 16 ≤ enc.length := by rw [hlen, hl]; omega
  have hb3 : ∀ i, 3 ≤ i → i ≤ 6 →
      blockAt 16 enc i = o.key.encryptBlock (List.replicate 16 x) := by
    intro i h3 h6
    rw [hblk i (by omega), List.append_assoc,
      blockAt_replicate before _ x n i (by omega) (by omega)]
  obtain ⟨r, hr, hiff⟩ := IsECB_iff enc 16 h7
  refine ⟨enc, henc, ?_⟩
  rw [hr, hiff.mpr ⟨?_, ?_, ?_⟩]
  · rw [hb3 4 (by omega) (by omega), hb3 3 (by omega) (by omega)]
  · rw [hb3 5 (by omega) (by omega), hb3 3 (by omega) (by omega)]
  · rw [hb3 6 (by omega) (by omega), hb3 3 (by omega) (by omega)]

theorem AESOracle_ecb_eq (before after : List Byte) (cipher : Block) (iv plaintext : List Byte) :
    AESOracle before after cipher iv 0 plaintext =
      (AESOracle2.Encrypt ⟨after, cipher⟩ (before ++ plaintext)).bind fun ct => .ok (ct, true) := by
  have e0 : plaintext.length + before.length + after.length =
      before.length + (plaintext.length + after.length) := by omega
  have c1 : copy (make (plaintext.length + before.length + after.length)) before =
      before ++ List.replicate (plaintext.length + after.length) 0 := by
    rw [e0, copy_make]
  have s1 : sliceFrom (before ++ List.replicate (plaintext.length + after.length) 0)
      before.length = .ok (List.replicate (plaintext.length + after.length) 0) := by
    unfold sliceFrom
    rw [if_pos (by simp), List.drop_left]
  have c2 : copy (List.replicate (plaintext.length + after.length) 0) plaintext =
      plaintext ++ List.replicate after.length 0 := by
    have := copy_make plaintext after.length
    unfold make at this
    exact this
  have s2 : sliceFrom (before ++ (plaintext ++ List.replicate after.length 0))
      (before.length + plaintext.length) = .ok (List.replicate after.length 0) := by
    unfold sliceFrom
    rw [if_pos (by simp), ← List.append_assoc,
      List.drop_left' (by rw [List.length_append])]
  have t2 : (before ++ (plaintext ++ List.replicate after.length 0)).take
      (before.length + plaintext.length) = before ++ plaintext := by
    rw [← List.append_assoc, List.take_left' (by rw [List.length_append])]
  unfold AESOracle
  simp only [c1, s1, Run.bind_ok, List.take_left, c2, s2, t2]
  rw [copy_same_length _ _ (by simp), AESOracle2.Encrypt_eq_pad]
  have h01 : ¬ ((0 : Nat) = 1) := by decide
  simp only [if_neg h01]
  cases Pad (before ++ plaintext ++ after) 16 with
  | fault f => rfl
  | ok p =>
    simp only [Run.bind_ok]
    cases ecbEncrypter.CryptBlocksInPlace (NewECBEncrypter cipher) p with
    | fault f => rfl
    | ok q => rfl

/-! ## Lemmas on the end of the secret -/

/-- The search loop finds no byte when no candidate completes the target
block. -/
theorem tryBytes_none (o : AESOracle2) (hwf : o.key.WF) (hbs : o.key.BlockSize = 16)
    (hinj : ∀ x y : List Byte, x.length = 16 → y.length = 16 →
      o.key.encryptBlock x = o.key.encryptBlock y → x = y)
    (B T : List Byte) (hB : B.length = 15) (hT : T.length = 16)
    (hne : ∀ c : Byte, B ++ [c] ≠ T) :
    ∀ (n i : Nat) (x : Byte),
    tryBytes o 16 (o.key.encryptBlock T) n i (B ++ [x]) = .ok none := by
  intro n
  induction n with
  | zero => intro i x; rfl
  | succ n ih =>
    intro i x
    rw [tryBytes]
    rw [show (16 : Nat) - 1 = 15 from rfl, setAt_append_cons B x (byte i) [] 15 hB.symm]
    simp only [Run.bind_ok]
    obtain ⟨enc, henc, hhead⟩ := AESOracle2.Encrypt_first_block o hwf hbs (B ++ [byte i])
      (by rw [List.length_append, hB]; rfl)
    rw [henc]
    simp only [Run.bind_ok]
    rw [hhead]
    simp only [Run.bind_ok]
    have hno : ¬ (o.key.encryptBlock (B ++ [byte i]) = o.key.encryptBlock T) := by
      intro heq
      exact hne (byte i) (hinj _ _ (by rw [List.length_append, hB]; rfl) hT heq)
    rw [if_neg hno]
    exact ih (i + 1) (byte i)

/-- The method `ECBNextUnknownByte` with block size 16, reduced to its search
loop: the target is the encryption of block `len soFar / 16` of the filler,
the secret and the padding. -/
theorem AESOracle2.ECBNextUnknownByte_eq (o : AESOracle2) (hwf : o.key.WF)
    (hbs : o.key.BlockSize = 16) (soFar : List Byte)
    (hin : (soFar.length / 16 + 1) * 16 ≤ (16 - soFar.length % 16 - 1) + o.ciphertext.length +
      (16 - ((16 - soFar.length % 16 - 1) + o.ciphertext.length) % 16)) :
    o.ECBNextUnknownByte soFar 16 =
      tryBytes o 16
        (o.key.encryptBlock (blockAt 16 (make (16 - soFar.length % 16 - 1) ++ o.ciphertext ++
          List.replicate (16 - ((16 - soFar.length % 16 - 1) + o.ciphertext.length) % 16)
            (byte (16 - ((16 - soFar.length % 16 - 1) + o.ciphertext.length) % 16)))
          (soFar.length / 16)))
        256 0 ((List.replicate 15 0 ++ soFar).drop soFar.length ++ [0]) := by
  obtain ⟨enc, henc, hlen, hblk⟩ :=
    AESOracle2.Encrypt_blockAt o hwf hbs (make (16 - soFar.length % 16 - 1))
  have hmk : (make (16 - soFar.length % 16 - 1)).length = 16 - soFar.length % 16 - 1 := by
    simp [make]
  rw [hmk] at hlen hblk
  have hin2 : (soFar.length / 16 + 1) * 16 ≤ enc.length := by rw [hlen]; exact hin
  have htarget : sliceRange enc (soFar.length / 16 * 16) ((soFar.length / 16 + 1) * 16) =
      .ok (blockAt 16 enc (soFar.length / 16)) := by
    unfold sliceRange
    rw [if_pos ⟨by omega, hin2⟩]
    have e16 : (soFar.length / 16 + 1) * 16 - soFar.length / 16 * 16 = 16 := by omega
    rw [e16]
    rfl
  unfold AESOracle2.ECBNextUnknownByte
  rw [if_neg (by decide)]
  simp only []
  rw [henc]
  simp only [Run.bind_ok]
  rw [htarget]
  simp only [Run.bind_ok]
  rw [fillTestBlock_make soFar 16 (by decide)]
  simp only [Run.bind_ok]
  rw [hblk _ hin2]

/-! ## Claims on the profile text, the length of `Encrypt`, the detection of ECB
and the end of the secret -/

/-- C24: for every email, `ProfileFor email` is the text email= followed by the
email with every `&` and every `=` removed (a sublist of the email that holds
neither byte and keeps every other byte as often as the email has it),
followed by the text &uid=10&role=user; the result holds exactly two `&` and
exactly three `=`, so the pieces of the text between its `&` are exactly three,
the email piece, uid=10 and role=user, and cut at their first `=` they are the
pairs email, uid = 10 and role = user. When the email holds none of the bytes
`%`, `+` and `;`, which `url.ParseQuery` treats specially, these three pairs
are the parsed profile, and its role field is user. -/
theorem ProfileFor_spec (email : List Byte) :
    ∃ escaped : List Byte,
      ProfileFor email = str "email=" ++ escaped ++ str "&uid=10&role=user" ∧
      escaped.Sublist email ∧ (0x26 : Byte) ∉ escaped ∧ (0x3D : Byte) ∉ escaped ∧
      (∀ c : Byte, c ≠ 0x26 → c ≠ 0x3D → escaped.count c = email.count c) ∧
      (ProfileFor email).count 0x26 = 2 ∧ (ProfileFor email).count 0x3D = 3 ∧
      splitBytes 0x26 (ProfileFor email) =
        [str "email=" ++ escaped, str "uid=10", str "role=user"] ∧
      (splitBytes 0x26 (ProfileFor email)).map (cutBytes 0x3D) =
        [(str "email", escaped), (str "uid", str "10"), (str "role", str "user")] ∧
      ((0x25 : Byte) ∉ email ∧ (0x2B : Byte) ∉ email ∧ (0x3B : Byte) ∉ email →
        plainParseQuery (ProfileFor email) =
          some [(str "email", escaped), (str "uid", str "10"), (str "role", str "user")] ∧
        valuesGet [(str "email", escaped), (str "uid", str "10"), (str "role", str "user")]
          (str "role") = str "user") := by
  obtain ⟨h26, h3D⟩ := escaped_no_sep email
  have e1 : str "&uid=10&role=user" = 0x26 :: str "uid=10&role=user" := by decide
  have e2 : str "email=" = str "email" ++ [0x3D] := by decide
  have hno : (0x26 : Byte) ∉
      str "email=" ++ email.filter (fun c => c ≠ 0x26 ∧ c ≠ 0x3D) := by
    intro hm
    rcases List.mem_append.mp hm with hm | hm
    · exact absurd hm (by decide)
    · exact h26 hm
  have hno2 : (0x3D : Byte) ∉ str "email" := by decide
  have hs : splitBytes 0x26 (str "uid=10&role=user") = [str "uid=10", str "role=user"] := by
    decide
  have hsplit : splitBytes 0x26 (ProfileFor email) =
      [str "email=" ++ email.filter (fun c => c ≠ 0x26 ∧ c ≠ 0x3D),
        str "uid=10", str "role=user"] := by
    unfold ProfileFor
    simp only []
    rw [e1, splitBytes_append_sep 0x26 _ _ hno, hs]
  have hc1 : cutBytes 0x3D (str "email=" ++ email.filter (fun c => c ≠ 0x26 ∧ c ≠ 0x3D)) =
      (str "email", email.filter (fun c => c ≠ 0x26 ∧ c ≠ 0x3D)) := by
    rw [e2, List.append_assoc, List.singleton_append]
    exact cutBytes_append_sep 0x3D _ _ hno2
  have hc2 : cutBytes 0x3D (str "uid=10") = (str "uid", str "10") := by decide
  have hc3 : cutBytes 0x3D (str "role=user") = (str "role", str "user") := by decide
  refine ⟨email.filter (fun c => c ≠ 0x26 ∧ c ≠ 0x3D), rfl, List.filter_sublist _, h26, h3D,
    ?_, ?_, ?_, hsplit, ?_, fun _ => ⟨?_, ?_⟩⟩
  · intro c hc1 hc2
    rw [List.count_filter]
    simp [hc1, hc2]
  · unfold ProfileFor
    simp only [List.count_append, List.count_eq_zero_of_not_mem h26]
    decide
  · unfold ProfileFor
    simp only [List.count_append, List.count_eq_zero_of_not_mem h3D]
    decide
  · rw [hsplit]
    simp only [List.map_cons, List.map_nil]
    rw [hc1, hc2, hc3]
  · have hne : (str "email=" ++ email.filter (fun c => c ≠ 0x26 ∧ c ≠ 0x3D)) ≠ [] := by
      rw [e2]; simp
    have hf : ([str "email=" ++ email.filter (fun c => c ≠ 0x26 ∧ c ≠ 0x3D),
        str "uid=10", str "role=user"].filter fun p => p ≠ []) =
        [str "email=" ++ email.filter (fun c => c ≠ 0x26 ∧ c ≠ 0x3D),
          str "uid=10", str "role=user"] := by
      have h2 : str "uid=10" ≠ [] := by decide
      have h3 : str "role=user" ≠ [] := by decide
      simp only [List.filter_cons, decide_eq_true hne, decide_eq_true h2, decide_eq_true h3,
        if_true, List.filter_nil]
    unfold plainParseQuery
    rw [hsplit, hf]
    simp only [List.map_cons, List.map_nil]
    rw [hc1, hc2, hc3]
  · have k1 : ¬ str "email" = str "role" := by decide
    have k2 : ¬ str "uid" = str "role" := by decide
    unfold valuesGet
    rw [List.find?_cons_of_neg _ (by simpa using k1), List.find?_cons_of_neg _ (by simpa using k2),
      List.find?_cons_of_pos _ (by simp)]

/-- An email that asks for a second role, foo@bar.com&role=admin, holds none of
`%`, `+` and `;`; the statement of `ProfileFor_spec` for it. -/
theorem ProfileFor_spec_witness :
    ((0x25 : Byte) ∉ str "foo@bar.com&role=admin" ∧
      (0x2B : Byte) ∉ str "foo@bar.com&role=admin" ∧
      (0x3B : Byte) ∉ str "foo@bar.com&role=admin") ∧
    ProfileFor (str "foo@bar.com&role=admin") =
      str "email=foo@bar.comroleadmin&uid=10&role=user" ∧
    ∃ escaped : List Byte,
      ProfileFor (str "foo@bar.com&role=admin") =
        str "email=" ++ escaped ++ str "&uid=10&role=user" ∧
      escaped.Sublist (str "foo@bar.com&role=admin") ∧
      (0x26 : Byte) ∉ escaped ∧ (0x3D : Byte) ∉ escaped ∧
      (∀ c : Byte, c ≠ 0x26 → c ≠ 0x3D →
        escaped.count c = (str "foo@bar.com&role=admin").count c) ∧
      (ProfileFor (str "foo@bar.com&role=admin")).count 0x26 = 2 ∧
      (ProfileFor (str "foo@bar.com&role=admin")).count 0x3D = 3 ∧
      splitBytes 0x26 (ProfileFor (str "foo@bar.com&role=admin")) =
        [str "email=" ++ escaped, str "uid=10", str "role=user"] ∧
      (splitBytes 0x26 (ProfileFor (str "foo@bar.com&role=admin"))).map (cutBytes 0x3D) =
        [(str "email", escaped), (str "uid", str "10"), (str "role", str "user")] ∧
      ((0x25 : Byte) ∉ str "foo@bar.com&role=admin" ∧
        (0x2B : Byte) ∉ str "foo@bar.com&role=admin" ∧
        (0x3B : Byte) ∉ str "foo@bar.com&role=admin" →
        plainParseQuery (ProfileFor (str "foo@bar.com&role=admin")) =
          some [(str "email", escaped), (str "uid", str "10"), (str "role", str "user")] ∧
        valuesGet [(str "email", escaped), (str "uid", str "10"), (str "role", str "user")]
          (str "role") = str "user") :=
  ⟨by decide, by decide, ProfileFor_spec (str "foo@bar.com&role=admin")⟩

/-- C23: for every secret of length `L` and every input of length `m`,
`Encrypt` returns a ciphertext of `16 * ((m + L) / 16 + 1)` bytes; hence the
output length does not decrease when the input grows, an input one byte
longer gives the same length or exactly 16 more, and the first input length
at which the output length differs from that of the empty input lies between
1 and 16, where the output is exactly 16 longer. -/
theorem AESOracle2_Encrypt_length (o : AESOracle2) (hwf : o.key.WF)
    (hbs : o.key.BlockSize = 16) :
    (∀ input : List Byte, ∃ enc : List Byte, o.Encrypt input = .ok enc ∧
      enc.length = 16 * ((input.length + o.ciphertext.length) / 16 + 1)) ∧
    (∀ input input2 enc enc2 : List Byte, o.Encrypt input = .ok enc →
      o.Encrypt input2 = .ok enc2 →
      (input.length ≤ input2.length → enc.length ≤ enc2.length) ∧
      (input2.length = input.length + 1 →
        enc2.length = enc.length ∨ enc2.length = enc.length + 16)) ∧
    ∃ m : Nat, 1 ≤ m ∧ m ≤ 16 ∧
      ∀ input enc0 enc : List Byte, o.Encrypt [] = .ok enc0 → o.Encrypt input = .ok enc →
        (input.length < m → enc.length = enc0.length) ∧
        (input.length = m → enc.length = enc0.length + 16) := by
  have hlen : ∀ input enc : List Byte, o.Encrypt input = .ok enc →
      enc.length = 16 * ((input.length + o.ciphertext.length) / 16 + 1) := by
    intro input enc h
    obtain ⟨enc1, h1, hl⟩ := AESOracle2.Encrypt_length o hwf hbs input
    rw [h1] at h
    cases h
    exact hl
  refine ⟨AESOracle2.Encrypt_length o hwf hbs, ?_, ?_⟩
  · intro input input2 enc enc2 h1 h2
    have l1 := hlen _ _ h1
    have l2 := hlen _ _ h2
    constructor
    · intro hle; omega
    · intro hs; omega
  · refine ⟨16 - o.ciphertext.length % 16, by omega, by omega, ?_⟩
    intro input enc0 enc h0 h1
    have l0 := hlen _ _ h0
    have l1 := hlen _ _ h1
    simp only [List.length_nil] at l0
    constructor
    · intro hlt; omega
    · intro heq; omega

theorem AESOracle2_Encrypt_length_witness :
    (∀ input : List Byte, ∃ enc : List Byte,
      AESOracle2.Encrypt ⟨[1, 2, 3], toyCipher 16 7⟩ input = .ok enc ∧
      enc.length = 16 * ((input.length +
        (AESOracle2.mk [1, 2, 3] (toyCipher 16 7)).ciphertext.length) / 16 + 1)) ∧
    (∀ input input2 enc enc2 : List Byte,
      AESOracle2.Encrypt ⟨[1, 2, 3], toyCipher 16 7⟩ input = .ok enc →
      AESOracle2.Encrypt ⟨[1, 2, 3], toyCipher 16 7⟩ input2 = .ok enc2 →
      (input.length ≤ input2.length → enc.length ≤ enc2.length) ∧
      (input2.length = input.length + 1 →
        enc2.length = enc.length ∨ enc2.length = enc.length + 16)) ∧
    ∃ m : Nat, 1 ≤ m ∧ m ≤ 16 ∧
      ∀ input enc0 enc : List Byte,
        AESOracle2.Encrypt ⟨[1, 2, 3], toyCipher 16 7⟩ [] = .ok enc0 →
        AESOracle2.Encrypt ⟨[1, 2, 3], toyCipher 16 7⟩ input = .ok enc →
        (input.length < m → enc.length = enc0.length) ∧
        (input.length = m → enc.length = enc0.length + 16) :=
  AESOracle2_Encrypt_length ⟨[1, 2, 3], toyCipher 16 7⟩ (toyCipher_WF 16 7 (by decide)) rfl

/-- C21: for every well-formed cipher with 16-byte blocks, every prefix of at
most 10 bytes, every suffix and every plaintext made of `n ≥ 112` equal bytes,
the ECB encryption of `Pad (prefix ++ plaintext ++ suffix) 16` is classified
as ECB: `IsECB` of the ciphertext, with block size 16, returns `true`. This is
so for `AESOracle` when its mode is ECB (`mode = 0`), whatever the IV, and for
`AESOracle2.Encrypt`, whose prefix is empty. -/
theorem ECB_identical_bytes_detected (cipher : Block) (hwf : cipher.WF)
    (hbs : cipher.BlockSize = 16) (before after : List Byte) (x : Byte) (n : Nat)
    (hb : before.length ≤ 10) (hn : 112 ≤ n) :
    (∃ ct : List Byte,
      ((Pad (before ++ List.replicate n x ++ after) 16).bind fun result =>
        ecbEncrypter.CryptBlocksInPlace (NewECBEncrypter cipher) result) = .ok ct ∧
      IsECB ct 16 = .ok true) ∧
    (∀ iv : List Byte, ∃ ct : List Byte,
      AESOracle before after cipher iv 0 (List.replicate n x) = .ok (ct, true) ∧
      IsECB ct 16 = .ok true) ∧
    (∃ ct : List Byte, AESOracle2.Encrypt ⟨after, cipher⟩ (List.replicate n x) = .ok ct ∧
      IsECB ct 16 = .ok true) := by
  obtain ⟨ct, hct, hecb⟩ :=
    AESOracle2.Encrypt_detected ⟨after, cipher⟩ hwf hbs before x n hb hn
  obtain ⟨ct2, hct2, hecb2⟩ :=
    AESOracle2.Encrypt_detected ⟨after, cipher⟩ hwf hbs [] x n (by simp) hn
  refine ⟨⟨ct, ?_, hecb⟩, fun iv => ⟨ct, ?_, hecb⟩, ⟨ct2, hct2, hecb2⟩⟩
  · rw [← hct, AESOracle2.Encrypt_eq_pad]
  · rw [AESOracle_ecb_eq, hct]
    rfl

theorem ECB_identical_bytes_detected_witness :
    (∃ ct : List Byte,
      ((Pad ([1, 2, 3, 4, 5] ++ List.replicate 160 0 ++ [6, 7, 8, 9, 10]) 16).bind fun result =>
        ecbEncrypter.CryptBlocksInPlace (NewECBEncrypter (toyCipher 16 7)) result) = .ok ct ∧
      IsECB ct 16 = .ok true) ∧
    (∀ iv : List Byte, ∃ ct : List Byte,
      AESOracle [1, 2, 3, 4, 5] [6, 7, 8, 9, 10] (toyCipher 16 7) iv 0 (List.replicate 160 0)
        = .ok (ct, true) ∧
      IsECB ct 16 = .ok true) ∧
    (∃ ct : List Byte,
      AESOracle2.Encrypt ⟨[6, 7, 8, 9, 10], toyCipher 16 7⟩ (List.replicate 160 0) = .ok ct ∧
      IsECB ct 16 = .ok true) :=
  ECB_identical_bytes_detected (toyCipher 16 7) (toyCipher_WF 16 7 (by decide)) rfl
    [1, 2, 3, 4, 5] [6, 7, 8, 9, 10] 0 160 (by decide) (by decide)

/-- The method `ECBNextUnknownByte`, called with the whole secret, returns the
padding byte 0x01; called with the secret and this byte, it finds no byte. -/
theorem AESOracle2.ECBNextUnknownByte_end (o : AESOracle2) (hwf : o.key.WF)
    (hbs : o.key.BlockSize = 16)
    (hinj : ∀ x y : List Byte, x.length = 16 → y.length = 16 →
      o.key.encryptBlock x = o.key.encryptBlock y → x = y) :
    o.ECBNextUnknownByte o.ciphertext 16 = .ok (some 1) ∧
    o.ECBNextUnknownByte (o.ciphertext ++ [1]) 16 = .ok none := by
  constructor
  · have hmod := Nat.mod_lt o.ciphertext.length (show 0 < 16 by decide)
    have hnp : 16 - ((16 - o.ciphertext.length % 16 - 1) + o.ciphertext.length) % 16 = 1 := by
      omega
    rw [AESOracle2.ECBNextUnknownByte_eq o hwf hbs o.ciphertext (by omega), hnp]
    have hk : (o.ciphertext ++ [1])[o.ciphertext.length]? = some (1 : Byte) := by
      rw [List.getElem?_append_right (Nat.le_refl _)]
      simp
    have ht := target_plain_block (o.ciphertext ++ [1]) [] o.ciphertext.length 1 hk
    rw [List.append_nil, List.take_left, ← List.append_assoc] at ht
    have hb1 : List.replicate 1 (byte 1) = [(1 : Byte)] := rfl
    rw [hb1, ht]
    have hl15 : ((List.replicate 15 (0 : Byte) ++ o.ciphertext).drop
        o.ciphertext.length).length = 15 := by
      rw [List.length_drop, List.length_append, List.length_replicate]; omega
    exact tryBytes_finds o hwf hbs hinj _ hl15 1 256 0 0 rfl (by decide)
  · have hL : (o.ciphertext ++ [(1 : Byte)]).length = o.ciphertext.length + 1 := by
      rw [List.length_append]; rfl
    have hmod := Nat.mod_lt (o.ciphertext.length + 1) (show 0 < 16 by decide)
    have hnp : 16 - ((16 - (o.ciphertext.length + 1) % 16 - 1) + o.ciphertext.length) % 16
        = 2 := by
      omega
    rw [AESOracle2.ECBNextUnknownByte_eq o hwf hbs _ (by rw [hL]; omega), hL, hnp]
    have hk : (o.ciphertext ++ [2, 2])[o.ciphertext.length + 1]? = some (2 : Byte) := by
      rw [List.getElem?_append_right (by omega)]
      simp
    have ht := target_plain_block (o.ciphertext ++ [2, 2]) [] (o.ciphertext.length + 1) 2 hk
    have htk : (o.ciphertext ++ [(2 : Byte), 2]).take (o.ciphertext.length + 1) =
        o.ciphertext ++ [2] := by
      rw [List.take_append]
      rfl
    rw [List.append_nil, htk, ← List.append_assoc] at ht
    have hb2 : List.replicate 2 (byte 2) = [(2 : Byte), 2] := rfl
    rw [hb2, ht]
    have hdrop : ∀ v : Byte, (List.replicate 15 (0 : Byte) ++ (o.ciphertext ++ [v])).drop
        (o.ciphertext.length + 1) =
        (List.replicate 15 (0 : Byte) ++ o.ciphertext).drop (o.ciphertext.length + 1) ++ [v] := by
      intro v
      rw [← List.append_assoc, List.drop_append_of_le_length
        (by rw [List.length_append, List.length_replicate]; omega)]
    rw [hdrop 1, hdrop 2]
    have hl14 : ((List.replicate 15 (0 : Byte) ++ o.ciphertext).drop
        (o.ciphertext.length + 1)).length = 14 := by
      rw [List.length_drop, List.length_append, List.length_replicate]; omega
    apply tryBytes_none o hwf hbs hinj
    · rw [List.length_append, hl14]; rfl
    · rw [List.length_append, List.length_append, hl14]; rfl
    · intro c heq
      rw [List.append_assoc, List.append_assoc] at heq
      have := List.append_cancel_left heq
      exact absurd (List.head_eq_of_cons_eq this) (by decide)

/-- C22: for every well-formed cipher with 16-byte blocks whose block
encryption is injective and every secret, `ECBNextUnknownByte` called with the
whole secret and block size 16 returns the byte 0x01 without error, and
called with the secret followed by 0x01 it returns its error, could not
determine next unknown byte. -/
theorem ECBNextUnknownByte_end_of_secret (o : AESOracle2) (hwf : o.key.WF)
    (hbs : o.key.BlockSize = 16)
    (hinj : ∀ x y : List Byte, x.length = 16 → y.length = 16 →
      o.key.encryptBlock x = o.key.encryptBlock y → x = y) :
    o.ECBNextUnknownByte o.ciphertext 16 = .ok (some 1) ∧
    o.ECBNextUnknownByte (o.ciphertext ++ [1]) 16 = .ok none :=
  AESOracle2.ECBNextUnknownByte_end o hwf hbs hinj

theorem ECBNextUnknownByte_end_of_secret_witness :
    AESOracle2.ECBNextUnknownByte ⟨[10, 20, 30], toyCipher 16 7⟩
      (AESOracle2.mk [10, 20, 30] (toyCipher 16 7)).ciphertext 16 = .ok (some 1) ∧
    AESOracle2.ECBNextUnknownByte ⟨[10, 20, 30], toyCipher 16 7⟩
      ((AESOracle2.mk [10, 20, 30] (toyCipher 16 7)).ciphertext ++ [1]) 16 = .ok none :=
  ECBNextUnknownByte_end_of_secret ⟨[10, 20, 30], toyCipher 16 7⟩
    (toyCipher_WF 16 7 (by decide)) rfl (fun x y _ _ h => toyCipher_injective 16 7 x y h)

/-! ## Lemmas on the recovery loop of `Problem12` -/

/-- The recovery loop from `k` recovered bytes on, for a secret whose length is
not 15 modulo 16: after the last byte of the secret the loop appends the
padding byte 0x01, the next call finds no byte, and the branch of the error
drops the 0x01. -/
theorem recoverLoop_drops_pad (o : AESOracle2) (hwf : o.key.WF) (hbs : o.key.BlockSize = 16)
    (hinj : ∀ x y : List Byte, x.length = 16 → y.length = 16 →
      o.key.encryptBlock x = o.key.encryptBlock y → x = y)
    (hL : o.ciphertext.length % 16 ≠ 15) :
    ∀ (j k fuel : Nat), k + j = o.ciphertext.length → j + 2 ≤ fuel →
    recoverLoop o 16 (16 * (o.ciphertext.length / 16 + 1)) fuel (o.ciphertext.take k) =
      .ok (some o.ciphertext) := by
  intro j
  induction j with
  | zero =>
    intro k fuel hk hf
    obtain ⟨f, rfl⟩ : ∃ f, fuel = f + 2 := ⟨fuel - 2, by omega⟩
    have hk2 : k = o.ciphertext.length := by omega
    rw [hk2, List.take_length]
    obtain ⟨h1, h2⟩ := AESOracle2.ECBNextUnknownByte_end o hwf hbs hinj
    have hl : (o.ciphertext ++ [(1 : Byte)]).length = o.ciphertext.length + 1 := by
      rw [List.length_append]; rfl
    rw [recoverLoop, if_pos (by omega), h1]
    simp only [Run.bind_ok]
    rw [recoverLoop, if_pos (by rw [hl]; omega), h2]
    simp only [Run.bind_ok]
    rw [hl, if_pos (by push_cast; omega), Nat.add_sub_cancel,
      List.getElem?_append_right (Nat.le_refl _)]
    simp only [Nat.sub_self, List.getElem?_cons_zero]
    rw [if_pos (by decide), List.take_left]
  | succ j ih =>
    intro k fuel hk hf
    obtain ⟨f, rfl⟩ : ∃ f, fuel = f + 1 := ⟨fuel - 1, by omega⟩
    have hlt : k < o.ciphertext.length := by omega
    have hS : (o.ciphertext.take k).length = k := by rw [List.length_take]; omega
    have hnext := AESOracle2.ECBNextUnknownByte_next o hwf hbs hinj k o.ciphertext[k]
      (List.getElem?_eq_getElem hlt)
    rw [recoverLoop, hS, if_pos (by omega), hnext]
    simp only [Run.bind_ok]
    have ht : o.ciphertext.take k ++ [o.ciphertext[k]] = o.ciphertext.take (k + 1) := by
      rw [List.take_succ, List.getElem?_eq_getElem hlt]
      rfl
    rw [ht]
    exact ih (k + 1) f (by omega) (by omega)

/-- The recovery loop from `k` recovered bytes on, for a secret whose length is
15 modulo 16: with the padding byte 0x01 appended `unknown` has reached
`unknownLength`, and the loop is left by its condition. -/
theorem recoverLoop_keeps_pad (o : AESOracle2) (hwf : o.key.WF) (hbs : o.key.BlockSize = 16)
    (hinj : ∀ x y : List Byte, x.length = 16 → y.length = 16 →
      o.key.encryptBlock x = o.key.encryptBlock y → x = y)
    (hL : o.ciphertext.length % 16 = 15) :
    ∀ (j k fuel : Nat), k + j = o.ciphertext.length → j + 1 ≤ fuel →
    recoverLoop o 16 (16 * (o.ciphertext.length / 16 + 1)) fuel (o.ciphertext.take k) =
      .ok (some (o.ciphertext ++ [1])) := by
  intro j
  induction j with
  | zero =>
    intro k fuel hk hf
    obtain ⟨f, rfl⟩ : ∃ f, fuel = f + 1 := ⟨fuel - 1, by omega⟩
    have hk2 : k = o.ciphertext.length := by omega
    rw [hk2, List.take_length]
    obtain ⟨h1, -⟩ := AESOracle2.ECBNextUnknownByte_end o hwf hbs hinj
    have hl : (o.ciphertext ++ [(1 : Byte)]).length = o.ciphertext.length + 1 := by
      rw [List.length_append]; rfl
    rw [recoverLoop, if_pos (by omega), h1]
    simp only [Run.bind_ok]
    cases f with
    | zero => rw [recoverLoop, if_neg (by rw [hl]; omega)]
    | succ f => rw [recoverLoop, if_neg (by rw [hl]; omega)]
  | succ j ih =>
    intro k fuel hk hf
    obtain ⟨f, rfl⟩ : ∃ f, fuel = f + 1 := ⟨fuel - 1, by omega⟩
    have hlt : k < o.ciphertext.length := by omega
    have hS : (o.ciphertext.take k).length = k := by rw [List.length_take]; omega
    have hnext := AESOracle2.ECBNextUnknownByte_next o hwf hbs hinj k o.ciphertext[k]
      (List.getElem?_eq_getElem hlt)
    rw [recoverLoop, hS, if_pos (by omega), hnext]
    simp only [Run.bind_ok]
    have ht : o.ciphertext.take k ++ [o.ciphertext[k]] = o.ciphertext.take (k + 1) := by
      rw [List.take_succ, List.getElem?_eq_getElem hlt]
      rfl
    rw [ht]
    exact ih (k + 1) f (by omega) (by omega)

/-! ## Claim on the recovery loop of `Problem12` -/

/-- C16 (counterexample): with a secret of 15 zero bytes (a cipher with 16-byte
blocks, injective) the recovery loop of `Problem12` ends normally with
`unknown` equal to the secret followed by the byte 0x01: the 16th call of
`ECBNextUnknownByte` returns the padding byte, and the loop is left because
`len unknown` has reached `unknownLength`, so the byte is never dropped. -/
theorem Problem12Recovery_keeps_pad_byte :
    Problem12Recovery ⟨make 15, toyCipher 16 7⟩ 16 = .ok (some (make 15 ++ [1])) ∧
    Problem12Recovery ⟨make 15, toyCipher 16 7⟩ 16 ≠ .ok (some (make 15)) := by
  decide

/-- C16: for every well-formed cipher with 16-byte blocks whose block
encryption is injective and every secret, the recovery loop of `Problem12`,
run with block size 16, ends without error, and `unknown` is then exactly the
secret when the length of the secret is not 15 modulo 16, and the secret
followed by the byte 0x01 when it is 15 modulo 16. -/
theorem Problem12Recovery_result (o : AESOracle2) (hwf : o.key.WF)
    (hbs : o.key.BlockSize = 16)
    (hinj : ∀ x y : List Byte, x.length = 16 → y.length = 16 →
      o.key.encryptBlock x = o.key.encryptBlock y → x = y) :
    Problem12Recovery o 16 =
      .ok (some (if o.ciphertext.length % 16 = 15 then o.ciphertext ++ [1]
        else o.ciphertext)) := by
  obtain ⟨enc, henc, hlen⟩ := AESOracle2.Encrypt_length o hwf hbs []
  rw [List.length_nil, Nat.zero_add] at hlen
  unfold Problem12Recovery
  rw [henc]
  simp only [Run.bind_ok]
  rw [hlen]
  have h0 : o.ciphertext.take 0 = [] := rfl
  by_cases hL : o.ciphertext.length % 16 = 15
  · rw [if_pos hL, ← h0]
    exact recoverLoop_keeps_pad o hwf hbs hinj hL o.ciphertext.length 0 _
      (by omega) (by omega)
  · rw [if_neg hL, ← h0]
    exact recoverLoop_drops_pad o hwf hbs hinj hL o.ciphertext.length 0 _
      (by omega) (by omega)

/-- The recovery loop on the 138-byte text of `Problem12` (138 = 8 * 16 + 10)
ends with exactly this text. -/
theorem Problem12Recovery_result_witness :
    Problem12Recovery ⟨problem12Text, toyCipher 16 7⟩ 16 = .ok (some problem12Text) := by
  have h := Problem12Recovery_result ⟨problem12Text, toyCipher 16 7⟩
    (toyCipher_WF 16 7 (by decide)) rfl (fun x y _ _ h => toyCipher_injective 16 7 x y h)
  have hlen : (AESOracle2.mk problem12Text (toyCipher 16 7)).ciphertext.length = 138 := by rfl
  rw [hlen, if_neg (by decide)] at h
  exact h

end Matasano
